import Mathlib

/-!
Verification of the `isomorphism` crate: a bidirectional hashmap (`BiMap`)
implemented with hopscotch hashing.

Shallow embedding conventions:
* Rust `usize` values are modelled as `Nat`; `usize::max_value()` is the
  constant `usize_max`.  The one place where the modulus can be zero
  (`find_ideal_index` with an empty bucket array) is modelled by returning
  `none`, mirroring the division-by-zero panic of `hash % 0`.
* Panics (failed `unwrap`, out-of-bounds indexing, assertion failures in
  `BiMap::invariants`, arithmetic underflow) are modelled by `Option`:
  an operation that panics returns `none`.
* The unbounded recursions of `BiMap::insert` (resize-and-retry) and
  `BiMap::insert_one_sided` (relocation chains) are modelled with an explicit
  fuel parameter; running out of fuel also yields `none`.  All theorems about
  these operations quantify over the fuel.
* The generic bitfield type `B` (an unsigned integer of width `W`) is
  modelled as a `Nat` together with the width parameter `W`; all bitfield
  values produced by the code are `< 2 ^ W`.
* Hash builders are modelled as plain functions `K → Nat` giving the value of
  `hasher.finish()`; they are passed to each operation (the Rust code stores
  them in the struct, but they are immutable).
* The floating point constant `MAX_LOAD_FACTOR = 1.1f32` is modelled by the
  exact rational value of its f32 bit pattern, `9227469 / 8388608`; the
  multiplications, divisions, `ceil` and `floor` applied to it in
  `builder.rs::finish` and `lib.rs::capacity` are carried out in exact
  arithmetic (per-operation f32 re-rounding and saturating casts are
  idealized away).
-/

/-- Rust `usize::max_value()`, used by `insert_one_sided` as a placeholder
pair index for a freshly placed key. -/
def usize_max : Nat := 2 ^ 64 - 1

/-- `DEFAULT_HASH_MAP_SIZE` from `lib.rs`. -/
def DEFAULT_HASH_MAP_SIZE : Nat := 32

/-- `RESIZE_GROWTH_FACTOR` from `lib.rs`. -/
def RESIZE_GROWTH_FACTOR : Nat := 2

/-- Numerator of the exact rational value of the f32 constant
`MAX_LOAD_FACTOR = 1.1f32` (bit pattern `0x3F8CCCCD`, value
`9227469 / 2^23`). -/
def MAX_LOAD_NUM : Nat := 9227469

/-- Denominator (`2 ^ 23`) of the exact rational value of `1.1f32`. -/
def MAX_LOAD_DEN : Nat := 8388608

/-! ## Bitfield (`src/bitfield.rs`)

A bitfield of width `W` is a `Nat` that is `< 2 ^ W`. -/

/-- `BitField::one_at(index)`: all zeroes except a single one at `index`
(`1 << index`, truncated to the `W`-bit integer type). -/
def one_at (W i : Nat) : Nat := 2 ^ i % 2 ^ W

/-- `BitField::zero_at(index)`: all ones except a single zero at `index`
(`!(1 << index)` on a `W`-bit integer, i.e. complement inside `W` bits). -/
def zero_at (W i : Nat) : Nat := (2 ^ W - 1) ^^^ one_at W i

/-- `BitField::full()`: `*self == Self::one_at(0) | Self::zero_at(0)`. -/
def bitfield_full (W b : Nat) : Bool := b == (one_at W 0 ||| zero_at W 0)

/-- The indices of the set bits of `b`, least significant first: the
denotation of `BitField::iter` for a value `b < 2 ^ fuel` of a `fuel`-bit
integer type.  Structural recursion on the width so that it always
terminates; for `b < 2 ^ fuel` the result is exactly all set bits of `b`. -/
def bit_indices_from (fuel : Nat) (b : Nat) (shift : Nat) : List Nat :=
  match fuel with
  | 0 => []
  | fuel + 1 =>
    if b = 0 then []
    else if b % 2 = 1 then shift :: bit_indices_from fuel (b / 2) (shift + 1)
    else bit_indices_from fuel (b / 2) (shift + 1)

/-- `BitField::iter` collected into a list: indices of the set bits of a
`W`-bit value, ascending. -/
def bit_indices (W b : Nat) : List Nat := bit_indices_from W b 0

/-- One step of the inner `while 1 & bitfield == 0` loop of
`BitFieldIterator::next`: repeatedly shift right until the low bit is set.
`fuel` is the width of the integer type (the loop runs at most `W` times on
a nonzero `W`-bit value; `fuel` running out or `b = 0` only happens outside
that domain). -/
def skip_zeros (fuel : Nat) (b i : Nat) : Nat × Nat :=
  match fuel with
  | 0 => (b, i)
  | fuel + 1 => if b % 2 = 1 then (b, i) else skip_zeros fuel (b / 2) (i + 1)

/-- `BitFieldIterator::next` for a `W`-bit bitfield: state is the pair
`(bitfield, index)`; returns the yielded index and the successor state, or
`none` when the bitfield is exhausted. -/
def bitfield_iter_next (W : Nat) (s : Nat × Nat) : Option (Nat × (Nat × Nat)) :=
  if s.1 = 0 then none
  else
    let t := skip_zeros W s.1 s.2
    some (t.2, (t.1 / 2, t.2 + 1))

/-- Runs `bitfield_iter_next` to exhaustion, collecting the yielded indices.
`fuel` bounds the number of yields; a `W`-bit value yields at most `W`
indices, so `fuel = W` collects the whole (finite) sequence. -/
def bitfield_iter_list (W : Nat) (fuel : Nat) (s : Nat × Nat) : List Nat :=
  match fuel with
  | 0 => []
  | fuel + 1 =>
    match bitfield_iter_next W s with
    | none => []
    | some (o, s') => o :: bitfield_iter_list W fuel s'

/-! ## Buckets (`src/bucket.rs`) -/

/-- A single bucket: `data` is the optional `(key, pair_index, ideal_index)`
triple, `neighbourhood` the `W`-bit bitfield. -/
structure Bucket (K : Type) where
  data : Option (K × Nat × Nat)
  neighbourhood : Nat
deriving DecidableEq, Repr

/-- `Bucket::empty_vec(size)`: `size` buckets with no data and neighbourhood
`one_at(0) & zero_at(0)`. -/
def empty_vec (W : Nat) (K : Type) (size : Nat) : List (Bucket K) :=
  List.replicate size ⟨none, one_at W 0 &&& zero_at W 0⟩

/-- Bucket at index `i`; all uses in the operations are at indices already
reduced modulo the (positive) array length, hence in bounds, so a default
bucket is returned out of range instead of threading `Option`. -/
def bucket_at {K : Type} (data : List (Bucket K)) (i : Nat) : Bucket K :=
  (data[i]?).getD ⟨none, 0⟩

/-- The stored triple at slot `i` (`none` when out of range or free). -/
def slot_data {K : Type} (data : List (Bucket K)) (i : Nat) :
    Option (K × Nat × Nat) :=
  data[i]?.bind Bucket.data

/-- The neighbourhood bitfield of slot `i` (`0` out of range). -/
def nb_at {K : Type} (data : List (Bucket K)) (i : Nat) : Nat :=
  (bucket_at data i).neighbourhood

/-- Replace the `data` field of slot `i` (`List.set` is the identity out of
range; all call sites are in bounds). -/
def set_data {K : Type} (data : List (Bucket K)) (i : Nat)
    (d : Option (K × Nat × Nat)) : List (Bucket K) :=
  data.set i ⟨d, (bucket_at data i).neighbourhood⟩

/-- Replace the `neighbourhood` field of slot `i` (identity out of range). -/
def set_nb {K : Type} (data : List (Bucket K)) (i : Nat) (nb : Nat) :
    List (Bucket K) :=
  data.set i ⟨(bucket_at data i).data, nb⟩

/-- Is slot `i` occupied? -/
def occupied {K : Type} (data : List (Bucket K)) (i : Nat) : Bool :=
  (slot_data data i).isSome

/-! ## The map structure and helpers (`src/lib.rs`) -/

/-- The `BiMap` struct: pair count and the two bucket arrays.  The hash
builders are modelled as functions passed to each operation. -/
structure BiMap (L R : Type) where
  len : Nat
  left_data : List (Bucket L)
  right_data : List (Bucket R)
deriving DecidableEq, Repr

/-- `BiMap::find_ideal_index`: `hasher.finish() as usize % len`.  When
`len = 0` the Rust expression panics with a division by zero; this is
modelled by `none`. -/
def find_ideal_index {K : Type} (h : K → Nat) (len : Nat) (key : K) :
    Option Nat :=
  if len = 0 then none else some (h key % len)

/-- `BiMap::mark_as_full`: set bit `(len + actual - ideal) % len` in the
neighbourhood of slot `ideal`. -/
def mark_as_full {K : Type} (W : Nat) (ideal actual : Nat)
    (data : List (Bucket K)) : List (Bucket K) :=
  let offset := (data.length + actual - ideal) % data.length
  set_nb data ideal (nb_at data ideal ||| one_at W offset)

/-- `BiMap::mark_as_empty`: clear bit `(len + actual - ideal) % len` in the
neighbourhood of slot `ideal`. -/
def mark_as_empty {K : Type} (W : Nat) (ideal actual : Nat)
    (data : List (Bucket K)) : List (Bucket K) :=
  let offset := (data.length + actual - ideal) % data.length
  set_nb data ideal (nb_at data ideal &&& zero_at W offset)

/-- The lazy scan inside `BiMap::get`: walk the set-bit offsets of the ideal
slot's neighbourhood; skip offsets whose slot is free or holds a different
key; on a key match, look up the paired slot (`none` models the panic of an
out-of-bounds `value_data[pair_index]`), skipping it if it is free. -/
def get_scan {K V : Type} [DecidableEq K] (key : K)
    (key_data : List (Bucket K)) (value_data : List (Bucket V))
    (ideal len : Nat) : List Nat → Option (Option V)
  | [] => some none
  | off :: rest =>
    match slot_data key_data ((ideal + off) % len) with
    | none => get_scan key key_data value_data ideal len rest
    | some (k, pair_index, _) =>
      if k = key then
        match value_data[pair_index]? with
        | none => none
        | some vb =>
          match vb.data with
          | none => get_scan key key_data value_data ideal len rest
          | some (v, _, _) => some (some v)
      else get_scan key key_data value_data ideal len rest

/-- `BiMap::get` (one-sided lookup used by `get_left` / `get_right`). -/
def bimap_get {K V : Type} [DecidableEq K] (W : Nat) (h : K → Nat) (key : K)
    (key_data : List (Bucket K)) (value_data : List (Bucket V)) :
    Option (Option V) :=
  let len := key_data.length
  match find_ideal_index h len key with
  | none => none
  | some ideal =>
    get_scan key key_data value_data ideal len
      (bit_indices W (nb_at key_data ideal))

/-- `BiMap::remove` (one-sided removal, also clears the paired slot in the
other array).  Returns the removed `(key, value)` pair if present, along
with the updated arrays and pair count. -/
def bimap_remove {K V : Type} [DecidableEq K] [DecidableEq V] (W : Nat)
    (key_hasher : K → Nat) (value_hasher : V → Nat) (key : K)
    (key_data : List (Bucket K)) (value_data : List (Bucket V))
    (map_len : Nat) :
    Option (Option (K × V) × List (Bucket K) × List (Bucket V) × Nat) :=
  let len := key_data.length
  match find_ideal_index key_hasher len key with
  | none => none
  | some index =>
    let neighbourhood := nb_at key_data index
    match (bit_indices W neighbourhood).find? (fun offset =>
        match slot_data key_data ((index + offset) % len) with
        | some (candidate_key, _, _) => decide (candidate_key = key)
        | none => false) with
    | none => some (none, key_data, value_data, map_len)
    | some offset =>
      let key_data := set_nb key_data index
        (neighbourhood &&& zero_at W offset)
      match slot_data key_data ((index + offset) % len) with
      | none => none
      | some (k, value_index, _) =>
        let key_data := set_data key_data ((index + offset) % len) none
        match value_data[value_index]? with
        | none => none
        | some vb =>
          match vb.data with
          | none => none
          | some (v, _, _) =>
            let value_data := set_data value_data value_index none
            match find_ideal_index value_hasher len v with
            | none => none
            | some ideal_value_index =>
              let value_offset := (value_index + len - ideal_value_index) % len
              let value_data := set_nb value_data ideal_value_index
                (nb_at value_data ideal_value_index &&& zero_at W value_offset)
              if map_len = 0 then none
              else some (some (k, v), key_data, value_data, map_len - 1)

/-- The backward candidate scan of `insert_one_sided` step 5: walk the
positions `(len + max_offset - i) % len` for `i = 1, …, W-1` and return the
first whose occupant's stored ideal satisfies
`ideal > ideal_index || ideal < max_offset`; the Rust closure `unwrap`s the
occupant, so an empty slot in the window is a panic (`none`). -/
def candidate_scan {K : Type} (key_data : List (Bucket K))
    (ideal_index max_offset len : Nat) : List Nat → Option (Option Nat)
  | [] => some none
  | i :: rest =>
    let pos := (len + max_offset - i) % len
    match slot_data key_data pos with
    | none => none
    | some (_, _, ideal) =>
      if ideal > ideal_index ∨ ideal < max_offset then some (some pos)
      else candidate_scan key_data ideal_index max_offset len rest

/-- `BiMap::insert_one_sided`.  Places `key` into `key_data`, relocating
occupants hopscotch-style; cross-indices of relocated entries are fixed up
in `value_data`.  `Except.ok index` means the key now sits at `index` (with
pair index `usize_max`, to be linked by the caller); `Except.error key`
reports a failed placement.  `fuel` bounds the recursion depth of the
relocation chain. -/
def insert_one_sided {K V : Type} (W : Nat) (fuel : Nat) (key : K)
    (key_data : List (Bucket K)) (value_data : List (Bucket V))
    (hasher : K → Nat) :
    Option (Except K Nat × List (Bucket K) × List (Bucket V)) :=
  match fuel with
  | 0 => none
  | fuel + 1 =>
    let len := key_data.length
    match find_ideal_index hasher len key with
    | none => none
    | some ideal_index =>
      if bitfield_full W (nb_at key_data ideal_index) then
        some (.error key, key_data, value_data)
      else
        match (List.range len).find? (fun offset =>
            !(occupied key_data ((ideal_index + offset) % len))) with
        | none => some (.error key, key_data, value_data)
        | some offset =>
          if offset < W then
            let index := (offset + ideal_index) % len
            let key_data := mark_as_full W ideal_index index key_data
            let key_data := set_data key_data index
              (some (key, usize_max, ideal_index))
            some (.ok index, key_data, value_data)
          else
            let max_offset := (ideal_index + W) % len
            match candidate_scan key_data ideal_index max_offset len
                ((List.range W).drop 1) with
            | none => none
            | some none => some (.error key, key_data, value_data)
            | some (some index) =>
              match slot_data key_data index with
              | none => none
              | some (new_key, new_value, new_ideal) =>
                let key_data := set_data key_data index
                  (some (key, usize_max, ideal_index))
                match insert_one_sided W fuel new_key key_data value_data
                    hasher with
                | none => none
                | some (.ok new_key_index, key_data, value_data) =>
                  match value_data[new_value]? with
                  | none => none
                  | some vb =>
                    match vb.data with
                    | none => none
                    | some (vk, _, vi) =>
                      let value_data := set_data value_data new_value
                        (some (vk, new_key_index, vi))
                      match slot_data key_data new_key_index with
                      | none => none
                      | some (kk, _, ki) =>
                        let key_data := set_data key_data new_key_index
                          (some (kk, new_value, ki))
                        let key_data := mark_as_empty W new_ideal index key_data
                        let key_data := mark_as_full W new_ideal new_key_index
                          key_data
                        let key_data := mark_as_full W ideal_index index key_data
                        some (.ok index, key_data, value_data)
                | some (.error new_key2, key_data, value_data) =>
                  match slot_data key_data index with
                  | none => none
                  | some (k2, _, _) =>
                    let key_data := set_data key_data index
                      (some (new_key2, new_value, new_ideal))
                    some (.error k2, key_data, value_data)

/-- The self-check `BiMap::invariants` as a boolean: the conjunction of all
the `assert!`s (an assertion failure, or a panic raised while evaluating
one, is `false`). -/
def invariants_check {L R : Type} [DecidableEq L] [DecidableEq R] (W : Nat)
    (left_hasher : L → Nat) (right_hasher : R → Nat) (m : BiMap L R) : Bool :=
  let len := m.left_data.length
  (m.left_data.length == m.right_data.length) &&
  ((List.range m.left_data.length).all (fun i =>
    match slot_data m.left_data i with
    | none => true
    | some (key, _, ideal) =>
      (find_ideal_index left_hasher len key == some ideal) &&
      (ideal < len : Bool) &&
      bitfield_full W (nb_at m.left_data ideal |||
        zero_at W ((len + i - ideal) % len)))) &&
  ((List.range m.right_data.length).all (fun i =>
    match slot_data m.right_data i with
    | none => true
    | some (key, _, ideal) =>
      (find_ideal_index right_hasher len key == some ideal) &&
      (ideal < len : Bool) &&
      bitfield_full W (nb_at m.right_data ideal |||
        zero_at W ((len + i - ideal) % len)))) &&
  ((List.range m.left_data.length).all (fun i =>
    match slot_data m.left_data i with
    | none => true
    | some (_, value, _) =>
      match slot_data m.right_data value with
      | none => false
      | some (_, pair_value, _) => pair_value == i)) &&
  ((List.range m.right_data.length).all (fun i =>
    match slot_data m.right_data i with
    | none => true
    | some (_, value, _) =>
      match slot_data m.left_data value with
      | none => false
      | some (_, pair_value, _) => pair_value == i)) &&
  (m.left_data.countP (fun b => b.data.isSome) == m.len) &&
  (m.right_data.countP (fun b => b.data.isSome) == m.len)

/-- The draining iterator `IntoIter` (`src/iterator.rs`) collected into a
list: scan the left array in index order; each occupied slot contributes
`(left_key, right_key_of_its_pair)` (an invalid pair index is an `unwrap`
panic, modelled by `none`).  The taken right slots are cleared as the Rust
iterator does. -/
def drain_pairs_go {L R : Type} (left_data : List (Bucket L)) :
    Nat → List (Bucket R) → Nat → Option (List (L × R))
  | 0, _, _ => some []
  | remaining + 1, right_data, index =>
    match slot_data left_data index with
    | none => drain_pairs_go left_data remaining right_data (index + 1)
    | some (l, right_index, _) =>
      match slot_data right_data right_index with
      | none => none
      | some (r, _, _) =>
        (drain_pairs_go left_data remaining
          (set_data right_data right_index none) (index + 1)).map
          (fun rest => (l, r) :: rest)

/-- `IntoIter` collected: the loop runs `index` from `0` to
`left_data.len()`, so `remaining` starts as the array length. -/
def drain_pairs {L R : Type} (left_data : List (Bucket L))
    (right_data : List (Bucket R)) : Option (List (L × R)) :=
  drain_pairs_go left_data left_data.length right_data 0

/-- `MAX_LOAD_FACTOR * len >= n` (the resize trigger in `BiMap::insert`),
in exact rational arithmetic with `MAX_LOAD_FACTOR = 9227469 / 8388608`. -/
def load_exceeded (len n : Nat) : Bool :=
  MAX_LOAD_NUM * len ≥ MAX_LOAD_DEN * n

/-- The reinsertion loop of the resize branch (`for_each` over
`iter::once((left, right)).chain(IntoIter::new(..))`): insert each pair in
order with the given insert operation, discarding the per-insert outputs. -/
def run_inserts {L R : Type}
    (ins : BiMap L R → L → R → Option ((Option R × Option L) × BiMap L R)) :
    BiMap L R → List (L × R) → Option (BiMap L R)
  | m, [] => some m
  | m, (l, r) :: rest =>
    match ins m l r with
    | none => none
    | some (_, m') => run_inserts ins m' rest

/-- `BiMap::insert`.  Returns the `(Option R, Option L)` of evicted
counterparts and the updated map, or `none` on panic / fuel exhaustion.
The four `self.invariants()` assertions are modelled by gating on
`invariants_check`; the `usize` product `left_data.len() *
RESIZE_GROWTH_FACTOR` computed in the resize branch overflows (debug
panic; in any case the doubled allocation is impossible) when it exceeds
`usize::max_value()`, which is modelled by `none`. -/
def bimap_insert {L R : Type} [DecidableEq L] [DecidableEq R] (W : Nat)
    (left_hasher : L → Nat) (right_hasher : R → Nat) :
    Nat → BiMap L R → L → R → Option ((Option R × Option L) × BiMap L R)
  | 0, _, _, _ => none
  | fuel + 1, m, left, right =>
    if !(invariants_check W left_hasher right_hasher m) then none
    else
      match bimap_remove W left_hasher right_hasher left m.left_data
          m.right_data m.len with
      | none => none
      | some (res_left, left_data, right_data, len) =>
        let step2 :
            Option ((Option R × Option L) ×
              List (Bucket L) × List (Bucket R) × Nat) :=
          match res_left with
          | some (old_left, old_right) =>
            if old_right = right then
              some ((some old_right, some old_left), left_data, right_data, len)
            else
              match bimap_remove W right_hasher left_hasher right right_data
                  left_data len with
              | none => none
              | some (res_right, right_data, left_data, len) =>
                some ((some old_right, res_right.map (fun p => p.2)),
                  left_data, right_data, len)
          | none =>
            match bimap_remove W right_hasher left_hasher right right_data
                left_data len with
            | none => none
            | some (res_right, right_data, left_data, len) =>
              some ((none, res_right.map (fun p => p.2)),
                left_data, right_data, len)
        match step2 with
        | none => none
        | some (output, left_data, right_data, len) =>
          if !(invariants_check W left_hasher right_hasher
              ⟨len, left_data, right_data⟩) then none
          else
            let placed :
                Option (Option (L × R) ×
                  List (Bucket L) × List (Bucket R)) :=
              if load_exceeded len left_data.length then
                some (some (left, right), left_data, right_data)
              else
                match insert_one_sided W fuel left left_data right_data
                    left_hasher with
                | none => none
                | some (.error left, left_data, right_data) =>
                  some (some (left, right), left_data, right_data)
                | some (.ok left_index, left_data, right_data) =>
                  match insert_one_sided W fuel right right_data left_data
                      right_hasher with
                  | none => none
                  | some (.ok right_index, right_data, left_data) =>
                    match slot_data left_data left_index with
                    | none => none
                    | some (lk, _, li) =>
                      let left_data := set_data left_data left_index
                        (some (lk, right_index, li))
                      match slot_data right_data right_index with
                      | none => none
                      | some (rk, _, ri) =>
                        let right_data := set_data right_data right_index
                          (some (rk, left_index, ri))
                        some (none, left_data, right_data)
                  | some (.error right, right_data, left_data) =>
                    match slot_data left_data left_index with
                    | none => none
                    | some (left, _, left_ideal) =>
                      let left_data := set_data left_data left_index none
                      let left_data :=
                        mark_as_empty W left_ideal left_index left_data
                      some (some (left, right), left_data, right_data)
            match placed with
            | none => none
            | some (failure, left_data, right_data) =>
              let len := if failure.isNone then len + 1 else len
              let m2 : BiMap L R := ⟨len, left_data, right_data⟩
              if !(invariants_check W left_hasher right_hasher m2) then none
              else
                match failure with
                | none => some (output, m2)
                | some (l, r) =>
                  let capacity := left_data.length * RESIZE_GROWTH_FACTOR
                  if usize_max < capacity then none else
                  match drain_pairs left_data right_data with
                  | none => none
                  | some pairs =>
                    match run_inserts
                        (fun m l r =>
                          bimap_insert W left_hasher right_hasher fuel m l r)
                        ⟨0, empty_vec W L capacity, empty_vec W R capacity⟩
                        ((l, r) :: pairs) with
                    | none => none
                    | some m3 =>
                      if !(invariants_check W left_hasher right_hasher m3) then
                        none
                      else some (output, m3)

/-- `BiMap::get_left` (including the `self.invariants()` gate). -/
def get_left {L R : Type} [DecidableEq L] [DecidableEq R] (W : Nat)
    (left_hasher : L → Nat) (right_hasher : R → Nat) (m : BiMap L R)
    (key : L) : Option (Option R) :=
  if invariants_check W left_hasher right_hasher m then
    bimap_get W left_hasher key m.left_data m.right_data
  else none

/-- `BiMap::get_right`. -/
def get_right {L R : Type} [DecidableEq L] [DecidableEq R] (W : Nat)
    (left_hasher : L → Nat) (right_hasher : R → Nat) (m : BiMap L R)
    (key : R) : Option (Option L) :=
  if invariants_check W left_hasher right_hasher m then
    bimap_get W right_hasher key m.right_data m.left_data
  else none

/-- `BiMap::remove_left`. -/
def remove_left {L R : Type} [DecidableEq L] [DecidableEq R] (W : Nat)
    (left_hasher : L → Nat) (right_hasher : R → Nat) (m : BiMap L R)
    (key : L) : Option (Option R × BiMap L R) :=
  if invariants_check W left_hasher right_hasher m then
    match bimap_remove W left_hasher right_hasher key m.left_data m.right_data
        m.len with
    | none => none
    | some (res, left_data, right_data, len) =>
      some (res.map (fun p => p.2), ⟨len, left_data, right_data⟩)
  else none

/-- `BiMap::remove_right`. -/
def remove_right {L R : Type} [DecidableEq L] [DecidableEq R] (W : Nat)
    (left_hasher : L → Nat) (right_hasher : R → Nat) (m : BiMap L R)
    (key : R) : Option (Option L × BiMap L R) :=
  if invariants_check W left_hasher right_hasher m then
    match bimap_remove W right_hasher left_hasher key m.right_data m.left_data
        m.len with
    | none => none
    | some (res, right_data, left_data, len) =>
      some (res.map (fun p => p.2), ⟨len, left_data, right_data⟩)
  else none

/-- `BiMapBuilder::finish` (`src/builder.rs`): requested capacity `0` gives
zero-length arrays; otherwise the array length is
`ceil(max(DEFAULT_HASH_MAP_SIZE, cap) * MAX_LOAD_FACTOR)`. -/
def builder_finish (W : Nat) (L R : Type) (cap : Nat) : BiMap L R :=
  let capacity :=
    if cap = 0 then 0
    else (Nat.max DEFAULT_HASH_MAP_SIZE cap * MAX_LOAD_NUM + (MAX_LOAD_DEN - 1))
      / MAX_LOAD_DEN
  ⟨0, empty_vec W L capacity, empty_vec W R capacity⟩

/-! ### Bit-exact `f32` arithmetic for the capacity computations

`BiMapBuilder::finish` and `BiMap::capacity` compute with `f32`
(`(max(32, cap) as f32 * 1.1f32).ceil() as usize` and
`(len as f32 / 1.1f32).floor() as usize`).  The model below rounds exact
rationals to the nearest single-precision value (ties to even), which is
IEEE-754 semantics on the normal, non-overflowing range these computations
inhabit (every intermediate lies in `[2^-30, 2^70]`). -/

/-- Round the rational `a / b` to the nearest integer, ties to even. -/
def rne_div (a b : Nat) : Nat :=
  let q := a / b
  let r := a % b
  if 2 * r < b then q
  else if b < 2 * r then q + 1
  else if q % 2 = 0 then q else q + 1

/-- `⌊log₂ n⌋` (0 for `n ≤ 1`), by fueled halving so that it reduces in the
kernel. -/
def log2_floor : Nat → Nat → Nat
  | 0, _ => 0
  | fuel + 1, n => if n ≤ 1 then 0 else log2_floor fuel (n / 2) + 1

/-- Smallest `k ≤ fuel` with `b ≤ a * 2 ^ k`. -/
def scale_up : Nat → Nat → Nat → Nat
  | 0, _, _ => 0
  | fuel + 1, a, b => if b ≤ a then 0 else scale_up fuel (2 * a) b + 1

/-- The exact value, as a `(numerator, power-of-two denominator)` pair, of
the `f32` nearest to the positive rational `a / b`: the significand is the
24-bit round-to-nearest-even approximation at the binade of `a / b`. -/
def round_f32 (a b : Nat) : Nat × Nat :=
  if a = 0 then (0, 1)
  else if b ≤ a then
    let e := log2_floor 128 (a / b)
    if 23 ≤ e then (rne_div a (b * 2 ^ (e - 23)) * 2 ^ (e - 23), 1)
    else (rne_div (a * 2 ^ (23 - e)) b, 2 ^ (23 - e))
  else
    let k := scale_up 64 a b
    (rne_div (a * 2 ^ (23 + k)) b, 2 ^ (23 + k))

/-- `f32` multiplication of nonnegative values (correctly rounded). -/
def f32_mul (x y : Nat × Nat) : Nat × Nat :=
  round_f32 (x.1 * y.1) (x.2 * y.2)

/-- `f32` division of nonnegative values (correctly rounded). -/
def f32_div (x y : Nat × Nat) : Nat × Nat :=
  round_f32 (x.1 * y.2) (x.2 * y.1)

/-- The constant `MAX_LOAD_FACTOR = 1.1f32`, whose stored value is exactly
`9227469 / 2^23`. -/
def MAX_LOAD_FACTOR_F32 : Nat × Nat := (MAX_LOAD_NUM, MAX_LOAD_DEN)

/-- `usize as f32` (round to nearest even). -/
def usize_to_f32 (n : Nat) : Nat × Nat := round_f32 n 1

/-- `.ceil()` of a nonnegative `f32` followed by the saturating `as usize`
cast (the ceiling of any nonnegative float is exactly representable). -/
def f32_ceil_to_usize (x : Nat × Nat) : Nat :=
  min ((x.1 + (x.2 - 1)) / x.2) usize_max

/-- `.floor()` of a nonnegative `f32` followed by `as usize`. -/
def f32_floor_to_usize (x : Nat × Nat) : Nat :=
  min (x.1 / x.2) usize_max

/-- The array length `finish` allocates for a nonzero request:
`(cmp::max(DEFAULT_HASH_MAP_SIZE, cap) as f32 * MAX_LOAD_FACTOR).ceil()
as usize`, with every step in `f32`. -/
def finish_capacity_f32 (cap : Nat) : Nat :=
  if cap = 0 then 0
  else f32_ceil_to_usize (f32_mul
    (usize_to_f32 (Nat.max DEFAULT_HASH_MAP_SIZE cap)) MAX_LOAD_FACTOR_F32)

/-- `BiMapBuilder::finish` with the `f32` computation bit-exact. -/
def builder_finish_f32 (W : Nat) (L R : Type) (cap : Nat) : BiMap L R :=
  ⟨0, empty_vec W L (finish_capacity_f32 cap),
    empty_vec W R (finish_capacity_f32 cap)⟩

/-- `(len as f32 / MAX_LOAD_FACTOR).floor() as usize`. -/
def capacity_from_len_f32 (len : Nat) : Nat :=
  f32_floor_to_usize (f32_div (usize_to_f32 len) MAX_LOAD_FACTOR_F32)

/-- `BiMap::capacity` with the `f32` computation bit-exact. -/
def bimap_capacity_f32 {L R : Type} (m : BiMap L R) : Nat :=
  capacity_from_len_f32 m.left_data.length

/-- The array length `ceil(max(DEFAULT_HASH_MAP_SIZE, n) * MAX_LOAD_FACTOR)`
that §6 of the spec promises for every requested capacity `n`. -/
def spec_capacity_formula (n : Nat) : Nat :=
  (Nat.max DEFAULT_HASH_MAP_SIZE n * MAX_LOAD_NUM + (MAX_LOAD_DEN - 1))
    / MAX_LOAD_DEN

/-! ## Semantic invariants

The well-formedness invariant maintained by every public operation.  It is
stronger than the boolean self-check `invariants_check` (it additionally pins
the bitfields exactly, bounds every displacement by `W`, and requires keys to
be pairwise distinct); all of it is preserved by the operations and implies
that the self-check passes. -/

/-- The stored key of slot `i`. -/
def key_at {K : Type} (A : List (Bucket K)) (i : Nat) : Option K :=
  (slot_data A i).map (fun t => t.1)

/-- The stored pair index of slot `i`. -/
def pair_at {K : Type} (A : List (Bucket K)) (i : Nat) : Option Nat :=
  (slot_data A i).map (fun t => t.2.1)

/-- The stored ideal index of slot `i`. -/
def ideal_at {K : Type} (A : List (Bucket K)) (i : Nat) : Option Nat :=
  (slot_data A i).map (fun t => t.2.2)

/-- The hash-ideal of the key stored at slot `i`. -/
def hkey_at {K : Type} (h : K → Nat) (A : List (Bucket K)) (i : Nat) :
    Option Nat :=
  (slot_data A i).map (fun t => h t.1 % A.length)

/-- One-sided well-formedness of a bucket array. -/
def WfSide (W : Nat) {K : Type} (h : K → Nat) (A : List (Bucket K)) : Prop :=
  (∀ i < A.length, ideal_at A i = hkey_at h A i) ∧
  (∀ i < A.length, ∀ d < A.length, ideal_at A i = some d →
    (A.length + i - d) % A.length < W) ∧
  (∀ i < A.length, nb_at A i < 2 ^ W) ∧
  (∀ d < A.length, ∀ j < W,
    (Nat.testBit (nb_at A d) j = true ↔
      (j < A.length ∧ ideal_at A ((d + j) % A.length) = some d))) ∧
  (∀ i < A.length, ∀ i' < A.length,
    key_at A i = key_at A i' → (key_at A i).isSome → i = i')

/-- Cross-link check for slot `i` of `A` against the paired array `B`:
free, or its pair index points at a `B` slot that links back (used for the
full invariant, where no placeholder pair indices remain). -/
def cross_ok {K V : Type} (A : List (Bucket K)) (B : List (Bucket V))
    (i : Nat) : Bool :=
  match slot_data A i with
  | none => true
  | some (_, p, _) =>
    match slot_data B p with
    | none => false
    | some (_, q, _) => q == i

/-- Cross-link check tolerating the `usize_max` placeholder left by
`insert_one_sided` before the caller links the pair. -/
def back_ok {K V : Type} (A : List (Bucket K)) (B : List (Bucket V))
    (i : Nat) : Bool :=
  match slot_data A i with
  | none => true
  | some (_, p, _) =>
    (p == usize_max) ||
    (match slot_data B p with
     | none => false
     | some (_, q, _) => q == i)

/-- The number of occupied slots. -/
def occ_count {K : Type} (A : List (Bucket K)) : Nat :=
  A.countP (fun b => b.data.isSome)

/-- The full invariant of a `BiMap`: equal array lengths, both sides
well-formed, cross-references symmetric, and the pair count correct.  The
bound `length ≤ usize_max` records that a Rust array is addressable by
`usize`. -/
def WfMap {L R : Type} [DecidableEq L] [DecidableEq R] (W : Nat)
    (left_hasher : L → Nat) (right_hasher : R → Nat) (m : BiMap L R) : Prop :=
  m.left_data.length = m.right_data.length ∧
  WfSide W left_hasher m.left_data ∧
  WfSide W right_hasher m.right_data ∧
  (∀ i < m.left_data.length, cross_ok m.left_data m.right_data i = true) ∧
  (∀ i < m.right_data.length, cross_ok m.right_data m.left_data i = true) ∧
  occ_count m.left_data = m.len ∧
  occ_count m.right_data = m.len ∧
  m.left_data.length ≤ usize_max

/-- The pair `(l, r)` is stored in the map: some left slot holds `l` with a
pair index pointing at a right slot holding `r` that links back. -/
def MapsTo {L R : Type} (m : BiMap L R) (l : L) (r : R) : Prop :=
  ∃ i j dl dr, slot_data m.left_data i = some (l, j, dl) ∧
    slot_data m.right_data j = some (r, i, dr)

/-- `l` occurs as a key somewhere in a bucket array. -/
def keyed {K : Type} (A : List (Bucket K)) (k : K) : Prop :=
  ∃ i, key_at A i = some k

instance wfside_decidable (W : Nat) {K : Type} [DecidableEq K] (h : K → Nat)
    (A : List (Bucket K)) : Decidable (WfSide W h A) := by
  unfold WfSide
  infer_instance

instance wfmap_decidable {L R : Type} [DecidableEq L] [DecidableEq R]
    (W : Nat) (hL : L → Nat) (hR : R → Nat) (m : BiMap L R) :
    Decidable (WfMap W hL hR m) := by
  unfold WfMap
  infer_instance

/-! ## Accessor lemmas -/


theorem length_set_data {K : Type} (A : List (Bucket K)) (i : Nat)
    (d : Option (K × Nat × Nat)) : (set_data A i d).length = A.length := by
  unfold set_data
  simp

theorem length_set_nb {K : Type} (A : List (Bucket K)) (i x : Nat) :
    (set_nb A i x).length = A.length := by
  unfold set_nb
  simp

theorem length_mark_as_full {K : Type} (W : Nat) (ideal actual : Nat)
    (A : List (Bucket K)) :
    (mark_as_full W ideal actual A).length = A.length := by
  unfold mark_as_full
  exact length_set_nb _ _ _

theorem length_mark_as_empty {K : Type} (W : Nat) (ideal actual : Nat)
    (A : List (Bucket K)) :
    (mark_as_empty W ideal actual A).length = A.length := by
  unfold mark_as_empty
  exact length_set_nb _ _ _

theorem length_empty_vec (W : Nat) (K : Type) (n : Nat) :
    (empty_vec W K n).length = n := by
  unfold empty_vec
  simp

theorem slot_data_set_data_self {K : Type} {A : List (Bucket K)} {i : Nat}
    (h : i < A.length) (d : Option (K × Nat × Nat)) :
    slot_data (set_data A i d) i = d := by
  unfold slot_data set_data
  rw [List.getElem?_set_self (by simpa using h)]
  rfl

theorem slot_data_set_data_ne {K : Type} (A : List (Bucket K)) {i j : Nat}
    (h : i ≠ j) (d : Option (K × Nat × Nat)) :
    slot_data (set_data A i d) j = slot_data A j := by
  unfold slot_data set_data
  rw [List.getElem?_set_ne h]

theorem nb_at_set_data {K : Type} (A : List (Bucket K)) (i : Nat)
    (d : Option (K × Nat × Nat)) (j : Nat) :
    nb_at (set_data A i d) j = nb_at A j := by
  unfold nb_at bucket_at set_data
  rcases eq_or_ne i j with rfl | hne
  · cases hg : A[i]? with
    | none =>
      rw [List.getElem?_set_self']
      rw [hg]
      rfl
    | some b =>
      rw [List.getElem?_set_self (List.getElem?_eq_some.mp hg).1]
      unfold bucket_at
      rw [hg]
      rfl
  · rw [List.getElem?_set_ne hne]

theorem slot_data_set_nb {K : Type} (A : List (Bucket K)) (i x : Nat)
    (j : Nat) : slot_data (set_nb A i x) j = slot_data A j := by
  unfold slot_data set_nb
  rcases eq_or_ne i j with rfl | hne
  · cases hg : A[i]? with
    | none =>
      rw [List.getElem?_set_self']
      rw [hg]
      rfl
    | some b =>
      rw [List.getElem?_set_self (List.getElem?_eq_some.mp hg).1]
      unfold bucket_at
      rw [hg]
      rfl
  · rw [List.getElem?_set_ne hne]

theorem nb_at_set_nb_self {K : Type} {A : List (Bucket K)} {i : Nat}
    (h : i < A.length) (x : Nat) : nb_at (set_nb A i x) i = x := by
  unfold nb_at bucket_at set_nb
  rw [List.getElem?_set_self (by simpa using h)]
  rfl

theorem nb_at_set_nb_ne {K : Type} (A : List (Bucket K)) {i j : Nat}
    (h : i ≠ j) (x : Nat) : nb_at (set_nb A i x) j = nb_at A j := by
  unfold nb_at bucket_at set_nb
  rw [List.getElem?_set_ne h]

theorem slot_data_mark_as_full {K : Type} (W : Nat) (ideal actual : Nat)
    (A : List (Bucket K)) (j : Nat) :
    slot_data (mark_as_full W ideal actual A) j = slot_data A j := by
  unfold mark_as_full
  exact slot_data_set_nb _ _ _ _

theorem slot_data_mark_as_empty {K : Type} (W : Nat) (ideal actual : Nat)
    (A : List (Bucket K)) (j : Nat) :
    slot_data (mark_as_empty W ideal actual A) j = slot_data A j := by
  unfold mark_as_empty
  exact slot_data_set_nb _ _ _ _

theorem slot_data_empty_vec (W : Nat) (K : Type) (n i : Nat) :
    slot_data (empty_vec W K n) i = none := by
  unfold slot_data empty_vec
  rcases lt_or_ge i n with h | h
  · rw [List.getElem?_eq_getElem (by simpa using h)]
    simp
  · rw [List.getElem?_eq_none (by simpa using h)]
    rfl

theorem slot_data_eq_none_of_ge {K : Type} (A : List (Bucket K)) {i : Nat}
    (h : A.length ≤ i) : slot_data A i = none := by
  unfold slot_data
  rw [List.getElem?_eq_none h]
  rfl

theorem lt_length_of_slot_data_eq_some {K : Type} {A : List (Bucket K)}
    {i : Nat} {t : K × Nat × Nat} (h : slot_data A i = some t) :
    i < A.length := by
  by_contra hc
  rw [slot_data_eq_none_of_ge A (le_of_not_lt hc)] at h
  exact Option.noConfusion h

/-! ## Bitfield lemmas -/

theorem testBit_one_at (W i j : Nat) :
    (one_at W i).testBit j = (decide (i = j) && decide (j < W)) := by
  unfold one_at
  rw [Nat.testBit_mod_two_pow, Nat.testBit_two_pow]
  exact Bool.and_comm _ _

theorem testBit_zero_at (W i j : Nat) :
    (zero_at W i).testBit j = (decide (j < W) && !decide (i = j)) := by
  unfold zero_at
  rw [Nat.testBit_xor, Nat.testBit_two_pow_sub_one, testBit_one_at]
  cases Nat.decEq i j with
  | isTrue h => simp [h]
  | isFalse h => simp [h]

theorem lor_one_zero_at (W : Nat) :
    (one_at W 0 ||| zero_at W 0) = 2 ^ W - 1 := by
  apply Nat.eq_of_testBit_eq
  intro j
  rw [Nat.testBit_lor, testBit_zero_at, testBit_one_at,
    Nat.testBit_two_pow_sub_one]
  cases h0 : decide (0 = j) <;> cases hW : decide (j < W) <;> rfl

theorem bitfield_full_iff (W b : Nat) :
    bitfield_full W b = true ↔ b = 2 ^ W - 1 := by
  unfold bitfield_full
  rw [lor_one_zero_at]
  exact beq_iff_eq

theorem one_at_lt (W i : Nat) : one_at W i < 2 ^ W :=
  Nat.mod_lt _ (Nat.two_pow_pos W)

theorem zero_at_lt (W i : Nat) : zero_at W i < 2 ^ W :=
  Nat.xor_lt_two_pow (Nat.sub_lt (Nat.two_pow_pos W) (by omega)) (one_at_lt W i)

theorem empty_nb_eq_zero (W : Nat) :
    (one_at W 0 &&& zero_at W 0) = 0 := by
  apply Nat.eq_of_testBit_eq
  intro j
  rw [Nat.testBit_land, testBit_one_at, testBit_zero_at, Nat.zero_testBit]
  cases Nat.decEq 0 j with
  | isTrue h => simp [h]
  | isFalse h => simp [h]

theorem nb_at_empty_vec (W : Nat) (K : Type) (n i : Nat) :
    nb_at (empty_vec W K n) i = 0 := by
  unfold nb_at bucket_at empty_vec
  rcases lt_or_ge i n with h | h
  · rw [List.getElem?_eq_getElem (by simpa using h)]
    simp [empty_nb_eq_zero]
  · rw [List.getElem?_eq_none (by simpa using h)]
    rfl

theorem testBit_ge_false {W b j : Nat} (hb : b < 2 ^ W) (hj : W ≤ j) :
    b.testBit j = false :=
  Nat.testBit_lt_two_pow (lt_of_lt_of_le hb (Nat.pow_le_pow_right (by omega) hj))

/-! ## `bit_indices` lemmas -/

theorem bit_indices_from_zero (fuel s : Nat) :
    bit_indices_from fuel 0 s = [] := by
  cases fuel <;> rfl

theorem mem_bit_indices_from (fuel : Nat) :
    ∀ b s i, i ∈ bit_indices_from fuel b s ↔
      (s ≤ i ∧ i - s < fuel ∧ b.testBit (i - s) = true) := by
  induction fuel with
  | zero =>
    intro b s i
    unfold bit_indices_from
    simp
  | succ fuel ih =>
    intro b s i
    unfold bit_indices_from
    rcases eq_or_ne b 0 with rfl | hb
    · simp
    · rw [if_neg hb]
      by_cases hlow : b % 2 = 1
      · rw [if_pos hlow]
        simp only [List.mem_cons, ih (b / 2) (s + 1) i]
        constructor
        · rintro (rfl | ⟨h1, h2, h3⟩)
          · refine ⟨le_refl _, by omega, ?_⟩
            simp [Nat.sub_self, hlow]
          · refine ⟨by omega, by omega, ?_⟩
            have : i - s = (i - (s + 1)) + 1 := by omega
            rw [this, Nat.testBit_add_one]
            exact h3
        · rintro ⟨h1, h2, h3⟩
          rcases eq_or_ne i s with rfl | hne
          · exact Or.inl rfl
          · refine Or.inr ⟨by omega, by omega, ?_⟩
            have : i - s = (i - (s + 1)) + 1 := by omega
            rw [this, Nat.testBit_add_one] at h3
            exact h3
      · rw [if_neg hlow]
        rw [ih (b / 2) (s + 1) i]
        constructor
        · rintro ⟨h1, h2, h3⟩
          refine ⟨by omega, by omega, ?_⟩
          have : i - s = (i - (s + 1)) + 1 := by omega
          rw [this, Nat.testBit_add_one]
          exact h3
        · rintro ⟨h1, h2, h3⟩
          rcases eq_or_ne i s with rfl | hne
          · rw [Nat.sub_self, Nat.testBit_zero] at h3
            exact absurd (of_decide_eq_true h3) hlow
          · refine ⟨by omega, by omega, ?_⟩
            have : i - s = (i - (s + 1)) + 1 := by omega
            rw [this, Nat.testBit_add_one] at h3
            exact h3

theorem mem_bit_indices {W b : Nat} (hb : b < 2 ^ W) (i : Nat) :
    i ∈ bit_indices W b ↔ b.testBit i = true := by
  unfold bit_indices
  rw [mem_bit_indices_from]
  simp only [Nat.zero_le, Nat.sub_zero, true_and]
  constructor
  · rintro ⟨_, h⟩
    exact h
  · intro h
    refine ⟨?_, h⟩
    by_contra hc
    rw [testBit_ge_false hb (by omega)] at h
    exact Bool.noConfusion h

theorem sorted_bit_indices_from (fuel : Nat) :
    ∀ b s, List.Sorted (· < ·) (bit_indices_from fuel b s) := by
  induction fuel with
  | zero =>
    intro b s
    unfold bit_indices_from
    exact List.sorted_nil
  | succ fuel ih =>
    intro b s
    unfold bit_indices_from
    rcases eq_or_ne b 0 with rfl | hb
    · simp
    · rw [if_neg hb]
      by_cases hlow : b % 2 = 1
      · rw [if_pos hlow]
        rw [List.sorted_cons]
        refine ⟨?_, ih (b / 2) (s + 1)⟩
        intro x hx
        have := (mem_bit_indices_from fuel (b / 2) (s + 1) x).mp hx
        omega
      · rw [if_neg hlow]
        exact ih (b / 2) (s + 1)

theorem sorted_bit_indices (W b : Nat) :
    List.Sorted (· < ·) (bit_indices W b) :=
  sorted_bit_indices_from W b 0

theorem nodup_bit_indices (W b : Nat) : (bit_indices W b).Nodup :=
  (sorted_bit_indices W b).nodup

/-! ## Occupancy counting -/

theorem occ_count_decompose {K : Type} (A : List (Bucket K)) {i : Nat}
    (h : i < A.length) :
    occ_count A = occ_count (A.take i) + occ_count (A.drop (i + 1)) +
      (if (A.get ⟨i, h⟩).data.isSome then 1 else 0) := by
  unfold occ_count
  conv_lhs => rw [← List.take_append_drop i A]
  rw [List.countP_append]
  have hd : A.drop i = A.get ⟨i, h⟩ :: A.drop (i + 1) := by
    rw [← List.getElem_cons_drop A i h]
    rfl
  rw [hd, List.countP_cons]
  omega

theorem occ_count_set {K : Type} (A : List (Bucket K)) {i : Nat}
    (h : i < A.length) (b : Bucket K) :
    occ_count (A.set i b) + (if (A.get ⟨i, h⟩).data.isSome then 1 else 0) =
      occ_count A + (if b.data.isSome then 1 else 0) := by
  rw [occ_count_decompose A h, List.set_eq_take_cons_drop b h]
  unfold occ_count
  rw [List.countP_append, List.countP_cons]
  omega

/-! ## Modular offset arithmetic -/

theorem offset_cancel {n i d : Nat} (hd : d < n) (hi : i < n) :
    (d + (n + i - d) % n) % n = i := by
  have h1 : d + (n + i - d) = n + i := by omega
  rw [Nat.add_mod_mod, h1, Nat.add_mod_left, Nat.mod_eq_of_lt hi]

theorem offset_roundtrip {n o d : Nat} (hd : d < n) (ho : o < n) :
    (n + (d + o) % n - d) % n = o := by
  rcases lt_or_ge (d + o) n with h | h
  · rw [Nat.mod_eq_of_lt h]
    have h2 : n + (d + o) - d = n + o := by omega
    rw [h2, Nat.add_mod_left, Nat.mod_eq_of_lt ho]
  · have h2 : (d + o) % n = d + o - n := by
      rw [Nat.mod_eq_sub_mod h]
      exact Nat.mod_eq_of_lt (by omega)
    rw [h2]
    have h3 : n + (d + o - n) - d = o := by omega
    rw [h3, Nat.mod_eq_of_lt ho]

theorem offset_lt {n i d : Nat} (hn : 0 < n) : (n + i - d) % n < n :=
  Nat.mod_lt _ hn

/-! ## `WfSide` and `WfMap` projections -/

theorem WfSide.hash_eq {W : Nat} {K : Type} {h : K → Nat}
    {A : List (Bucket K)} (hw : WfSide W h A) {i : Nat} {k : K} {p d : Nat}
    (hs : slot_data A i = some (k, p, d)) : d = h k % A.length := by
  have hi := lt_length_of_slot_data_eq_some hs
  have := hw.1 i hi
  unfold ideal_at hkey_at at this
  rw [hs] at this
  exact Option.some_inj.mp this

theorem WfSide.ideal_lt {W : Nat} {K : Type} {h : K → Nat}
    {A : List (Bucket K)} (hw : WfSide W h A) {i : Nat} {k : K} {p d : Nat}
    (hs : slot_data A i = some (k, p, d)) : d < A.length := by
  have hi := lt_length_of_slot_data_eq_some hs
  rw [hw.hash_eq hs]
  exact Nat.mod_lt _ (by omega)

theorem WfSide.disp_lt {W : Nat} {K : Type} {h : K → Nat}
    {A : List (Bucket K)} (hw : WfSide W h A) {i : Nat} {k : K} {p d : Nat}
    (hs : slot_data A i = some (k, p, d)) :
    (A.length + i - d) % A.length < W := by
  have hi := lt_length_of_slot_data_eq_some hs
  refine hw.2.1 i hi d (hw.ideal_lt hs) ?_
  unfold ideal_at
  rw [hs]
  rfl

theorem WfSide.nb_lt {W : Nat} {K : Type} {h : K → Nat}
    {A : List (Bucket K)} (hw : WfSide W h A) {i : Nat} (hi : i < A.length) :
    nb_at A i < 2 ^ W :=
  hw.2.2.1 i hi

theorem WfSide.bit_iff {W : Nat} {K : Type} {h : K → Nat}
    {A : List (Bucket K)} (hw : WfSide W h A) {d j : Nat} (hd : d < A.length)
    (hj : j < W) :
    (nb_at A d).testBit j = true ↔
      (j < A.length ∧ ideal_at A ((d + j) % A.length) = some d) :=
  hw.2.2.2.1 d hd j hj

theorem WfSide.key_unique {W : Nat} {K : Type} {h : K → Nat}
    {A : List (Bucket K)} (hw : WfSide W h A) {i i' : Nat} {k : K}
    {p d p' d' : Nat} (hs : slot_data A i = some (k, p, d))
    (hs' : slot_data A i' = some (k, p', d')) : i = i' := by
  refine hw.2.2.2.2 i (lt_length_of_slot_data_eq_some hs) i'
    (lt_length_of_slot_data_eq_some hs') ?_ ?_
  · unfold key_at
    rw [hs, hs']
    rfl
  · unfold key_at
    rw [hs]
    rfl


theorem WfSide.bit_of_slot {W : Nat} {K : Type} {h : K → Nat}
    {A : List (Bucket K)} (hw : WfSide W h A) {i : Nat} {k : K} {p d : Nat}
    (hs : slot_data A i = some (k, p, d)) :
    (nb_at A d).testBit ((A.length + i - d) % A.length) = true := by
  have hi := lt_length_of_slot_data_eq_some hs
  have hd := hw.ideal_lt hs
  rw [hw.bit_iff hd (hw.disp_lt hs)]
  refine ⟨offset_lt (by omega), ?_⟩
  rw [offset_cancel hd hi]
  unfold ideal_at
  rw [hs]
  rfl

theorem WfSide.testBit_false_of_ge {W : Nat} {K : Type} {h : K → Nat}
    {A : List (Bucket K)} (hw : WfSide W h A) {d j : Nat} (hd : d < A.length)
    (hj : W ≤ j) : (nb_at A d).testBit j = false :=
  testBit_ge_false (hw.nb_lt hd) hj

theorem nb_at_eq_zero_out_of_range {K : Type} {A : List (Bucket K)} {i : Nat}
    (hi : A.length ≤ i) : nb_at A i = 0 := by
  unfold nb_at bucket_at
  rw [List.getElem?_eq_none hi]
  rfl

/-- Projections of `WfMap`. -/
theorem WfMap.len_eq {L R : Type} [DecidableEq L] [DecidableEq R] {W : Nat}
    {hL : L → Nat} {hR : R → Nat} {m : BiMap L R} (hw : WfMap W hL hR m) :
    m.left_data.length = m.right_data.length := hw.1

theorem WfMap.left {L R : Type} [DecidableEq L] [DecidableEq R] {W : Nat}
    {hL : L → Nat} {hR : R → Nat} {m : BiMap L R} (hw : WfMap W hL hR m) :
    WfSide W hL m.left_data := hw.2.1

theorem WfMap.right {L R : Type} [DecidableEq L] [DecidableEq R] {W : Nat}
    {hL : L → Nat} {hR : R → Nat} {m : BiMap L R} (hw : WfMap W hL hR m) :
    WfSide W hR m.right_data := hw.2.2.1

theorem cross_ok_iff {K V : Type} {A : List (Bucket K)} {B : List (Bucket V)}
    {i : Nat} :
    cross_ok A B i = true ↔
      ∀ k p d, slot_data A i = some (k, p, d) →
        ∃ v dv, slot_data B p = some (v, i, dv) := by
  unfold cross_ok
  cases hs : slot_data A i with
  | none => simp
  | some t =>
    obtain ⟨k, p, d⟩ := t
    cases hq : slot_data B p with
    | none =>
      simp only [hq, Bool.false_eq_true, false_iff]
      intro hc
      obtain ⟨v, dv, hvd⟩ := hc k p d rfl
      rw [hq] at hvd
      exact Option.noConfusion hvd
    | some u =>
      obtain ⟨v, q, dv⟩ := u
      simp only [hq, beq_iff_eq]
      constructor
      · rintro rfl k' p' d' he
        simp only [Option.some.injEq, Prod.mk.injEq] at he
        obtain ⟨rfl, rfl, rfl⟩ := he
        exact ⟨v, dv, hq⟩
      · intro hc
        obtain ⟨v', dv', hvd⟩ := hc k p d rfl
        rw [hq] at hvd
        simp only [Option.some.injEq, Prod.mk.injEq] at hvd
        exact hvd.2.1

theorem back_ok_iff {K V : Type} {A : List (Bucket K)} {B : List (Bucket V)}
    {i : Nat} :
    back_ok A B i = true ↔
      ∀ k p d, slot_data A i = some (k, p, d) →
        (p = usize_max ∨ ∃ v dv, slot_data B p = some (v, i, dv)) := by
  unfold back_ok
  cases hs : slot_data A i with
  | none => simp
  | some t =>
    obtain ⟨k, p, d⟩ := t
    rcases eq_or_ne p usize_max with rfl | hp
    · simp only [beq_self_eq_true, Bool.true_or, true_iff]
      intro k' p' d' he
      simp only [Option.some.injEq, Prod.mk.injEq] at he
      obtain ⟨rfl, rfl, rfl⟩ := he
      exact Or.inl rfl
    · cases hq : slot_data B p with
      | none =>
        simp only [hq, beq_iff_eq, hp, Bool.or_false, false_iff,
          Bool.false_eq_true]
        intro hc
        rcases hc k p d rfl with h1 | ⟨v, dv, hvd⟩
        · exact hp h1
        · rw [hq] at hvd
          exact Option.noConfusion hvd
      | some u =>
        obtain ⟨v, q, dv⟩ := u
        simp only [hq, beq_iff_eq, hp, Bool.or_eq_true, false_or]
        constructor
        · rintro rfl k' p' d' he
          simp only [Option.some.injEq, Prod.mk.injEq] at he
          obtain ⟨rfl, rfl, rfl⟩ := he
          exact Or.inr ⟨v, dv, hq⟩
        · intro hc
          rcases hc k p d rfl with h1 | ⟨v', dv', hvd⟩
          · exact absurd h1 hp
          · rw [hq] at hvd
            simp only [Option.some.injEq, Prod.mk.injEq] at hvd
            exact hvd.2.1

theorem WfMap.cross_lr {L R : Type} [DecidableEq L] [DecidableEq R] {W : Nat}
    {hL : L → Nat} {hR : R → Nat} {m : BiMap L R} (hw : WfMap W hL hR m)
    {i : Nat} {k : L} {p d : Nat}
    (hs : slot_data m.left_data i = some (k, p, d)) :
    ∃ v dv, slot_data m.right_data p = some (v, i, dv) :=
  cross_ok_iff.mp (hw.2.2.2.1 i (lt_length_of_slot_data_eq_some hs)) k p d hs

theorem WfMap.cross_rl {L R : Type} [DecidableEq L] [DecidableEq R] {W : Nat}
    {hL : L → Nat} {hR : R → Nat} {m : BiMap L R} (hw : WfMap W hL hR m)
    {i : Nat} {k : R} {p d : Nat}
    (hs : slot_data m.right_data i = some (k, p, d)) :
    ∃ v dv, slot_data m.left_data p = some (v, i, dv) :=
  cross_ok_iff.mp
    (hw.2.2.2.2.1 i (lt_length_of_slot_data_eq_some hs)) k p d hs

theorem WfMap.count_left {L R : Type} [DecidableEq L] [DecidableEq R] {W : Nat}
    {hL : L → Nat} {hR : R → Nat} {m : BiMap L R} (hw : WfMap W hL hR m) :
    occ_count m.left_data = m.len := hw.2.2.2.2.2.1

theorem WfMap.count_right {L R : Type} [DecidableEq L] [DecidableEq R] {W : Nat}
    {hL : L → Nat} {hR : R → Nat} {m : BiMap L R} (hw : WfMap W hL hR m) :
    occ_count m.right_data = m.len := hw.2.2.2.2.2.2.1

theorem WfMap.len_le {L R : Type} [DecidableEq L] [DecidableEq R] {W : Nat}
    {hL : L → Nat} {hR : R → Nat} {m : BiMap L R} (hw : WfMap W hL hR m) :
    m.left_data.length ≤ usize_max := hw.2.2.2.2.2.2.2


/-! ## `set_data` algebra -/

theorem set_data_set_data {K : Type} (A : List (Bucket K)) (i : Nat)
    (x y : Option (K × Nat × Nat)) :
    set_data (set_data A i x) i y = set_data A i y := by
  unfold set_data
  rw [List.set_set]
  rcases lt_or_ge i A.length with hi | hi
  · unfold bucket_at
    rw [List.getElem?_set_self (by simpa using hi)]
    rfl
  · rw [List.set_eq_of_length_le (by simpa using hi),
      List.set_eq_of_length_le (by simpa using hi)]

theorem set_data_of_slot_data {K : Type} {A : List (Bucket K)} {i : Nat}
    {t : K × Nat × Nat} (h : slot_data A i = some t) :
    set_data A i (some t) = A := by
  unfold slot_data at h
  unfold set_data bucket_at
  cases hg : A[i]? with
  | none => rw [hg] at h; exact Option.noConfusion h
  | some b =>
    rw [hg] at h
    have hb : b.data = some t := h
    apply List.ext_getElem?
    intro j
    rcases eq_or_ne i j with rfl | hne
    · rw [List.getElem?_set_self (List.getElem?_eq_some.mp hg).1, hg]
      cases b
      simp only at hb
      rw [hb]
      rfl
    · rw [List.getElem?_set_ne hne]

theorem candidate_scan_lt {K : Type} {A : List (Bucket K)}
    {ideal mo len : Nat} (hlen : 0 < len) :
    ∀ (l : List Nat) (o : Nat),
      candidate_scan A ideal mo len l = some (some o) → o < len := by
  intro l
  induction l with
  | nil =>
    intro o hc
    unfold candidate_scan at hc
    simp at hc
  | cons a as ihh =>
    intro o hc
    rw [candidate_scan] at hc
    cases hsd : slot_data A ((len + mo - a) % len) with
    | none => rw [hsd] at hc; exact Option.noConfusion hc
    | some t =>
      obtain ⟨k, p, d⟩ := t
      simp only [hsd] at hc
      by_cases hcnd : d > ideal ∨ d < mo
      · rw [if_pos hcnd] at hc
        simp only [Option.some.injEq] at hc
        subst hc
        exact Nat.mod_lt _ hlen
      · rw [if_neg hcnd] at hc
        exact ihh o hc

/-- C5 main lemma: an `Err` result of `insert_one_sided` leaves both arrays
exactly as they were (the relocation chain is rolled back slot by slot). -/
theorem insert_one_sided_error_unchanged {K V : Type} (W : Nat) :
    ∀ (fuel : Nat) (key : K) (A : List (Bucket K)) (B : List (Bucket V))
      (h : K → Nat) (k' : K) (A' : List (Bucket K)) (B' : List (Bucket V)),
      insert_one_sided W fuel key A B h = some (.error k', A', B') →
      A' = A ∧ B' = B ∧ k' = key := by
  intro fuel
  induction fuel with
  | zero =>
    intro key A B h k' A' B' hres
    exact Option.noConfusion hres
  | succ fuel ih =>
    intro key A B h k' A' B' hres
    rw [insert_one_sided] at hres
    cases hfi : find_ideal_index h A.length key with
    | none =>
                      simp only [hfi] at hres
                      exact Option.noConfusion hres
    | some ideal =>
      simp only [hfi] at hres
      by_cases hfull : bitfield_full W (nb_at A ideal) = true
      · rw [if_pos hfull] at hres
        simp only [Option.some.injEq, Prod.mk.injEq] at hres
        obtain ⟨h1, h2, h3⟩ := hres
        exact ⟨h2.symm, h3.symm, (Except.error.inj h1).symm⟩
      · rw [if_neg hfull] at hres
        cases hfind : (List.range A.length).find? (fun offset =>
            !(occupied A ((ideal + offset) % A.length))) with
        | none =>
          simp only [hfind, Option.some.injEq, Prod.mk.injEq] at hres
          obtain ⟨h1, h2, h3⟩ := hres
          exact ⟨h2.symm, h3.symm, (Except.error.inj h1).symm⟩
        | some offset =>
          simp only [hfind] at hres
          by_cases hoff : offset < W
          · rw [if_pos hoff] at hres
            simp only [Option.some.injEq, Prod.mk.injEq] at hres
            exact absurd hres.1 (by intro hc; exact Except.noConfusion hc)
          · rw [if_neg hoff] at hres
            cases hcand : candidate_scan A ideal ((ideal + W) % A.length)
                A.length ((List.range W).drop 1) with
            | none =>
                      simp only [hcand] at hres
                      exact Option.noConfusion hres
            | some o =>
              simp only [hcand] at hres
              cases o with
              | none =>
                simp only [Option.some.injEq, Prod.mk.injEq] at hres
                obtain ⟨h1, h2, h3⟩ := hres
                exact ⟨h2.symm, h3.symm, (Except.error.inj h1).symm⟩
              | some index =>
                cases hslot : slot_data A index with
                | none =>
                      simp only [hslot] at hres
                      exact Option.noConfusion hres
                | some t =>
                  obtain ⟨new_key, new_value, new_ideal⟩ := t
                  simp only [hslot] at hres
                  cases hrec : insert_one_sided W fuel new_key
                      (set_data A index (some (key, usize_max, ideal))) B h with
                  | none =>
                      simp only [hrec] at hres
                      exact Option.noConfusion hres
                  | some r =>
                    obtain ⟨res, A2, B2⟩ := r
                    simp only [hrec] at hres
                    cases res with
                    | ok new_key_index =>
                      cases hv : B2[new_value]? with
                      | none =>
                      simp only [hv] at hres
                      exact Option.noConfusion hres
                      | some vb =>
                        simp only [hv] at hres
                        cases hvd : vb.data with
                        | none =>
                      simp only [hvd] at hres
                      exact Option.noConfusion hres
                        | some u =>
                          obtain ⟨vk, vq, vi⟩ := u
                          simp only [hvd] at hres
                          cases hs2 : slot_data A2 new_key_index with
                          | none =>
                      simp only [hs2] at hres
                      exact Option.noConfusion hres
                          | some w =>
                            obtain ⟨kk, kq, ki⟩ := w
                            simp only [hs2, Option.some.injEq,
                              Prod.mk.injEq] at hres
                            exact absurd hres.1
                              (by intro hc; exact Except.noConfusion hc)
                    | error new_key2 =>
                      obtain ⟨hA2, hB2, hk2⟩ := ih new_key
                        (set_data A index (some (key, usize_max, ideal))) B h
                        new_key2 A2 B2 hrec
                      subst hA2
                      subst hB2
                      subst hk2
                      have hlen0 : 0 < A.length := by
                        unfold find_ideal_index at hfi
                        by_contra hc
                        rw [if_pos (by omega)] at hfi
                        exact Option.noConfusion hfi
                      have hidx : index < A.length :=
                        candidate_scan_lt hlen0 _ index hcand
                      have hsm : slot_data
                          (set_data A index (some (key, usize_max, ideal)))
                          index = some (key, usize_max, ideal) :=
                        slot_data_set_data_self hidx _
                      simp only [hsm, Option.some.injEq, Prod.mk.injEq]
                        at hres
                      obtain ⟨h1, h2, h3⟩ := hres
                      refine ⟨?_, h3.symm, (Except.error.inj h1).symm⟩
                      rw [← h2, set_data_set_data, set_data_of_slot_data hslot]

/-! ## C10: the bitfield iterator -/

theorem skip_zeros_fst_le : ∀ (f b i : Nat), (skip_zeros f b i).1 ≤ b := by
  intro f
  induction f with
  | zero => intro b i; exact le_refl b
  | succ f ih =>
    intro b i
    rw [skip_zeros]
    by_cases hb : b % 2 = 1
    · rw [if_pos hb]
    · rw [if_neg hb]
      exact le_trans (ih (b / 2) (i + 1)) (Nat.div_le_self b 2)

theorem skip_zeros_eq_of_le : ∀ (f1 f2 b i : Nat), b ≠ 0 → b < 2 ^ f1 →
    f1 ≤ f2 → skip_zeros f1 b i = skip_zeros f2 b i := by
  intro f1
  induction f1 with
  | zero =>
    intro f2 b i hb hlt _
    omega
  | succ f1 ih =>
    intro f2 b i hb hlt hle
    cases f2 with
    | zero => omega
    | succ f2 =>
      rw [skip_zeros, skip_zeros]
      by_cases hodd : b % 2 = 1
      · rw [if_pos hodd, if_pos hodd]
      · rw [if_neg hodd, if_neg hodd]
        refine ih f2 (b / 2) (i + 1) (by omega) ?_ (by omega)
        rw [pow_succ] at hlt
        omega

theorem bit_indices_from_fuel_irrel : ∀ (f1 f2 b s : Nat), b < 2 ^ f1 →
    f1 ≤ f2 → bit_indices_from f1 b s = bit_indices_from f2 b s := by
  intro f1
  induction f1 with
  | zero =>
    intro f2 b s hlt _
    have : b = 0 := by simpa using hlt
    subst this
    rw [bit_indices_from_zero, bit_indices_from_zero]
  | succ f1 ih =>
    intro f2 b s hlt hle
    cases f2 with
    | zero => omega
    | succ f2 =>
      rw [bit_indices_from, bit_indices_from]
      rcases eq_or_ne b 0 with rfl | hb
      · rw [if_pos rfl, if_pos rfl]
      · rw [if_neg hb, if_neg hb]
        have hdiv : b / 2 < 2 ^ f1 := by
          rw [pow_succ] at hlt
          omega
        by_cases hodd : b % 2 = 1
        · rw [if_pos hodd, if_pos hodd, ih f2 (b / 2) (s + 1) hdiv (by omega)]
        · rw [if_neg hodd, if_neg hodd]
          exact ih f2 (b / 2) (s + 1) hdiv (by omega)

theorem iter_list_fuel_irrel (W : Nat) : ∀ (f1 f2 b s : Nat), b < 2 ^ f1 →
    f1 ≤ f2 → bitfield_iter_list W f1 (b, s) = bitfield_iter_list W f2 (b, s) := by
  intro f1
  induction f1 with
  | zero =>
    intro f2 b s hlt _
    have : b = 0 := by simpa using hlt
    subst this
    cases f2 with
    | zero => rfl
    | succ f2 =>
      rw [bitfield_iter_list, bitfield_iter_list]
      rfl
  | succ f1 ih =>
    intro f2 b s hlt hle
    cases f2 with
    | zero => omega
    | succ f2 =>
      rw [bitfield_iter_list, bitfield_iter_list]
      rcases eq_or_ne b 0 with rfl | hb
      · rfl
      · unfold bitfield_iter_next
        simp only [if_neg hb]
        have hs := skip_zeros_fst_le W b s
        have hdiv : (skip_zeros W b s).1 / 2 < 2 ^ f1 := by
          rw [pow_succ] at hlt
          omega
        rw [ih f2 ((skip_zeros W b s).1 / 2) ((skip_zeros W b s).2 + 1) hdiv
          (by omega)]

theorem skip_zeros_odd {f b i : Nat} (hodd : b % 2 = 1) (hf : 1 ≤ f) :
    skip_zeros f b i = (b, i) := by
  cases f with
  | zero => omega
  | succ f =>
    rw [skip_zeros, if_pos hodd]

theorem next_even {W b s : Nat} (hb : b ≠ 0) (heven : b % 2 = 0)
    (hlt : b < 2 ^ W) :
    bitfield_iter_next W (b, s) = bitfield_iter_next W (b / 2, s + 1) := by
  cases W with
  | zero => omega
  | succ w =>
    unfold bitfield_iter_next
    have hb2 : b / 2 ≠ 0 := by omega
    simp only [if_neg hb, if_neg hb2]
    have h1 : skip_zeros (w + 1) b s = skip_zeros w (b / 2) (s + 1) := by
      rw [skip_zeros, if_neg (by omega)]
    rw [h1, skip_zeros_eq_of_le w (w + 1) (b / 2) (s + 1) hb2
      (by rw [pow_succ] at hlt; omega) (by omega)]

theorem iter_list_eq_bit_indices (W : Nat) :
    ∀ b, b < 2 ^ W → ∀ s, bitfield_iter_list W W (b, s) = bit_indices_from W b s := by
  intro b
  induction b using Nat.strong_induction_on with
  | _ b ihb =>
    intro hlt s
    rcases eq_or_ne b 0 with rfl | hb
    · cases W with
      | zero => rfl
      | succ w =>
        rw [bitfield_iter_list, bit_indices_from, if_pos rfl]
        rfl
    · have hW : W ≠ 0 := by
        intro hc
        subst hc
        omega
      obtain ⟨w, rfl⟩ : ∃ w, W = w + 1 := ⟨W - 1, by omega⟩
      have hdiv2 : b / 2 < 2 ^ w := by
        rw [pow_succ] at hlt
        omega
      by_cases hodd : b % 2 = 1
      · rw [bitfield_iter_list, bit_indices_from, if_neg hb, if_pos hodd]
        unfold bitfield_iter_next
        simp only [if_neg hb]
        rw [skip_zeros_odd hodd (by omega)]
        simp only
        have h2 : bitfield_iter_list (w + 1) w (b / 2, s + 1) =
            bitfield_iter_list (w + 1) (w + 1) (b / 2, s + 1) :=
          iter_list_fuel_irrel (w + 1) w (w + 1) (b / 2) (s + 1) hdiv2 (by omega)
        rw [h2, ihb (b / 2) (by omega) (by omega) (s + 1),
          bit_indices_from_fuel_irrel w (w + 1) (b / 2) (s + 1) hdiv2 (by omega)]
      · have heven : b % 2 = 0 := by omega
        have hstep : bitfield_iter_list (w + 1) (w + 1) (b, s) =
            bitfield_iter_list (w + 1) (w + 1) (b / 2, s + 1) := by
          conv_lhs => rw [bitfield_iter_list]
          conv_rhs => rw [bitfield_iter_list]
          rw [next_even hb heven hlt]
        rw [hstep, ihb (b / 2) (by omega) (by omega) (s + 1)]
        conv_rhs => rw [bit_indices_from]
        rw [if_neg hb, if_neg hodd]
        exact (bit_indices_from_fuel_irrel w (w + 1) (b / 2) (s + 1) hdiv2
          (by omega)).symm

/-- C10: for every value `b` of a `W`-bit bitfield, `iter()` (run to
exhaustion) yields exactly the indices of the set bits of `b`, each exactly
once, in strictly ascending order, and the sequence is finite (it is a
list). -/
theorem claim_C10 (W b : Nat) (hb : b < 2 ^ W) :
    bitfield_iter_list W W (b, 0) = bit_indices W b ∧
    List.Sorted (· < ·) (bit_indices W b) ∧
    (bit_indices W b).Nodup ∧
    (∀ i, i ∈ bit_indices W b ↔ b.testBit i = true) :=
  ⟨iter_list_eq_bit_indices W b hb 0, sorted_bit_indices W b,
    nodup_bit_indices W b, fun i => mem_bit_indices hb i⟩

/-- Witness for C10 at the width-16 value `0xBEEF` of the crate's own unit
test. -/
theorem claim_C10_witness :
    bitfield_iter_list 16 16 (48879, 0) = bit_indices 16 48879 ∧
    List.Sorted (· < ·) (bit_indices 16 48879) ∧
    (bit_indices 16 48879).Nodup ∧
    (∀ i, i ∈ bit_indices 16 48879 ↔ (48879 : Nat).testBit i = true) :=
  claim_C10 16 48879 (by decide)

/-- C5: whenever `insert_one_sided` reports a placement failure
(`Err`), the key array and the paired value array are both returned exactly
as they were before the call: every relocation attempted during the failed
chain has been undone, including slot contents, cross-indices and
neighbourhood bitfields (the arrays are equal as values). -/
theorem claim_C5 {K V : Type} (W fuel : Nat) (key : K)
    (A : List (Bucket K)) (B : List (Bucket V)) (h : K → Nat) (k' : K)
    (A' : List (Bucket K)) (B' : List (Bucket V))
    (hres : insert_one_sided W fuel key A B h = some (.error k', A', B')) :
    A' = A ∧ B' = B :=
  ⟨(insert_one_sided_error_unchanged W fuel key A B h k' A' B' hres).1,
    (insert_one_sided_error_unchanged W fuel key A B h k' A' B' hres).2.1⟩

/-- Witness for C5: a width-1 bitfield whose single neighbourhood is
saturated, so inserting a second key with the same ideal bucket fails and
hands back the untouched arrays. -/
theorem claim_C5_witness :
    insert_one_sided 1 3 (7 : Nat)
        [⟨some (5, usize_max, 0), 1⟩] ([] : List (Bucket Nat)) id =
      some (.error 7, [⟨some (5, usize_max, 0), 1⟩], []) ∧
    ([⟨some (5, usize_max, 0), 1⟩] : List (Bucket Nat)) =
      [⟨some (5, usize_max, 0), 1⟩] ∧
    ([] : List (Bucket Nat)) = [] :=
  ⟨rfl,
    (claim_C5 1 3 7 [⟨some (5, usize_max, 0), 1⟩] ([] : List (Bucket Nat)) id
      7 [⟨some (5, usize_max, 0), 1⟩] [] (by rfl)).1,
    (claim_C5 1 3 7 [⟨some (5, usize_max, 0), 1⟩] ([] : List (Bucket Nat)) id
      7 [⟨some (5, usize_max, 0), 1⟩] [] (by rfl)).2⟩

/-- C9: a `BiMap` built with requested capacity `0` has zero-length bucket
arrays, and every public operation on it (insert, get by either side,
remove by either side) hits the division-by-zero panic of
`find_ideal_index` (`hash % 0`), modelled by `none`: no public operation on
such a map is total. -/
theorem claim_C9 {L R : Type} [DecidableEq L] [DecidableEq R] (W : Nat)
    (hL : L → Nat) (hR : R → Nat) (fuel : Nat) (l : L) (r : R) :
    (builder_finish W L R 0).left_data.length = 0 ∧
    (builder_finish W L R 0).right_data.length = 0 ∧
    bimap_insert W hL hR fuel (builder_finish W L R 0) l r = none ∧
    get_left W hL hR (builder_finish W L R 0) l = none ∧
    get_right W hL hR (builder_finish W L R 0) r = none ∧
    remove_left W hL hR (builder_finish W L R 0) l = none ∧
    remove_right W hL hR (builder_finish W L R 0) r = none := by
  refine ⟨rfl, rfl, ?_, rfl, rfl, rfl, rfl⟩
  cases fuel with
  | zero => rfl
  | succ fuel => rfl

theorem builder_finish_f32_length (W : Nat) (L R : Type) (cap : Nat) :
    (builder_finish_f32 W L R cap).left_data.length =
      finish_capacity_f32 cap :=
  length_empty_vec W L _

/-- C6 counterexample: under bit-exact `f32` arithmetic both promises fail.
At request `0` `finish` short-circuits to empty arrays instead of the
formula value 36.  At request `40` the product `40 * 1.1f32` is
`44.0000048…`, which rounds down to `44.0`, so the code allocates 44
buckets while the exact ceiling is 45.  At request `3813011` the product
rounds down to `4194312.0` (exact ceiling 4194313) and then
`capacity() = floor(4194312 / 1.1f32) = 3813010 < 3813011`, violating
`with_capacity(n).capacity() >= n`. -/
theorem claim_C6_counterexample :
    (builder_finish_f32 32 Nat Nat 0).left_data.length = 0 ∧
    spec_capacity_formula 0 = 36 ∧
    (builder_finish_f32 32 Nat Nat 40).left_data.length = 44 ∧
    spec_capacity_formula 40 = 45 ∧
    (builder_finish_f32 32 Nat Nat 3813011).left_data.length = 4194312 ∧
    spec_capacity_formula 3813011 = 4194313 ∧
    bimap_capacity_f32 (builder_finish_f32 32 Nat Nat 3813011) =
      3813010 ∧
    bimap_capacity_f32 (builder_finish_f32 32 Nat Nat 3813011) <
      3813011 := by
  refine ⟨?_, by decide, ?_, by decide, ?_, by decide, ?_, ?_⟩
  · rw [builder_finish_f32_length]
    decide
  · rw [builder_finish_f32_length]
    decide
  · rw [builder_finish_f32_length]
    decide
  · unfold bimap_capacity_f32
    rw [builder_finish_f32_length]
    decide
  · unfold bimap_capacity_f32
    rw [builder_finish_f32_length]
    decide

set_option maxRecDepth 8192 in
/-- C6 as amended: on the bit-exact `f32` model of `finish` and
`capacity`, the guarantee `with_capacity(n).capacity() >= n` does hold for
every request `1 ≤ n ≤ 512` (it first fails at `n = 3813011`, and the
ceiling-formula half already fails at `n = 0` and `n = 40`; see the
counterexample). -/
theorem claim_C6 (W : Nat) (n : Nat) (h1 : 1 ≤ n) (h2 : n ≤ 512) :
    n ≤ bimap_capacity_f32 (builder_finish_f32 W Nat Nat n) := by
  have hb : ∀ k, k < 513 → 1 ≤ k →
      k ≤ capacity_from_len_f32 (finish_capacity_f32 k) := by decide
  unfold bimap_capacity_f32
  rw [builder_finish_f32_length]
  exact hb n (by omega) h1

/-- Witness for C6 (amended) at requested capacity `5`. -/
theorem claim_C6_witness :
    5 ≤ bimap_capacity_f32 (builder_finish_f32 32 Nat Nat 5) :=
  claim_C6 32 5 (by decide) (by decide)

/-! ## The boolean self-check passes on well-formed maps -/

theorem full_of_bit_set {W b : Nat} (hb : b < 2 ^ W) {off : Nat}
    (hoff : off < W) (hset : b.testBit off = true) :
    bitfield_full W (b ||| zero_at W off) = true := by
  rw [bitfield_full_iff]
  apply Nat.eq_of_testBit_eq
  intro j
  rw [Nat.testBit_lor, testBit_zero_at, Nat.testBit_two_pow_sub_one]
  rcases lt_or_ge j W with hj | hj
  · rcases eq_or_ne off j with rfl | hne
    · rw [hset]
      simp [hj]
    · simp [hj, hne]
  · rw [testBit_ge_false hb hj]
    simp [Nat.not_lt.mpr hj]

theorem invariants_check_of_wf {L R : Type} [DecidableEq L] [DecidableEq R]
    {W : Nat} {hL : L → Nat} {hR : R → Nat} {m : BiMap L R}
    (hw : WfMap W hL hR m) : invariants_check W hL hR m = true := by
  unfold invariants_check
  simp only [Bool.and_eq_true, beq_iff_eq, List.all_eq_true]
  refine ⟨⟨⟨⟨⟨⟨hw.len_eq, ?_⟩, ?_⟩, ?_⟩, ?_⟩, ?_⟩, ?_⟩
  · intro i hmem
    cases hslot : slot_data m.left_data i with
    | none => simp [hslot]
    | some t =>
      obtain ⟨k, p, d⟩ := t
      have hn : 0 < m.left_data.length := by
        have := lt_length_of_slot_data_eq_some hslot
        omega
      have hd : d < m.left_data.length := hw.left.ideal_lt hslot
      simp only [hslot, Bool.and_eq_true, beq_iff_eq, decide_eq_true_eq]
      refine ⟨⟨?_, hd⟩, ?_⟩
      · unfold find_ideal_index
        rw [if_neg (by omega), hw.left.hash_eq hslot]
      · exact full_of_bit_set (hw.left.nb_lt hd) (hw.left.disp_lt hslot)
          (hw.left.bit_of_slot hslot)
  · intro i hmem
    cases hslot : slot_data m.right_data i with
    | none => simp [hslot]
    | some t =>
      obtain ⟨k, p, d⟩ := t
      have hn : 0 < m.right_data.length := by
        have := lt_length_of_slot_data_eq_some hslot
        omega
      have hd : d < m.right_data.length := hw.right.ideal_lt hslot
      simp only [hslot, Bool.and_eq_true, beq_iff_eq, decide_eq_true_eq]
      rw [hw.len_eq]
      refine ⟨⟨?_, hd⟩, ?_⟩
      · unfold find_ideal_index
        rw [if_neg (by omega), hw.right.hash_eq hslot]
      · exact full_of_bit_set (hw.right.nb_lt hd) (hw.right.disp_lt hslot)
          (hw.right.bit_of_slot hslot)
  · intro i hmem
    cases hslot : slot_data m.left_data i with
    | none => simp [hslot]
    | some t =>
      obtain ⟨k, p, d⟩ := t
      obtain ⟨v, dv, hq⟩ := hw.cross_lr hslot
      simp [hslot, hq]
  · intro i hmem
    cases hslot : slot_data m.right_data i with
    | none => simp [hslot]
    | some t =>
      obtain ⟨k, p, d⟩ := t
      obtain ⟨v, dv, hq⟩ := hw.cross_rl hslot
      simp [hslot, hq]
  · exact hw.count_left
  · exact hw.count_right

/-! ## C7: removal from an empty (but nonzero-capacity) table -/

theorem side_empty_slots {K : Type} {A : List (Bucket K)}
    (hocc : occ_count A = 0) (i : Nat) : slot_data A i = none := by
  unfold occ_count at hocc
  rw [List.countP_eq_zero] at hocc
  unfold slot_data
  cases hg : A[i]? with
  | none => rfl
  | some b =>
    have hmem := List.getElem?_mem hg
    have := hocc b hmem
    cases hd : b.data with
    | none => exact hd
    | some t =>
      exfalso
      apply this
      rw [hd]
      rfl

theorem side_empty_nb {W : Nat} {K : Type} {h : K → Nat}
    {A : List (Bucket K)} (hw : WfSide W h A) (hocc : occ_count A = 0)
    (i : Nat) : nb_at A i = 0 := by
  rcases lt_or_ge i A.length with hi | hi
  · apply Nat.eq_of_testBit_eq
    intro j
    rw [Nat.zero_testBit]
    rcases lt_or_ge j W with hj | hj
    · rw [← Bool.not_eq_true]
      intro hset
      have := (hw.bit_iff hi hj).mp hset
      unfold ideal_at at this
      rw [side_empty_slots hocc _] at this
      exact Option.noConfusion this.2
    · exact hw.testBit_false_of_ge hi hj
  · exact nb_at_eq_zero_out_of_range hi

theorem bimap_remove_empty {K V : Type} [DecidableEq K] [DecidableEq V]
    (W : Nat) (hK : K → Nat) (hV : V → Nat) (key : K)
    {A : List (Bucket K)} (B : List (Bucket V)) (map_len : Nat)
    (hn : 0 < A.length) (hnb : ∀ i, nb_at A i = 0) :
    bimap_remove W hK hV key A B map_len = some (none, A, B, map_len) := by
  simp only [bimap_remove, find_ideal_index]
  rw [if_neg (by omega)]
  simp only [hnb]
  unfold bit_indices
  rw [bit_indices_from_zero]
  rfl

/-- C7 (amended): for every key of either side, removing it from an empty
`BiMap` whose bucket arrays have nonzero length returns `None` without
panicking and leaves the map unchanged.  (The capacity-0 empty map is
excluded: there every removal panics on `hash % 0`, see C9.) -/
theorem claim_C7 {L R : Type} [DecidableEq L] [DecidableEq R] (W : Nat)
    (hL : L → Nat) (hR : R → Nat) (m : BiMap L R) (hw : WfMap W hL hR m)
    (hlen : m.len = 0) (hn : 0 < m.left_data.length) (l : L) (r : R) :
    remove_left W hL hR m l = some (none, m) ∧
    remove_right W hL hR m r = some (none, m) := by
  have hoccl : occ_count m.left_data = 0 := by rw [hw.count_left, hlen]
  have hoccr : occ_count m.right_data = 0 := by rw [hw.count_right, hlen]
  have hnr : 0 < m.right_data.length := by rw [← hw.len_eq]; exact hn
  constructor
  · unfold remove_left
    rw [if_pos (invariants_check_of_wf hw),
      bimap_remove_empty W hL hR l m.right_data m.len hn
        (side_empty_nb hw.left hoccl)]
    cases m
    rfl
  · unfold remove_right
    rw [if_pos (invariants_check_of_wf hw),
      bimap_remove_empty W hR hL r m.left_data m.len hnr
        (side_empty_nb hw.right hoccr)]
    cases m
    rfl

/-- C7 counterexample to the claim as stated: on the capacity-0 table
(`len() == 0`), `remove_left`/`remove_right` do not return `None` — they
panic (divide by zero), modelled by the operations returning `none` rather
than `some (none, ..)`. -/
theorem claim_C7_counterexample :
    (remove_left 32 id id (builder_finish 32 Nat Nat 0) 0).isSome = false ∧
    (remove_right 32 id id (builder_finish 32 Nat Nat 0) 0).isSome = false :=
  by decide

/-- Witness for C7 (amended) on a fresh default-capacity map. -/
theorem claim_C7_witness :
    remove_left 32 id id (builder_finish 32 Nat Nat 32) 7 =
      some (none, builder_finish 32 Nat Nat 32) ∧
    remove_right 32 id id (builder_finish 32 Nat Nat 32) 9 =
      some (none, builder_finish 32 Nat Nat 32) :=
  claim_C7 32 id id (builder_finish 32 Nat Nat 32) (by decide) (by decide)
    (by decide) 7 9

/-! ## Stale-bits invariant for the relocation chain

During a relocation chain, the neighbourhood bitfields describe a *stale*
ideal assignment `f : slot → ideal`: the ancestors' freshly written keys
still carry the bit of the occupant they displaced.  `insert_one_sided`
restores agreement between `f` and the stored ideals before returning. -/

structure StaleWf (W : Nat) {K : Type} (h : K → Nat) (A : List (Bucket K))
    (f : Nat → Option Nat) : Prop where
  hash_ok : ∀ i k p d, slot_data A i = some (k, p, d) → d = h k % A.length
  nb_lt : ∀ i, nb_at A i < 2 ^ W
  bits : ∀ d, d < A.length → ∀ j, j < W →
    ((nb_at A d).testBit j = true ↔
      (j < A.length ∧ f ((d + j) % A.length) = some d))
  distinct : ∀ i i' k p d p' d', slot_data A i = some (k, p, d) →
    slot_data A i' = some (k, p', d') → i = i'
  occ_agree : ∀ i, (f i).isSome = (slot_data A i).isSome
  stale_disp : ∀ i d, f i = some d →
    i < A.length ∧ d < A.length ∧ (A.length + i - d) % A.length < W

/-- A well-formed side is stale-well-formed with the true ideal map. -/
theorem wfside_stale {W : Nat} {K : Type} {h : K → Nat}
    {A : List (Bucket K)} (hw : WfSide W h A) :
    StaleWf W h A (ideal_at A) := by
  refine ⟨?_, ?_, ?_, ?_, ?_, ?_⟩
  · intro i k p d hs
    exact hw.hash_eq hs
  · intro i
    rcases lt_or_ge i A.length with hi | hi
    · exact hw.nb_lt hi
    · rw [nb_at_eq_zero_out_of_range hi]
      exact Nat.two_pow_pos W
  · intro d hd j hj
    exact hw.bit_iff hd hj
  · intro i i' k p d p' d' hs hs'
    exact hw.key_unique hs hs'
  · intro i
    unfold ideal_at
    cases slot_data A i <;> rfl
  · intro i d hf
    unfold ideal_at at hf
    cases hs : slot_data A i with
    | none => rw [hs] at hf; exact Option.noConfusion hf
    | some t =>
      obtain ⟨k, p, d0⟩ := t
      rw [hs] at hf
      have hd0 : d0 = d := Option.some_inj.mp hf
      subst hd0
      exact ⟨lt_length_of_slot_data_eq_some hs, hw.ideal_lt hs,
        hw.disp_lt hs⟩

/-- Conversely, stale-well-formedness at the true ideal map gives back the
well-formed-side predicate. -/
theorem stale_wfside {W : Nat} {K : Type} {h : K → Nat}
    {A : List (Bucket K)} (hs : StaleWf W h A (ideal_at A)) :
    WfSide W h A := by
  refine ⟨?_, ?_, ?_, ?_, ?_⟩
  · intro i hi
    unfold ideal_at hkey_at
    cases hsd : slot_data A i with
    | none => rfl
    | some t =>
      obtain ⟨k, p, d⟩ := t
      have := hs.hash_ok i k p d hsd
      subst this
      rfl
  · intro i hi d hd hid
    exact (hs.stale_disp i d hid).2.2
  · intro i hi
    exact hs.nb_lt i
  · intro d hd j hj
    exact hs.bits d hd j hj
  · intro i hi i' hi' hk hsome
    unfold key_at at hk hsome
    cases hsd : slot_data A i with
    | none => rw [hsd] at hsome; exact absurd hsome (by simp)
    | some t =>
      obtain ⟨k, p, d⟩ := t
      rw [hsd] at hk
      cases hsd' : slot_data A i' with
      | none => rw [hsd'] at hk; exact Option.noConfusion hk
      | some t' =>
        obtain ⟨k', p', d'⟩ := t'
        rw [hsd'] at hk
        have : k = k' := Option.some_inj.mp hk
        subst this
        exact hs.distinct i i' k p d p' d' hsd hsd'

/-! ## Step lemmas for the individual array updates -/

theorem set_nb_of_self {K : Type} (A : List (Bucket K)) (i : Nat) :
    set_nb A i (nb_at A i) = A := by
  unfold set_nb nb_at bucket_at
  cases hg : A[i]? with
  | none => exact List.set_eq_of_length_le (by
      rw [List.getElem?_eq_none_iff] at hg
      simpa using hg)
  | some b =>
    apply List.ext_getElem?
    intro j
    rcases eq_or_ne i j with rfl | hne
    · rw [List.getElem?_set_self (List.getElem?_eq_some.mp hg).1, hg]
      rfl
    · rw [List.getElem?_set_ne hne]

theorem occ_count_set_nb {K : Type} (A : List (Bucket K)) (i x : Nat) :
    occ_count (set_nb A i x) = occ_count A := by
  unfold set_nb
  rcases lt_or_ge i A.length with hi | hi
  · have h := occ_count_set A hi ⟨(bucket_at A i).data, x⟩
    have hb : (A.get ⟨i, hi⟩).data = (bucket_at A i).data := by
      unfold bucket_at
      rw [List.getElem?_eq_getElem hi]
      rfl
    rw [hb] at h
    have h2 : ({ data := (bucket_at A i).data, neighbourhood := x } :
        Bucket K).data = (bucket_at A i).data := rfl
    rw [h2] at h
    omega
  · rw [List.set_eq_of_length_le (by simpa using hi)]

theorem occ_count_set_data {K : Type} (A : List (Bucket K)) {i : Nat}
    (hi : i < A.length) (d : Option (K × Nat × Nat)) :
    occ_count (set_data A i d) +
      (if (slot_data A i).isSome then 1 else 0) =
    occ_count A + (if d.isSome then 1 else 0) := by
  unfold set_data
  have h := occ_count_set A hi ⟨d, (bucket_at A i).neighbourhood⟩
  have hb : (A.get ⟨i, hi⟩).data = slot_data A i := by
    unfold slot_data
    rw [List.getElem?_eq_getElem hi]
    rfl
  rw [hb] at h
  exact h

theorem occ_count_mark_as_full {K : Type} (W : Nat) (d a : Nat)
    (A : List (Bucket K)) : occ_count (mark_as_full W d a A) = occ_count A := by
  unfold mark_as_full
  exact occ_count_set_nb _ _ _

theorem occ_count_mark_as_empty {K : Type} (W : Nat) (d a : Nat)
    (A : List (Bucket K)) : occ_count (mark_as_empty W d a A) = occ_count A := by
  unfold mark_as_empty
  exact occ_count_set_nb _ _ _

/-! ## Neighbourhood update characterizations -/

theorem nb_at_mark_as_full_self {K : Type} (W : Nat) {A : List (Bucket K)}
    {d : Nat} (hd : d < A.length) (a : Nat) :
    nb_at (mark_as_full W d a A) d =
      (nb_at A d ||| one_at W ((A.length + a - d) % A.length)) := by
  unfold mark_as_full
  exact nb_at_set_nb_self hd _

theorem nb_at_mark_as_full_ne {K : Type} (W : Nat) (A : List (Bucket K))
    {d d' : Nat} (h : d ≠ d') (a : Nat) :
    nb_at (mark_as_full W d a A) d' = nb_at A d' := by
  unfold mark_as_full
  exact nb_at_set_nb_ne A h _

theorem nb_at_mark_as_empty_self {K : Type} (W : Nat) {A : List (Bucket K)}
    {d : Nat} (hd : d < A.length) (a : Nat) :
    nb_at (mark_as_empty W d a A) d =
      (nb_at A d &&& zero_at W ((A.length + a - d) % A.length)) := by
  unfold mark_as_empty
  exact nb_at_set_nb_self hd _

theorem nb_at_mark_as_empty_ne {K : Type} (W : Nat) (A : List (Bucket K))
    {d d' : Nat} (h : d ≠ d') (a : Nat) :
    nb_at (mark_as_empty W d a A) d' = nb_at A d' := by
  unfold mark_as_empty
  exact nb_at_set_nb_ne A h _

theorem testBit_lor_one_at (b W off j : Nat) :
    (b ||| one_at W off).testBit j =
      (b.testBit j || (decide (off = j) && decide (j < W))) := by
  rw [Nat.testBit_lor, testBit_one_at]

theorem testBit_land_zero_at (b W off j : Nat) :
    (b &&& zero_at W off).testBit j =
      (b.testBit j && (decide (j < W) && !decide (off = j))) := by
  rw [Nat.testBit_land, testBit_zero_at]

theorem mark_as_full_noop {K : Type} (W : Nat) {A : List (Bucket K)}
    {d a : Nat}
    (hset : (nb_at A d).testBit ((A.length + a - d) % A.length) = true) :
    mark_as_full W d a A = A := by
  unfold mark_as_full
  have he : (nb_at A d ||| one_at W ((A.length + a - d) % A.length)) =
      nb_at A d := by
    apply Nat.eq_of_testBit_eq
    intro j
    rw [testBit_lor_one_at]
    rcases eq_or_ne ((A.length + a - d) % A.length) j with rfl | hne
    · rw [hset]
      rfl
    · simp [hne]
  show set_nb A d (nb_at A d ||| one_at W ((A.length + a - d) % A.length)) = A
  rw [he, set_nb_of_self]

theorem add_mod_inj {n d j o : Nat} (hd : d < n) (hj : j < n) (ho : o < n)
    (he : (d + j) % n = (d + o) % n) : j = o := by
  have h1 := offset_roundtrip hd hj
  have h2 := offset_roundtrip hd ho
  rw [he] at h1
  omega

/-- Function update used for the stale ideal maps. -/
def fupd (f : Nat → Option Nat) (i : Nat) (v : Option Nat) :
    Nat → Option Nat :=
  fun j => if j = i then v else f j

theorem fupd_self (f : Nat → Option Nat) (i : Nat) (v : Option Nat) :
    fupd f i v i = v := by
  unfold fupd
  rw [if_pos rfl]

theorem fupd_ne (f : Nat → Option Nat) {i j : Nat} (h : j ≠ i)
    (v : Option Nat) : fupd f i v j = f j := by
  unfold fupd
  rw [if_neg h]

/-- Effect of the direct-placement step of `insert_one_sided` (step 4 of
the placement engine): mark the offset bit and write the key with a
placeholder pair index. -/
theorem direct_place_stale {K : Type} [DecidableEq K] (W : Nat)
    (hX : K → Nat) {A : List (Bucket K)} {f : Nat → Option Nat}
    {key : K} {ideal offset idx : Nat} {A' : List (Bucket K)}
    (hs : StaleWf W hX A f) (hid : ideal = hX key % A.length)
    (hideal : ideal < A.length) (hoffW : offset < W)
    (hoffn : offset < A.length)
    (hidx : idx = (offset + ideal) % A.length)
    (hfree : slot_data A idx = none)
    (hfresh : ¬ keyed A key)
    (hA' : A' = set_data (mark_as_full W ideal idx A) idx
      (some (key, usize_max, ideal))) :
    StaleWf W hX A' (fupd f idx (some ideal)) ∧
    (∀ x, x ≠ idx → slot_data A' x = slot_data A x) ∧
    slot_data A' idx = some (key, usize_max, ideal) ∧
    (∀ d', d' ≠ ideal → nb_at A' d' = nb_at A d') ∧
    A'.length = A.length ∧
    occ_count A' = occ_count A + 1 := by
  have hn : 0 < A.length := by omega
  have hidxn : idx < A.length := by
    rw [hidx]
    exact Nat.mod_lt _ hn
  have hoff_eq : (A.length + idx - ideal) % A.length = offset := by
    rw [hidx, Nat.add_comm offset ideal]
    exact offset_roundtrip hideal hoffn
  have hlenM : (mark_as_full W ideal idx A).length = A.length :=
    length_mark_as_full W ideal idx A
  have hlen' : A'.length = A.length := by
    rw [hA', length_set_data, hlenM]
  have hslot_ne : ∀ x, x ≠ idx → slot_data A' x = slot_data A x := by
    intro x hx
    rw [hA', slot_data_set_data_ne _ (fun hc => hx hc.symm),
      slot_data_mark_as_full]
  have hslot_idx : slot_data A' idx = some (key, usize_max, ideal) := by
    rw [hA', slot_data_set_data_self (by rw [hlenM]; exact hidxn)]
  have hnb_ne : ∀ d', d' ≠ ideal → nb_at A' d' = nb_at A d' := by
    intro d' hd'
    rw [hA', nb_at_set_data, nb_at_mark_as_full_ne W A (fun hc => hd' hc.symm)]
  have hnb_ideal : nb_at A' ideal = (nb_at A ideal ||| one_at W offset) := by
    rw [hA', nb_at_set_data, nb_at_mark_as_full_self W hideal, hoff_eq]
  have hfidx : f idx = none := by
    have := hs.occ_agree idx
    rw [hfree] at this
    cases hf : f idx with
    | none => rfl
    | some d => rw [hf] at this; exact Bool.noConfusion this
  refine ⟨⟨?_, ?_, ?_, ?_, ?_, ?_⟩, hslot_ne, hslot_idx, hnb_ne, hlen', ?_⟩
  · intro i k p d hsd
    rw [hlen']
    rcases eq_or_ne i idx with rfl | hne
    · rw [hslot_idx] at hsd
      simp only [Option.some.injEq, Prod.mk.injEq] at hsd
      obtain ⟨rfl, _, rfl⟩ := hsd
      exact hid
    · rw [hslot_ne i hne] at hsd
      exact hs.hash_ok i k p d hsd
  · intro i
    rcases eq_or_ne i ideal with rfl | hne
    · rw [hnb_ideal]
      exact Nat.or_lt_two_pow (hs.nb_lt i) (one_at_lt W offset)
    · rw [hnb_ne i hne]
      exact hs.nb_lt i
  · intro d hd j hj
    rw [hlen'] at hd ⊢
    rcases eq_or_ne d ideal with rfl | hne
    · rcases eq_or_ne j offset with rfl | hjo
      · constructor
        · intro _
          refine ⟨hoffn, ?_⟩
          rw [Nat.add_comm d j, ← hidx, fupd_self]
        · intro _
          rw [hnb_ideal, testBit_lor_one_at]
          simp [hj]
      · rw [hnb_ideal, testBit_lor_one_at]
        have hone : (decide (offset = j) && decide (j < W)) = false := by
          simp only [Bool.and_eq_true_iff, decide_eq_true_eq,
            Bool.and_eq_false_iff]
          left
          simpa using fun h => hjo h.symm
        rw [hone, Bool.or_false]
        rcases lt_or_ge j A.length with hjn | hjn
        · have hne2 : (d + j) % A.length ≠ idx := by
            intro hc
            apply hjo
            exact add_mod_inj hd hjn hoffn
              (by rw [hc, hidx, Nat.add_comm offset d])
          rw [fupd_ne f hne2]
          exact hs.bits d hd j hj
        · constructor
          · intro hset
            have := (hs.bits d hd j hj).mp hset
            omega
          · rintro ⟨hj2, _⟩
            omega
    · rw [hnb_ne d hne]
      rcases eq_or_ne ((d + j) % A.length) idx with he | hne2
      · rw [he, fupd_self]
        have hbits := hs.bits d hd j hj
        rw [he, hfidx] at hbits
        constructor
        · intro hset
          obtain ⟨_, hc⟩ := hbits.mp hset
          exact Option.noConfusion hc
        · rintro ⟨_, hc⟩
          exact absurd (Option.some_inj.mp hc) (fun hc2 => hne hc2.symm)
      · rw [fupd_ne f hne2]
        exact hs.bits d hd j hj
  · intro i i' k p d p' d' hsd hsd'
    rcases eq_or_ne i idx with rfl | hne
    · rcases eq_or_ne i' i with rfl | hne'
      · rfl
      · rw [hslot_idx] at hsd
        rw [hslot_ne i' hne'] at hsd'
        simp only [Option.some.injEq, Prod.mk.injEq] at hsd
        obtain ⟨rfl, _, _⟩ := hsd
        exact absurd ⟨i', by unfold key_at; rw [hsd']; rfl⟩ hfresh
    · rcases eq_or_ne i' idx with rfl | hne'
      · rw [hslot_idx] at hsd'
        rw [hslot_ne i hne] at hsd
        simp only [Option.some.injEq, Prod.mk.injEq] at hsd'
        obtain ⟨rfl, _, _⟩ := hsd'
        exact absurd ⟨i, by unfold key_at; rw [hsd]; rfl⟩ hfresh
      · rw [hslot_ne i hne] at hsd
        rw [hslot_ne i' hne'] at hsd'
        exact hs.distinct i i' k p d p' d' hsd hsd'
  · intro i
    rcases eq_or_ne i idx with rfl | hne
    · rw [fupd_self, hslot_idx]
      rfl
    · rw [fupd_ne f hne, hslot_ne i hne]
      exact hs.occ_agree i
  · intro i d hf
    rw [hlen']
    rcases eq_or_ne i idx with rfl | hne
    · rw [fupd_self] at hf
      have hd : d = ideal := Option.some_inj.mp hf.symm
      subst hd
      exact ⟨hidxn, hideal, by rw [hoff_eq]; exact hoffW⟩
    · rw [fupd_ne f hne] at hf
      exact hs.stale_disp i d hf
  · rw [hA']
    have h := occ_count_set_data (mark_as_full W ideal idx A)
      (by rw [hlenM]; exact hidxn) (some (key, usize_max, ideal))
    rw [slot_data_mark_as_full, hfree, occ_count_mark_as_full] at h
    simpa using h

/-! ## Further update algebra -/

theorem bucket_at_data {K : Type} (A : List (Bucket K)) (i : Nat) :
    (bucket_at A i).data = slot_data A i := by
  unfold bucket_at slot_data
  cases A[i]? <;> rfl

theorem set_nb_eq_set {K : Type} (A : List (Bucket K)) (i x : Nat) :
    set_nb A i x = A.set i ⟨slot_data A i, x⟩ := by
  unfold set_nb
  rw [bucket_at_data]

theorem set_nb_set_data_comm {K : Type} (A : List (Bucket K)) (i j : Nat)
    (d : Option (K × Nat × Nat)) (x : Nat) :
    set_nb (set_data A i d) j x = set_data (set_nb A j x) i d := by
  rcases eq_or_ne i j with rfl | hij
  · rcases lt_or_ge i A.length with hi | hi
    · rw [set_nb_eq_set, slot_data_set_data_self hi]
      show (A.set i _).set i _ = set_data (set_nb A i x) i d
      rw [List.set_set]
      show A.set i ⟨d, x⟩ = (set_nb A i x).set i
        ⟨d, (bucket_at (set_nb A i x) i).neighbourhood⟩
      have hnb : (bucket_at (set_nb A i x) i).neighbourhood =
          nb_at (set_nb A i x) i := rfl
      rw [hnb, nb_at_set_nb_self hi]
      show A.set i ⟨d, x⟩ = (A.set i _).set i ⟨d, x⟩
      rw [List.set_set]
    · unfold set_data set_nb
      rw [List.set_eq_of_length_le (by simpa using hi),
        List.set_eq_of_length_le (by simpa using hi),
        List.set_eq_of_length_le (by simpa using hi),
        List.set_eq_of_length_le (by simpa using hi)]
  · rw [set_nb_eq_set, slot_data_set_data_ne A hij d]
    show (A.set i _).set j _ = set_data (set_nb A j x) i d
    have hnb2 : set_data (set_nb A j x) i d = (set_nb A j x).set i
        ⟨d, nb_at (set_nb A j x) i⟩ := rfl
    rw [hnb2, nb_at_set_nb_ne A (fun hc => hij hc.symm) x,
      set_nb_eq_set]
    show (A.set i _).set j _ = (A.set j _).set i _
    exact List.set_comm _ _ _ hij

theorem occ_count_cons {K : Type} (b : Bucket K) (A : List (Bucket K)) :
    occ_count (b :: A) = occ_count A + (if b.data.isSome then 1 else 0) := by
  unfold occ_count
  rw [List.countP_cons]

theorem slot_data_cons_succ {K : Type} (b : Bucket K) (A : List (Bucket K))
    (j : Nat) : slot_data (b :: A) (j + 1) = slot_data A j := by
  unfold slot_data
  rw [List.getElem?_cons_succ]

theorem slot_data_cons_zero {K : Type} (b : Bucket K) (A : List (Bucket K)) :
    slot_data (b :: A) 0 = b.data := by
  unfold slot_data
  rw [List.getElem?_cons_zero]
  rfl

theorem occ_count_eq_of_slots {K V : Type} :
    ∀ (A : List (Bucket K)) (B : List (Bucket V)),
      A.length = B.length →
      (∀ j, (slot_data A j).isSome = (slot_data B j).isSome) →
      occ_count A = occ_count B := by
  intro A
  induction A with
  | nil =>
    intro B hlen _
    rw [List.length_nil] at hlen
    rw [(List.length_eq_zero.mp hlen.symm)]
    rfl
  | cons a A ih =>
    intro B hlen hslots
    cases B with
    | nil => exact absurd hlen (by simp)
    | cons b B =>
      rw [occ_count_cons, occ_count_cons]
      have h0 := hslots 0
      rw [slot_data_cons_zero, slot_data_cons_zero] at h0
      rw [h0, ih B (by simpa using hlen) (fun j => by
        have := hslots (j + 1)
        rwa [slot_data_cons_succ, slot_data_cons_succ] at this)]

theorem isSome_of_proj_eq {K K' : Type} {a : Option (K × Nat × Nat)}
    {b : Option (K' × Nat × Nat)} {f : K × Nat × Nat → K' × Nat × Nat}
    (h : a.map f = b) : a.isSome = b.isSome := by
  cases a with
  | none => rw [← h]; rfl
  | some t => rw [← h]; rfl

/-- Fields other than the pair index determine `WfSide`: an array with the
same length, keys, ideals and neighbourhoods as a well-formed one is
well-formed. -/
theorem wfside_of_same {W : Nat} {K : Type} {h : K → Nat}
    {A B : List (Bucket K)} (hw : WfSide W h A)
    (hlen : B.length = A.length)
    (hslots : ∀ j, (slot_data B j).map (fun t => (t.1, t.2.2)) =
      (slot_data A j).map (fun t => (t.1, t.2.2)))
    (hnb : ∀ j, nb_at B j = nb_at A j) : WfSide W h B := by
  have hkey : ∀ j, key_at B j = key_at A j := by
    intro j
    unfold key_at
    have h2 := congrArg (Option.map (fun t : K × Nat => t.1)) (hslots j)
    rw [Option.map_map, Option.map_map] at h2
    exact h2
  have hideal : ∀ j, ideal_at B j = ideal_at A j := by
    intro j
    unfold ideal_at
    have h2 := congrArg (Option.map (fun t : K × Nat => t.2)) (hslots j)
    rw [Option.map_map, Option.map_map] at h2
    exact h2
  have hhk : ∀ j, hkey_at h B j = hkey_at h A j := by
    intro j
    unfold hkey_at
    rw [hlen]
    have h2 := congrArg (Option.map (fun t : K × Nat => h t.1 % A.length))
      (hslots j)
    rw [Option.map_map, Option.map_map] at h2
    exact h2
  refine ⟨?_, ?_, ?_, ?_, ?_⟩
  · intro i hi
    rw [hideal i, hhk i]
    rw [hlen] at hi
    exact hw.1 i hi
  · intro i hi d hd hid
    rw [hlen] at hi hd ⊢
    rw [hideal] at hid
    exact hw.2.1 i hi d hd hid
  · intro i hi
    rw [hnb]
    rw [hlen] at hi
    exact hw.2.2.1 i hi
  · intro d hd j hj
    rw [hlen] at hd ⊢
    rw [hnb, hideal]
    exact hw.2.2.2.1 d hd j hj
  · intro i hi i' hi' hk hsome
    rw [hlen] at hi hi'
    rw [hkey] at hk hsome
    rw [hkey] at hk
    exact hw.2.2.2.2 i hi i' hi' hk hsome

theorem keyed_iff_slot {K : Type} (A : List (Bucket K)) (k : K) :
    keyed A k ↔ ∃ i p d, slot_data A i = some (k, p, d) := by
  unfold keyed key_at
  constructor
  · rintro ⟨i, hi⟩
    cases hs : slot_data A i with
    | none => rw [hs] at hi; exact Option.noConfusion hi
    | some t =>
      obtain ⟨k', p, d⟩ := t
      rw [hs] at hi
      simp only [Option.map_some', Option.some.injEq] at hi
      subst hi
      exact ⟨i, p, d, hs⟩
  · rintro ⟨i, p, d, hs⟩
    refine ⟨i, ?_⟩
    rw [hs]
    rfl

theorem keyed_of_slot {K : Type} {A : List (Bucket K)} {i : Nat} {k : K}
    {p d : Nat} (hs : slot_data A i = some (k, p, d)) : keyed A k :=
  (keyed_iff_slot A k).mpr ⟨i, p, d, hs⟩

/-! ## Pair-index repair and relocation-start updates -/

theorem slot_data_set_data_out {K : Type} (A : List (Bucket K)) {i : Nat}
    (hi : A.length ≤ i) (d : Option (K × Nat × Nat)) :
    set_data A i d = A := by
  unfold set_data
  exact List.set_eq_of_length_le (by simpa using hi)

theorem occ_count_set_data_some_of_some {K : Type} {A : List (Bucket K)}
    {i : Nat} {t u : K × Nat × Nat} (hs : slot_data A i = some t) :
    occ_count (set_data A i (some u)) = occ_count A := by
  have hi := lt_length_of_slot_data_eq_some hs
  have h := occ_count_set_data A hi (some u)
  rw [hs] at h
  simpa using h

/-- Rewriting only the pair index of an occupied slot preserves stale
well-formedness (the pair index enters none of its clauses). -/
theorem stale_set_pair {W : Nat} {K : Type} {hX : K → Nat}
    {A : List (Bucket K)} {f : Nat → Option Nat} (hs : StaleWf W hX A f)
    {i : Nat} {k : K} {p d : Nat} (hsd : slot_data A i = some (k, p, d))
    (p' : Nat) : StaleWf W hX (set_data A i (some (k, p', d))) f := by
  have hi := lt_length_of_slot_data_eq_some hsd
  have hlen : (set_data A i (some (k, p', d))).length = A.length :=
    length_set_data A i _
  have hslot : ∀ x, x ≠ i →
      slot_data (set_data A i (some (k, p', d))) x = slot_data A x :=
    fun x hx => slot_data_set_data_ne A (fun hc => hx hc.symm) _
  have hself : slot_data (set_data A i (some (k, p', d))) i =
      some (k, p', d) := slot_data_set_data_self hi _
  refine ⟨?_, ?_, ?_, ?_, ?_, ?_⟩
  · intro x kx px dx hx
    rw [hlen]
    rcases eq_or_ne x i with rfl | hne
    · rw [hself] at hx
      simp only [Option.some.injEq, Prod.mk.injEq] at hx
      obtain ⟨rfl, _, rfl⟩ := hx
      exact hs.hash_ok x k p d hsd
    · rw [hslot x hne] at hx
      exact hs.hash_ok x kx px dx hx
  · intro x
    rw [nb_at_set_data]
    exact hs.nb_lt x
  · intro dd hdd j hj
    rw [hlen] at hdd ⊢
    rw [nb_at_set_data]
    exact hs.bits dd hdd j hj
  · intro x x' kx px dx px' dx' hx hx'
    rcases eq_or_ne x i with rfl | hne
    · rcases eq_or_ne x' x with rfl | hne'
      · rfl
      · rw [hself] at hx
        rw [hslot x' hne'] at hx'
        simp only [Option.some.injEq, Prod.mk.injEq] at hx
        obtain ⟨rfl, _, _⟩ := hx
        exact hs.distinct x x' k p d px' dx' hsd hx'
    · rcases eq_or_ne x' i with rfl | hne'
      · rw [hself] at hx'
        rw [hslot x hne] at hx
        simp only [Option.some.injEq, Prod.mk.injEq] at hx'
        obtain ⟨rfl, _, _⟩ := hx'
        exact hs.distinct x x' k px dx p d hx hsd
      · rw [hslot x hne] at hx
        rw [hslot x' hne'] at hx'
        exact hs.distinct x x' kx px dx px' dx' hx hx'
  · intro x
    rcases eq_or_ne x i with rfl | hne
    · rw [hself]
      have h := hs.occ_agree x
      rw [hsd] at h
      exact h
    · rw [hslot x hne]
      exact hs.occ_agree x
  · intro x dd hf
    rw [hlen]
    exact hs.stale_disp x dd hf

/-- Overwriting an occupied slot with a fresh key (the relocation start of
step 5) preserves stale well-formedness with the same bit-assignment. -/
theorem stale_overwrite_start {W : Nat} {K : Type} {hX : K → Nat}
    {A : List (Bucket K)} {f : Nat → Option Nat} (hs : StaleWf W hX A f)
    {i : Nat} {k0 : K} {p0 d0 : Nat} (hsd : slot_data A i = some (k0, p0, d0))
    {key : K} (hfresh : ¬ keyed A key) {p1 ideal : Nat}
    (hid : ideal = hX key % A.length) :
    StaleWf W hX (set_data A i (some (key, p1, ideal))) f := by
  have hi := lt_length_of_slot_data_eq_some hsd
  have hlen : (set_data A i (some (key, p1, ideal))).length = A.length :=
    length_set_data A i _
  have hslot : ∀ x, x ≠ i →
      slot_data (set_data A i (some (key, p1, ideal))) x = slot_data A x :=
    fun x hx => slot_data_set_data_ne A (fun hc => hx hc.symm) _
  have hself : slot_data (set_data A i (some (key, p1, ideal))) i =
      some (key, p1, ideal) := slot_data_set_data_self hi _
  refine ⟨?_, ?_, ?_, ?_, ?_, ?_⟩
  · intro x kx px dx hx
    rw [hlen]
    rcases eq_or_ne x i with rfl | hne
    · rw [hself] at hx
      simp only [Option.some.injEq, Prod.mk.injEq] at hx
      obtain ⟨rfl, _, rfl⟩ := hx
      exact hid
    · rw [hslot x hne] at hx
      exact hs.hash_ok x kx px dx hx
  · intro x
    rw [nb_at_set_data]
    exact hs.nb_lt x
  · intro dd hdd j hj
    rw [hlen] at hdd ⊢
    rw [nb_at_set_data]
    exact hs.bits dd hdd j hj
  · intro x x' kx px dx px' dx' hx hx'
    rcases eq_or_ne x i with rfl | hne
    · rcases eq_or_ne x' x with rfl | hne'
      · rfl
      · rw [hself] at hx
        rw [hslot x' hne'] at hx'
        simp only [Option.some.injEq, Prod.mk.injEq] at hx
        obtain ⟨rfl, _, _⟩ := hx
        exact absurd (keyed_of_slot hx') hfresh
    · rcases eq_or_ne x' i with rfl | hne'
      · rw [hself] at hx'
        rw [hslot x hne] at hx
        simp only [Option.some.injEq, Prod.mk.injEq] at hx'
        obtain ⟨rfl, _, _⟩ := hx'
        exact absurd (keyed_of_slot hx) hfresh
      · rw [hslot x hne] at hx
        rw [hslot x' hne'] at hx'
        exact hs.distinct x x' kx px dx px' dx' hx hx'
  · intro x
    rcases eq_or_ne x i with rfl | hne
    · rw [hself]
      have h := hs.occ_agree x
      rw [hsd] at h
      exact h
    · rw [hslot x hne]
      exact hs.occ_agree x
  · intro x dd hf
    rw [hlen]
    exact hs.stale_disp x dd hf

/-! ## Relocation-window arithmetic -/

/-- A candidate at backward distance `i` from `max_offset = (ideal + W) %
n` sits at displacement exactly `W - i` from `ideal`. -/
theorem reloc_disp {n ideal i : Nat} {W : Nat} (hn : W < n)
    (hideal : ideal < n) (hi1 : 1 ≤ i) (hiW : i < W) :
    (n + (n + (ideal + W) % n - i) % n - ideal) % n = W - i := by
  have hn0 : 0 < n := by omega
  set mo := (ideal + W) % n with hmo
  have hmon : mo < n := Nat.mod_lt _ hn0
  set idx := (n + mo - i) % n with hidx
  have hidxn : idx < n := Nat.mod_lt _ hn0
  set disp := (n + idx - ideal) % n with hdisp
  have hdispn : disp < n := Nat.mod_lt _ hn0
  have h1 : (ideal + disp) % n = idx := offset_cancel hideal hidxn
  have h2 : (idx + i) % n = mo := by
    rw [hidx, Nat.mod_add_mod]
    have he : n + mo - i + i = n + mo := by omega
    rw [he, Nat.add_mod_left, Nat.mod_eq_of_lt hmon]
  have h3 : (ideal + disp + i) % n = (ideal + W) % n := by
    rw [← Nat.mod_add_mod, h1, h2]
  have h4 : (disp + i) % n = W % n :=
    Nat.ModEq.add_left_cancel' ideal (by
      show (ideal + (disp + i)) % n = (ideal + W) % n
      rw [← Nat.add_assoc]
      exact h3)
  have hW : W % n = W := Nat.mod_eq_of_lt hn
  rw [hW] at h4
  rcases lt_or_ge (disp + i) n with hlt | hge
  · rw [Nat.mod_eq_of_lt hlt] at h4
    omega
  · rw [Nat.mod_eq_sub_mod hge,
      Nat.mod_eq_of_lt (by omega : disp + i - n < n)] at h4
    omega

/-- The position returned by `candidate_scan` comes from an element of the
offset list and satisfies the eligibility test. -/
theorem candidate_scan_mem {K : Type} {A : List (Bucket K)}
    {ideal mo len : Nat} :
    ∀ (l : List Nat) (pos : Nat),
      candidate_scan A ideal mo len l = some (some pos) →
      ∃ i ∈ l, pos = (len + mo - i) % len ∧
        ∃ k p d, slot_data A pos = some (k, p, d) ∧ (d > ideal ∨ d < mo) := by
  intro l
  induction l with
  | nil =>
    intro pos hc
    unfold candidate_scan at hc
    simp at hc
  | cons a as ihh =>
    intro pos hc
    rw [candidate_scan] at hc
    cases hsd : slot_data A ((len + mo - a) % len) with
    | none => rw [hsd] at hc; exact Option.noConfusion hc
    | some t =>
      obtain ⟨k, p, d⟩ := t
      simp only [hsd] at hc
      by_cases hcnd : d > ideal ∨ d < mo
      · rw [if_pos hcnd] at hc
        simp only [Option.some.injEq] at hc
        subst hc
        exact ⟨a, List.mem_cons_self a as, rfl, k, p, d, hsd, hcnd⟩
      · rw [if_neg hcnd] at hc
        obtain ⟨i, hmem, hpos, hrest⟩ := ihh pos hc
        exact ⟨i, List.mem_cons_of_mem a hmem, hpos, hrest⟩

/-- Effect of the final bookkeeping of a relocation step: clearing the old
bit of the chain-start slot and setting its new bit reassigns the slot from
its old ideal to the ideal of the freshly written key. -/
theorem finish_marks_stale {W : Nat} {K : Type} {hX : K → Nat}
    {A : List (Bucket K)} {f : Nat → Option Nat} (hs : StaleWf W hX A f)
    {index dold : Nat} (hfi : f index = some dold)
    {key : K} {ideal : Nat}
    (hslot : slot_data A index = some (key, usize_max, ideal))
    (hideal : ideal < A.length)
    (hdisp : (A.length + index - ideal) % A.length < W) :
    StaleWf W hX
      (mark_as_full W ideal index (mark_as_empty W dold index A))
      (fupd f index (some ideal)) ∧
    (∀ x, slot_data
      (mark_as_full W ideal index (mark_as_empty W dold index A)) x =
      slot_data A x) ∧
    (mark_as_full W ideal index (mark_as_empty W dold index A)).length =
      A.length ∧
    occ_count (mark_as_full W ideal index (mark_as_empty W dold index A)) =
      occ_count A := by
  obtain ⟨hidxn, hdold, ho1W⟩ := hs.stale_disp index dold hfi
  have hn0 : 0 < A.length := by omega
  have hlenE : (mark_as_empty W dold index A).length = A.length :=
    length_mark_as_empty W dold index A
  have hlen' : (mark_as_full W ideal index
      (mark_as_empty W dold index A)).length = A.length := by
    rw [length_mark_as_full, hlenE]
  have hslots : ∀ x, slot_data
      (mark_as_full W ideal index (mark_as_empty W dold index A)) x =
      slot_data A x := by
    intro x
    rw [slot_data_mark_as_full, slot_data_mark_as_empty]
  have hocc : occ_count (mark_as_full W ideal index
      (mark_as_empty W dold index A)) = occ_count A := by
    rw [occ_count_mark_as_full, occ_count_mark_as_empty]
  have ho2n : (A.length + index - ideal) % A.length < A.length :=
    offset_lt hn0
  have ho1n : (A.length + index - dold) % A.length < A.length :=
    offset_lt hn0
  have hc2 : (ideal + (A.length + index - ideal) % A.length) % A.length =
      index := offset_cancel hideal hidxn
  have hc1 : (dold + (A.length + index - dold) % A.length) % A.length =
      index := offset_cancel hdold hidxn
  have htb : ∀ d j, j < W →
      (nb_at (mark_as_full W ideal index
        (mark_as_empty W dold index A)) d).testBit j =
      (if d = ideal ∧ j = (A.length + index - ideal) % A.length then true
       else if d = dold ∧ j = (A.length + index - dold) % A.length then false
       else (nb_at A d).testBit j) := by
    intro d j hj
    rcases eq_or_ne d ideal with rfl | hni
    · rw [nb_at_mark_as_full_self W (by rw [hlenE]; exact hideal), hlenE]
      rcases eq_or_ne dold d with rfl | hnd
      · rw [nb_at_mark_as_empty_self W hdold, testBit_lor_one_at,
          testBit_land_zero_at]
        rcases eq_or_ne j ((A.length + index - dold) % A.length)
          with rfl | hjo
        · rw [if_pos ⟨rfl, rfl⟩]
          simp [hj]
        · rw [if_neg (fun hc => hjo hc.2), if_neg (fun hc => hjo hc.2)]
          have h1 : decide ((A.length + index - dold) % A.length = j)
              = false := by
            simp only [decide_eq_false_iff_not]
            exact fun hc => hjo hc.symm
          rw [h1]
          simp [hj]
      · rw [nb_at_mark_as_empty_ne W A hnd, testBit_lor_one_at]
        rcases eq_or_ne j ((A.length + index - d) % A.length) with rfl | hjo
        · rw [if_pos ⟨rfl, rfl⟩]
          simp [hj]
        · rw [if_neg (fun hc => hjo hc.2),
            if_neg (fun hc => hnd hc.1.symm)]
          have h1 : decide ((A.length + index - d) % A.length = j)
              = false := by
            simp only [decide_eq_false_iff_not]
            exact fun hc => hjo hc.symm
          rw [h1]
          simp
    · rw [nb_at_mark_as_full_ne W _ (fun hc => hni hc.symm)]
      rcases eq_or_ne d dold with rfl | hnd
      · rw [nb_at_mark_as_empty_self W hdold, testBit_land_zero_at]
        rcases eq_or_ne j ((A.length + index - d) % A.length) with rfl | hjo
        · rw [if_neg (fun hc => hni hc.1), if_pos ⟨rfl, rfl⟩]
          simp
        · rw [if_neg (fun hc => hni hc.1), if_neg (fun hc => hjo hc.2)]
          have h1 : (!decide ((A.length + index - d) % A.length = j))
              = true := by
            simp only [Bool.not_eq_true', decide_eq_false_iff_not]
            exact fun hc => hjo hc.symm
          rw [h1]
          simp [hj]
      · rw [nb_at_mark_as_empty_ne W A (fun hc => hnd hc.symm)]
        rw [if_neg (fun hc => hni hc.1), if_neg (fun hc => hnd hc.1)]
  refine ⟨⟨?_, ?_, ?_, ?_, ?_, ?_⟩, hslots, hlen', hocc⟩
  · intro i k p d hsd
    rw [hlen']
    rw [hslots] at hsd
    exact hs.hash_ok i k p d hsd
  · intro i
    have hbase : nb_at (mark_as_empty W dold index A) i < 2 ^ W := by
      rcases eq_or_ne dold i with he | hnd
      · rw [← he, nb_at_mark_as_empty_self W hdold]
        exact Nat.lt_of_le_of_lt Nat.and_le_left (hs.nb_lt dold)
      · rw [nb_at_mark_as_empty_ne W A hnd]
        exact hs.nb_lt i
    rcases eq_or_ne i ideal with he | hni
    · rw [he, nb_at_mark_as_full_self W (by rw [hlenE]; exact hideal), hlenE]
      rw [he] at hbase
      exact Nat.or_lt_two_pow hbase (one_at_lt W _)
    · rw [nb_at_mark_as_full_ne W _ (fun hc => hni hc.symm)]
      exact hbase
  · intro d hd j hj
    rw [hlen'] at hd ⊢
    rw [htb d j hj]
    rcases eq_or_ne d ideal with rfl | hni
    · rcases eq_or_ne j ((A.length + index - d) % A.length) with rfl | hjo
      · rw [if_pos ⟨rfl, rfl⟩]
        constructor
        · intro _
          refine ⟨ho2n, ?_⟩
          rw [hc2, fupd_self]
        · intro _
          rfl
      · rw [if_neg (fun hc => hjo hc.2)]
        by_cases hdd : d = dold ∧ j = (A.length + index - dold) % A.length
        · rw [if_pos hdd]
          obtain ⟨hde, hje⟩ := hdd
          exact absurd (by rw [hde]; exact hje) hjo
        · rw [if_neg hdd]
          rcases lt_or_ge j A.length with hjn | hjn
          · rcases eq_or_ne ((d + j) % A.length) index with he | hne
            · exact absurd (add_mod_inj hideal hjn ho2n
                (by rw [he, hc2])) hjo
            · rw [fupd_ne f hne]
              exact hs.bits d hd j hj
          · constructor
            · intro hset
              have := (hs.bits d hd j hj).mp hset
              omega
            · rintro ⟨hjn2, _⟩
              omega
    · rw [if_neg (fun hc => hni hc.1)]
      by_cases hdd : d = dold ∧ j = (A.length + index - dold) % A.length
      · rw [if_pos hdd]
        obtain ⟨hde, hje⟩ := hdd
        constructor
        · intro hc
          exact Bool.noConfusion hc
        · rintro ⟨hjn, hfx⟩
          rw [hje, hde, hc1, fupd_self] at hfx
          exact absurd (hde.trans (Option.some_inj.mp hfx).symm) hni
      · rw [if_neg hdd]
        rcases lt_or_ge j A.length with hjn | hjn
        · rcases eq_or_ne ((d + j) % A.length) index with he | hne
          · have hbits := hs.bits d hd j hj
            rw [he, hfi] at hbits
            constructor
            · intro hset
              obtain ⟨_, hc⟩ := hbits.mp hset
              have hdd2 : d = dold := (Option.some_inj.mp hc).symm
              subst hdd2
              exact absurd (add_mod_inj hdold hjn ho1n (by rw [he, hc1]))
                (fun hc2 => hdd ⟨rfl, hc2⟩)
            · rintro ⟨_, hfx⟩
              rw [he, fupd_self] at hfx
              exact absurd (Option.some_inj.mp hfx).symm hni
          · rw [fupd_ne f hne]
            exact hs.bits d hd j hj
        · constructor
          · intro hset
            have := (hs.bits d hd j hj).mp hset
            omega
          · rintro ⟨hjn2, _⟩
            omega
  · intro i i' k p d p' d' hsd hsd'
    rw [hslots] at hsd hsd'
    exact hs.distinct i i' k p d p' d' hsd hsd'
  · intro i
    rw [hslots]
    rcases eq_or_ne i index with rfl | hne
    · rw [fupd_self, hslot]
      rfl
    · rw [fupd_ne f hne]
      exact hs.occ_agree i
  · intro i d hf
    rw [hlen']
    rcases eq_or_ne i index with rfl | hne
    · rw [fupd_self] at hf
      have : ideal = d := Option.some_inj.mp hf
      subst this
      exact ⟨hidxn, hideal, hdisp⟩
    · rw [fupd_ne f hne] at hf
      exact hs.stale_disp i d hf

/-! ## The success specification of `insert_one_sided` -/

/-- The pair `(k, v)` is stored across the two arrays: a key slot holds `k`
with a pair index pointing at a value slot holding `v` that links back. -/
def AssocP {K V : Type} (X : List (Bucket K)) (Y : List (Bucket V))
    (k : K) (v : V) : Prop :=
  ∃ i j d dv, slot_data X i = some (k, j, d) ∧ slot_data Y j = some (v, i, dv)

theorem find_ideal_index_some {K : Type} {h : K → Nat} {len : Nat} {k : K}
    {i : Nat} (hf : find_ideal_index h len k = some i) :
    0 < len ∧ i = h k % len := by
  unfold find_ideal_index at hf
  by_cases hl : len = 0
  · rw [if_pos hl] at hf
    exact Option.noConfusion hf
  · rw [if_neg hl] at hf
    exact ⟨by omega, (Option.some_inj.mp hf).symm⟩

theorem mem_range_drop_one {W i : Nat} (h : i ∈ (List.range W).drop 1) :
    1 ≤ i ∧ i < W := by
  cases W with
  | zero => simp at h
  | succ W' =>
    rw [List.range_succ_eq_map] at h
    simp only [List.drop_succ_cons, List.drop_zero] at h
    obtain ⟨a, _, rfl⟩ := List.mem_map.mp h
    exact ⟨by omega, by
      have := List.mem_range.mp (by assumption)
      omega⟩

/-- Preconditions threaded through the `insert_one_sided` recursion: the
key array is stale-well-formed, the inserted key is fresh, non-placeholder
key slots cross-link into the value array, value slots point at occupied
key slots injectively, staleness occurs only at placeholder slots, and
both arrays are `usize`-addressable. -/
structure OkPre (W : Nat) {K V : Type} (hX : K → Nat) (key : K)
    (X : List (Bucket K)) (Y : List (Bucket V)) (f : Nat → Option Nat) :
    Prop where
  swf : StaleWf W hX X f
  fresh : ¬ keyed X key
  fwd : ∀ i k p d, slot_data X i = some (k, p, d) → p ≠ usize_max →
    ∃ v dv, slot_data Y p = some (v, i, dv)
  bwd : ∀ j v q dv, slot_data Y j = some (v, q, dv) → q ≠ usize_max →
    (slot_data X q).isSome = true
  binj : ∀ j j' v v' q dv dv', slot_data Y j = some (v, q, dv) →
    slot_data Y j' = some (v', q, dv') → q ≠ usize_max → j = j'
  stale_ph : ∀ i, f i ≠ ideal_at X i → pair_at X i = some usize_max
  lenX_le : X.length ≤ usize_max
  lenY_le : Y.length ≤ usize_max

/-- Postcondition of a successful `insert_one_sided`: the key sits at the
returned index as the unique new placeholder, the value array keeps its
keys, ideals, neighbourhoods and occupancy (only pair indices of fixed-up
partners move, and they follow their relocated key slots), the stored pair
set is unchanged, and the key array is stale-well-formed for the original
assignment extended at the returned index. -/
structure OkPost (W : Nat) {K V : Type} (hX : K → Nat) (key : K)
    (X : List (Bucket K)) (Y : List (Bucket V)) (f : Nat → Option Nat)
    (idx : Nat) (X' : List (Bucket K)) (Y' : List (Bucket V)) : Prop where
  lenX : X'.length = X.length
  lenY : Y'.length = Y.length
  idx_lt : idx < X.length
  placed : slot_data X' idx = some (key, usize_max, hX key % X.length)
  ph_stable : ∀ i, pair_at X i = some usize_max →
    slot_data X' i = slot_data X i
  keyed_iff : ∀ k', keyed X' k' ↔ (keyed X k' ∨ k' = key)
  yproj : ∀ j, (slot_data Y' j).map (fun t => (t.1, t.2.2)) =
    (slot_data Y j).map (fun t => (t.1, t.2.2))
  ynb : ∀ j, nb_at Y' j = nb_at Y j
  occX : occ_count X' = occ_count X + 1
  nopoint : ∀ j v q dv, slot_data Y' j = some (v, q, dv) → q ≠ idx
  ychg : ∀ j, slot_data Y' j ≠ slot_data Y j →
    ∃ v q dv q' k2 d2 k0 p0 d0,
      slot_data Y j = some (v, q, dv) ∧
      slot_data Y' j = some (v, q', dv) ∧
      slot_data X' q' = some (k2, j, d2) ∧
      slot_data X q = some (k0, p0, d0) ∧ p0 ≠ usize_max
  fwd : ∀ i k p d, slot_data X' i = some (k, p, d) → p ≠ usize_max →
    ∃ v dv, slot_data Y' p = some (v, i, dv)
  bwd : ∀ j v q dv, slot_data Y' j = some (v, q, dv) → q ≠ usize_max →
    (slot_data X' q).isSome = true
  binj : ∀ j j' v v' q dv dv', slot_data Y' j = some (v, q, dv) →
    slot_data Y' j' = some (v', q, dv') → q ≠ usize_max → j = j'
  assoc : ∀ k v, AssocP X' Y' k v ↔ AssocP X Y k v
  ph_new : ∀ i, i ≠ idx → pair_at X' i = some usize_max →
    pair_at X i = some usize_max
  occ_mono : ∀ i, (slot_data X i).isSome = true →
    (slot_data X' i).isSome = true
  stale : ∃ f', StaleWf W hX X' f' ∧ f' idx = some (hX key % X.length) ∧
    (∀ i, pair_at X i = some usize_max → f' i = f i) ∧
    (∀ i, f' i ≠ ideal_at X' i → (f i ≠ ideal_at X i ∧ i ≠ idx))

/-- The direct-placement branch (offset within the window, free slot)
establishes the full success postcondition. -/
theorem direct_post {K V : Type} [DecidableEq K] (W : Nat) (hX : K → Nat)
    {key : K} {X : List (Bucket K)} {Y : List (Bucket V)}
    {f : Nat → Option Nat} (hpre : OkPre W hX key X Y f)
    {ideal offset idx : Nat}
    (hid : ideal = hX key % X.length) (hideal : ideal < X.length)
    (hoffW : offset < W) (hoffn : offset < X.length)
    (hidx : idx = (offset + ideal) % X.length)
    (hfree : slot_data X idx = none) :
    OkPost W hX key X Y f idx
      (set_data (mark_as_full W ideal idx X) idx
        (some (key, usize_max, ideal))) Y := by
  obtain ⟨hstale, hslot_ne, hslot_idx, hnb_ne, hlen', hocc⟩ :=
    direct_place_stale W hX hpre.swf hid hideal hoffW hoffn hidx hfree
      hpre.fresh rfl
  have hidxn : idx < X.length := by
    rw [hidx]
    exact Nat.mod_lt _ (by omega)
  refine ⟨hlen', rfl, hidxn, ?_, ?_, ?_, ?_, ?_, hocc, ?_, ?_, ?_, ?_, ?_,
    ?_, ?_, ?_, ?_⟩
  · rw [hslot_idx, hid]
  · intro i hph
    have hne : i ≠ idx := by
      intro hc
      subst hc
      unfold pair_at at hph
      rw [hfree] at hph
      exact Option.noConfusion hph
    exact hslot_ne i hne
  · intro k'
    constructor
    · rintro ⟨i, hi⟩
      rcases eq_or_ne i idx with rfl | hne
      · unfold key_at at hi
        rw [hslot_idx] at hi
        simp only [Option.map_some', Option.some.injEq] at hi
        exact Or.inr hi.symm
      · unfold key_at at hi
        rw [hslot_ne i hne] at hi
        exact Or.inl ⟨i, hi⟩
    · rintro (⟨i, hi⟩ | rfl)
      · have hne : i ≠ idx := by
          intro hc
          subst hc
          unfold key_at at hi
          rw [hfree] at hi
          exact Option.noConfusion hi
        refine ⟨i, ?_⟩
        unfold key_at
        rw [hslot_ne i hne]
        exact hi
      · refine ⟨idx, ?_⟩
        unfold key_at
        rw [hslot_idx]
        rfl
  · intro j
    rfl
  · intro j
    rfl
  · intro j v q dv hsd
    intro hc
    subst hc
    have hb := hpre.bwd j v q dv hsd (by
      have h1 := hpre.lenX_le
      omega)
    rw [hfree] at hb
    exact Bool.noConfusion hb
  · intro j hne
    exact absurd rfl hne
  · intro i k p d hsd hp
    rcases eq_or_ne i idx with rfl | hne
    · rw [hslot_idx] at hsd
      simp only [Option.some.injEq, Prod.mk.injEq] at hsd
      exact absurd hsd.2.1.symm hp
    · rw [hslot_ne i hne] at hsd
      exact hpre.fwd i k p d hsd hp
  · intro j v q dv hsd hq
    have hb := hpre.bwd j v q dv hsd hq
    have hne : q ≠ idx := by
      intro hc
      subst hc
      rw [hfree] at hb
      exact Bool.noConfusion hb
    rw [hslot_ne q hne]
    exact hb
  · intro j j' v v' q dv dv' h1 h2 hq
    exact hpre.binj j j' v v' q dv dv' h1 h2 hq
  · intro k v
    constructor
    · rintro ⟨i, j, d, dv, h1, h2⟩
      rcases eq_or_ne i idx with rfl | hne
      · rw [hslot_idx] at h1
        simp only [Option.some.injEq, Prod.mk.injEq] at h1
        obtain ⟨_, hj, _⟩ := h1
        subst hj
        rw [slot_data_eq_none_of_ge Y hpre.lenY_le] at h2
        exact Option.noConfusion h2
      · rw [hslot_ne i hne] at h1
        exact ⟨i, j, d, dv, h1, h2⟩
    · rintro ⟨i, j, d, dv, h1, h2⟩
      have hne : i ≠ idx := by
        intro hc
        subst hc
        rw [hfree] at h1
        exact Option.noConfusion h1
      refine ⟨i, j, d, dv, ?_, h2⟩
      rw [hslot_ne i hne]
      exact h1
  · intro i hne hph
    unfold pair_at at hph ⊢
    rw [hslot_ne i hne] at hph
    exact hph
  · intro i hsome
    have hne : i ≠ idx := by
      intro hc
      subst hc
      rw [hfree] at hsome
      exact Bool.noConfusion hsome
    rw [hslot_ne i hne]
    exact hsome
  · refine ⟨fupd f idx (some ideal), ?_, ?_, ?_, ?_⟩
    · rw [hid] at hstale ⊢
      exact hstale
    · rw [fupd_self, hid]
    · intro i hph
      have hne : i ≠ idx := by
        intro hc
        subst hc
        unfold pair_at at hph
        rw [hfree] at hph
        exact Option.noConfusion hph
      exact fupd_ne f hne _
    · intro i hne
      rcases eq_or_ne i idx with rfl | hnei
      · exfalso
        apply hne
        rw [fupd_self]
        unfold ideal_at
        rw [hslot_idx]
        rfl
      · rw [fupd_ne f hnei] at hne
        refine ⟨?_, hnei⟩
        intro hc
        apply hne
        rw [hc]
        unfold ideal_at
        rw [hslot_ne i hnei]

/-- Combining a successful recursive relocation with the surrounding
fix-up steps: overwriting the chain start, re-linking the displaced
occupant's partner, repairing its pair index, and adjusting the two
neighbourhood bits re-establishes the full success postcondition. -/
theorem reloc_post_combine {K V : Type} [DecidableEq K] (W : Nat)
    (hX : K → Nat) {key new_key : K} {X X₂ : List (Bucket K)}
    {Y Y₂ : List (Bucket V)} {f : Nat → Option Nat}
    {index new_value new_ideal ideal nki : Nat}
    {vk : V} {vp vi : Nat} {kk : K} {kp ki : Nat}
    (hpre : OkPre W hX key X Y f)
    (hsd0 : slot_data X index = some (new_key, new_value, new_ideal))
    (hid : ideal = hX key % X.length)
    (hideal : ideal < X.length)
    (hdisp : (X.length + index - ideal) % X.length < W)
    (post₁ : OkPost W hX new_key
      (set_data X index (some (key, usize_max, ideal))) Y f nki X₂ Y₂)
    (hYnv2 : slot_data Y₂ new_value = some (vk, vp, vi))
    (hsd3 : slot_data X₂ nki = some (kk, kp, ki)) :
    OkPost W hX key X Y f index
      (mark_as_full W ideal index (mark_as_full W new_ideal nki
        (mark_as_empty W new_ideal index
          (set_data X₂ nki (some (kk, new_value, ki))))))
      (set_data Y₂ new_value (some (vk, nki, vi))) := by
  have hidxn : index < X.length := lt_length_of_slot_data_eq_some hsd0
  have hn0 : 0 < X.length := by omega
  have hlen1 : (set_data X index (some (key, usize_max, ideal))).length =
      X.length := length_set_data X index _
  have hnideal : new_ideal = hX new_key % X.length :=
    hpre.swf.hash_ok index new_key new_value new_ideal hsd0
  have hnideal_lt : new_ideal < X.length := by
    rw [hnideal]
    exact Nat.mod_lt _ hn0
  have hkne : key ≠ new_key := fun hc =>
    hpre.fresh (hc ▸ keyed_of_slot hsd0)
  have hX1idx : slot_data (set_data X index (some (key, usize_max, ideal)))
      index = some (key, usize_max, ideal) := slot_data_set_data_self hidxn _
  have hX1ne : ∀ x, x ≠ index →
      slot_data (set_data X index (some (key, usize_max, ideal))) x =
        slot_data X x :=
    fun x hx => slot_data_set_data_ne X (fun hc => hx hc.symm) _
  have hph1 : pair_at (set_data X index (some (key, usize_max, ideal)))
      index = some usize_max := by
    unfold pair_at
    rw [hX1idx]
    rfl
  have lenX2 : X₂.length = X.length := post₁.lenX.trans hlen1
  have lenY2 : Y₂.length = Y.length := post₁.lenY
  have hnki_lt : nki < X.length := by
    have := post₁.idx_lt
    rwa [hlen1] at this
  have hX2idx : slot_data X₂ index = some (key, usize_max, ideal) :=
    (post₁.ph_stable index hph1).trans hX1idx
  have hplaced2 : slot_data X₂ nki = some (new_key, usize_max, new_ideal) := by
    have h := post₁.placed
    rw [hlen1, ← hnideal] at h
    exact h
  have hkkeq := hplaced2.symm.trans hsd3
  simp only [Option.some.injEq, Prod.mk.injEq] at hkkeq
  obtain ⟨hk1, hk2, hk3⟩ := hkkeq
  subst hk1
  subst hk2
  subst hk3
  have hnv_lt : new_value < Y.length := by
    have := lt_length_of_slot_data_eq_some hYnv2
    rwa [lenY2] at this
  have hnvMax : new_value ≠ usize_max := by
    have := hpre.lenY_le
    omega
  have hidxMax : index ≠ usize_max := by
    have := hpre.lenX_le
    omega
  have hfidx : f index = some new_ideal := by
    by_cases hc : f index = ideal_at X index
    · rw [hc]
      unfold ideal_at
      rw [hsd0]
      rfl
    · have h := hpre.stale_ph index hc
      unfold pair_at at h
      rw [hsd0] at h
      simp only [Option.map_some', Option.some.injEq] at h
      exact absurd h hnvMax
  obtain ⟨v0, dv0, hYnv⟩ :=
    hpre.fwd index new_key new_value new_ideal hsd0 hnvMax
  have hY2nv_unchanged : slot_data Y₂ new_value = slot_data Y new_value := by
    by_contra hc
    obtain ⟨v1, q1, dv1, q1', k2, d2, k00, p00, d00, hy, _, _, hx1, hp00⟩ :=
      post₁.ychg new_value hc
    have he : v1 = v0 ∧ q1 = index ∧ dv1 = dv0 := by
      have h := hy.symm.trans hYnv
      simp only [Option.some.injEq, Prod.mk.injEq] at h
      exact ⟨h.1, h.2.1, h.2.2⟩
    obtain ⟨rfl, rfl, rfl⟩ := he
    rw [hX1idx] at hx1
    simp only [Option.some.injEq, Prod.mk.injEq] at hx1
    exact hp00 hx1.2.1.symm
  have hYnvO : slot_data Y new_value = some (vk, index, vi) := by
    have h := hYnv2.symm.trans (hY2nv_unchanged.trans hYnv)
    simp only [Option.some.injEq, Prod.mk.injEq] at h
    rw [hYnv, h.1, h.2.2]
  obtain ⟨f₂, hsw₂, hf₂nki0, hf₂ph, hD₂⟩ := post₁.stale
  have hf₂nki : f₂ nki = some new_ideal := by
    rw [hf₂nki0, hlen1, ← hnideal]
  have hf₂idx : f₂ index = some new_ideal :=
    (hf₂ph index hph1).trans hfidx
  have hnki_ne : nki ≠ index := by
    intro hc
    have h := hplaced2
    rw [hc, hX2idx] at h
    simp only [Option.some.injEq, Prod.mk.injEq] at h
    exact hkne h.1
  have hfresh1 : ¬ keyed (set_data X index (some (key, usize_max, ideal)))
      new_key := by
    rintro ⟨i, hi⟩
    rcases eq_or_ne i index with rfl | hne
    · unfold key_at at hi
      rw [hX1idx] at hi
      simp only [Option.map_some', Option.some.injEq] at hi
      exact hkne hi
    · unfold key_at at hi
      rw [hX1ne i hne] at hi
      cases hs2 : slot_data X i with
      | none => rw [hs2] at hi; exact Option.noConfusion hi
      | some t =>
        obtain ⟨k2, p2, d2⟩ := t
        rw [hs2] at hi
        simp only [Option.map_some', Option.some.injEq] at hi
        subst hi
        exact hne (hpre.swf.distinct i index k2 p2 d2 new_value new_ideal
          hs2 hsd0)
  set X₃ := set_data X₂ nki (some (new_key, new_value, new_ideal)) with hX₃def
  have hlen3 : X₃.length = X.length := by
    rw [hX₃def, length_set_data, lenX2]
  have hX3nki : slot_data X₃ nki = some (new_key, new_value, new_ideal) := by
    rw [hX₃def]
    exact slot_data_set_data_self (by rw [lenX2]; exact hnki_lt) _
  have hX3ne : ∀ x, x ≠ nki → slot_data X₃ x = slot_data X₂ x := by
    intro x hx
    rw [hX₃def]
    exact slot_data_set_data_ne X₂ (fun hc => hx hc.symm) _
  have hsw₃ : StaleWf W hX X₃ f₂ := stale_set_pair hsw₂ hplaced2 new_value
  have hX3idx : slot_data X₃ index = some (key, usize_max, ideal) := by
    rw [hX3ne index (fun hc => hnki_ne hc.symm)]
    exact hX2idx
  have hnb3 : nb_at X₃ new_ideal = nb_at X₂ new_ideal := by
    rw [hX₃def, nb_at_set_data]
  have ho' : (X.length + nki - new_ideal) % X.length < W := by
    have h := (hsw₂.stale_disp nki new_ideal hf₂nki).2.2
    rwa [lenX2] at h
  have hbitset : (nb_at X₂ new_ideal).testBit
      ((X.length + nki - new_ideal) % X.length) = true := by
    have hb := hsw₂.bits new_ideal (by rw [lenX2]; exact hnideal_lt)
      ((X.length + nki - new_ideal) % X.length) ho'
    rw [lenX2] at hb
    rw [hb]
    refine ⟨offset_lt hn0, ?_⟩
    rw [offset_cancel hnideal_lt hnki_lt, hf₂nki]
  have hnoop : mark_as_full W new_ideal nki
      (mark_as_empty W new_ideal index X₃) =
      mark_as_empty W new_ideal index X₃ := by
    apply mark_as_full_noop
    have hlenE : (mark_as_empty W new_ideal index X₃).length = X₃.length :=
      length_mark_as_empty W new_ideal index X₃
    rw [hlenE, hlen3]
    rw [nb_at_mark_as_empty_self W (by rw [hlen3]; exact hnideal_lt)]
    rw [hlen3, hnb3, testBit_land_zero_at]
    rw [hbitset]
    have hne' : ¬ ((X.length + index - new_ideal) % X.length =
        (X.length + nki - new_ideal) % X.length) := by
      intro hc
      apply hnki_ne
      have h1 := offset_cancel hnideal_lt hidxn
      have h2 := offset_cancel hnideal_lt hnki_lt
      rw [hc] at h1
      exact h2.symm.trans h1
    simp [ho', hne']
  rw [hnoop]
  obtain ⟨hsw₄, hslots₄, hlen₄, hocc₄⟩ :=
    finish_marks_stale hsw₃ hf₂idx hX3idx (by rw [hlen3]; exact hideal)
      (by rw [hlen3]; exact hdisp)
  set Y₃ := set_data Y₂ new_value (some (vk, nki, vi)) with hY₃def
  have hY3nv : slot_data Y₃ new_value = some (vk, nki, vi) := by
    rw [hY₃def]
    exact slot_data_set_data_self (by rw [lenY2]; exact hnv_lt) _
  have hY3ne : ∀ j, j ≠ new_value → slot_data Y₃ j = slot_data Y₂ j := by
    intro j hj
    rw [hY₃def]
    exact slot_data_set_data_ne Y₂ (fun hc => hj hc.symm) _
  refine ⟨hlen₄.trans hlen3, ?_, hidxn, ?_, ?_, ?_, ?_, ?_, ?_, ?_, ?_, ?_,
    ?_, ?_, ?_, ?_, ?_, ?_⟩
  · rw [hY₃def, length_set_data, lenY2]
  · rw [hslots₄ index, hX3idx, hid]
  · intro i hph
    have hiidx : i ≠ index := by
      intro hc
      subst hc
      unfold pair_at at hph
      rw [hsd0] at hph
      simp only [Option.map_some', Option.some.injEq] at hph
      exact hnvMax hph
    have hph1' : pair_at (set_data X index (some (key, usize_max, ideal))) i =
        some usize_max := by
      unfold pair_at at hph ⊢
      rw [hX1ne i hiidx]
      exact hph
    have h2 := post₁.ph_stable i hph1'
    have hink : i ≠ nki := by
      intro hc
      subst hc
      rw [hplaced2, hX1ne i hiidx] at h2
      exact hiidx (hpre.swf.distinct i index new_key usize_max new_ideal
        new_value new_ideal h2.symm hsd0)
    rw [hslots₄ i, hX3ne i hink, h2, hX1ne i hiidx]
  · intro k'
    have hk43 : keyed (mark_as_full W ideal index
        (mark_as_empty W new_ideal index X₃)) k' ↔ keyed X₃ k' := by
      unfold keyed key_at
      constructor <;> rintro ⟨i, hi⟩ <;> refine ⟨i, ?_⟩
      · rw [hslots₄ i] at hi
        exact hi
      · rw [hslots₄ i]
        exact hi
    have hk32 : keyed X₃ k' ↔ keyed X₂ k' := by
      constructor <;> rintro ⟨i, hi⟩
      · rcases eq_or_ne i nki with rfl | hne
        · unfold key_at at hi
          rw [hX3nki] at hi
          simp only [Option.map_some', Option.some.injEq] at hi
          subst hi
          exact ⟨i, by unfold key_at; rw [hplaced2]; rfl⟩
        · refine ⟨i, ?_⟩
          unfold key_at at hi ⊢
          rw [hX3ne i hne] at hi
          exact hi
      · rcases eq_or_ne i nki with rfl | hne
        · unfold key_at at hi
          rw [hplaced2] at hi
          simp only [Option.map_some', Option.some.injEq] at hi
          subst hi
          exact ⟨i, by unfold key_at; rw [hX3nki]; rfl⟩
        · refine ⟨i, ?_⟩
          unfold key_at at hi ⊢
          rw [hX3ne i hne]
          exact hi
    have hk1 : keyed (set_data X index (some (key, usize_max, ideal))) k' ↔
        ((keyed X k' ∧ k' ≠ new_key) ∨ k' = key) := by
      constructor
      · rintro ⟨i, hi⟩
        rcases eq_or_ne i index with rfl | hne
        · unfold key_at at hi
          rw [hX1idx] at hi
          simp only [Option.map_some', Option.some.injEq] at hi
          exact Or.inr hi.symm
        · unfold key_at at hi
          rw [hX1ne i hne] at hi
          refine Or.inl ⟨⟨i, hi⟩, ?_⟩
          intro hcc
          subst hcc
          cases hs2 : slot_data X i with
          | none => rw [hs2] at hi; exact Option.noConfusion hi
          | some t =>
            obtain ⟨k2, p2, d2⟩ := t
            rw [hs2] at hi
            simp only [Option.map_some', Option.some.injEq] at hi
            subst hi
            exact hne (hpre.swf.distinct i index k2 p2 d2 new_value
              new_ideal hs2 hsd0)
      · rintro (⟨⟨i, hi⟩, hkk⟩ | rfl)
        · have hne : i ≠ index := by
            intro hc
            subst hc
            unfold key_at at hi
            rw [hsd0] at hi
            simp only [Option.map_some', Option.some.injEq] at hi
            exact hkk hi.symm
          refine ⟨i, ?_⟩
          unfold key_at at hi ⊢
          rw [hX1ne i hne]
          exact hi
        · exact ⟨index, by unfold key_at; rw [hX1idx]; rfl⟩
    rw [hk43, hk32, post₁.keyed_iff k', hk1]
    constructor
    · rintro ((⟨hk, _⟩ | rfl) | rfl)
      · exact Or.inl hk
      · exact Or.inr rfl
      · exact Or.inl (keyed_of_slot hsd0)
    · rintro (hk | rfl)
      · by_cases hcc : k' = new_key
        · exact Or.inr hcc
        · exact Or.inl (Or.inl ⟨hk, hcc⟩)
      · exact Or.inl (Or.inr rfl)
  · intro j
    rcases eq_or_ne j new_value with rfl | hne
    · rw [hY3nv, hYnvO]
      rfl
    · rw [hY3ne j hne]
      exact post₁.yproj j
  · intro j
    rw [hY₃def, nb_at_set_data]
    exact post₁.ynb j
  · have h1 : occ_count (set_data X index (some (key, usize_max, ideal))) =
        occ_count X := occ_count_set_data_some_of_some hsd0
    have h3 : occ_count X₃ = occ_count X₂ := by
      rw [hX₃def]
      exact occ_count_set_data_some_of_some hplaced2
    rw [hocc₄, h3, post₁.occX, h1]
  · intro j v q dv hsd
    rcases eq_or_ne j new_value with rfl | hne
    · have h := hY3nv.symm.trans hsd
      simp only [Option.some.injEq, Prod.mk.injEq] at h
      obtain ⟨_, hq, _⟩ := h
      rw [← hq]
      exact hnki_ne
    · rw [hY3ne j hne] at hsd
      by_cases hch : slot_data Y₂ j = slot_data Y j
      · rw [hch] at hsd
        intro hc
        subst hc
        exact hne (hpre.binj j new_value v vk q dv vi hsd hYnvO hidxMax)
      · obtain ⟨v1, q1, dv1, q1', k2, d2, k00, p00, d00, hy, hy', hx', hx1,
          hp00⟩ := post₁.ychg j hch
        have h := hy'.symm.trans hsd
        simp only [Option.some.injEq, Prod.mk.injEq] at h
        obtain ⟨_, hq1, _⟩ := h
        intro hc
        rw [hq1, hc, hX2idx] at hx'
        simp only [Option.some.injEq, Prod.mk.injEq] at hx'
        have hjlen : j < Y.length := by
          have := lt_length_of_slot_data_eq_some hy
          omega
        have := hpre.lenY_le
        omega
  · intro j hne2
    rcases eq_or_ne j new_value with rfl | hne
    · refine ⟨vk, index, vi, nki, new_key, new_ideal, new_key, j,
        new_ideal, hYnvO, hY3nv, ?_, hsd0, hnvMax⟩
      rw [hslots₄ nki, hX3nki]
    · rw [hY3ne j hne] at hne2
      obtain ⟨v1, q1, dv1, q1', k2, d2, k00, p00, d00, hy, hy', hx', hx1,
        hp00⟩ := post₁.ychg j hne2
      have hq0ne : q1 ≠ index := by
        intro hc
        rw [hc, hX1idx] at hx1
        simp only [Option.some.injEq, Prod.mk.injEq] at hx1
        exact hp00 hx1.2.1.symm
      have hjlen : j < Y.length := lt_length_of_slot_data_eq_some hy
      have hjmax : j ≠ usize_max := by
        have := hpre.lenY_le
        omega
      have hq1'ne : q1' ≠ nki := by
        intro hc
        rw [hc, hplaced2] at hx'
        simp only [Option.some.injEq, Prod.mk.injEq] at hx'
        exact hjmax hx'.2.1.symm
      refine ⟨v1, q1, dv1, q1', k2, d2, k00, p00, d00, hy, ?_, ?_, ?_, hp00⟩
      · rw [hY3ne j hne]
        exact hy'
      · rw [hslots₄ q1', hX3ne q1' hq1'ne]
        exact hx'
      · rw [← hX1ne q1 hq0ne]
        exact hx1
  · intro i k p d h1 hp
    rw [hslots₄ i] at h1
    rcases eq_or_ne i nki with rfl | hne
    · rw [hX3nki] at h1
      simp only [Option.some.injEq, Prod.mk.injEq] at h1
      obtain ⟨_, hpv, _⟩ := h1
      rw [← hpv]
      exact ⟨vk, vi, hY3nv⟩
    · rw [hX3ne i hne] at h1
      obtain ⟨v', dv', hY2p⟩ := post₁.fwd i k p d h1 hp
      have hpne : p ≠ new_value := by
        intro hc
        rw [hc, hYnv2] at hY2p
        simp only [Option.some.injEq, Prod.mk.injEq] at hY2p
        have hieq : index = i := by
          have hvp : vp = index := by
            have h := (hY2nv_unchanged.trans hYnvO).symm.trans hYnv2
            simp only [Option.some.injEq, Prod.mk.injEq] at h
            exact h.2.1.symm
          rw [← hvp]
          exact hY2p.2.1
        rw [← hieq, hX2idx] at h1
        simp only [Option.some.injEq, Prod.mk.injEq] at h1
        exact hp h1.2.1.symm
      refine ⟨v', dv', ?_⟩
      rw [hY3ne p hpne]
      exact hY2p
  · intro j v q dv hsd hq
    rcases eq_or_ne j new_value with rfl | hne
    · have h := hY3nv.symm.trans hsd
      simp only [Option.some.injEq, Prod.mk.injEq] at h
      obtain ⟨_, hqe, _⟩ := h
      rw [hslots₄ q, ← hqe, hX3nki]
      rfl
    · rw [hY3ne j hne] at hsd
      have hb := post₁.bwd j v q dv hsd hq
      rw [hslots₄ q]
      rcases eq_or_ne q nki with rfl | hqn
      · rw [hX3nki]
        rfl
      · rw [hX3ne q hqn]
        exact hb
  · intro j j' v v' q dv dv' h1 h2 hq
    rcases eq_or_ne j new_value with rfl | hne1
    · rcases eq_or_ne j' j with rfl | hne2
      · rfl
      · have h := hY3nv.symm.trans h1
        simp only [Option.some.injEq, Prod.mk.injEq] at h
        obtain ⟨_, hqe, _⟩ := h
        rw [hY3ne j' hne2] at h2
        exact absurd hqe.symm (post₁.nopoint j' v' q dv' h2)
    · rcases eq_or_ne j' new_value with rfl | hne2
      · have h := hY3nv.symm.trans h2
        simp only [Option.some.injEq, Prod.mk.injEq] at h
        obtain ⟨_, hqe, _⟩ := h
        rw [hY3ne j hne1] at h1
        exact absurd hqe.symm (post₁.nopoint j v q dv h1)
      · rw [hY3ne j hne1] at h1
        rw [hY3ne j' hne2] at h2
        exact post₁.binj j j' v v' q dv dv' h1 h2 hq
  · intro k w
    have hstepA : AssocP (set_data X index (some (key, usize_max, ideal)))
        Y k w ↔ (AssocP X Y k w ∧ k ≠ new_key) := by
      constructor
      · rintro ⟨i, j, d2, dv2, ha1, ha2⟩
        rcases eq_or_ne i index with rfl | hne
        · rw [hX1idx] at ha1
          simp only [Option.some.injEq, Prod.mk.injEq] at ha1
          obtain ⟨_, hj, _⟩ := ha1
          rw [← hj, slot_data_eq_none_of_ge Y hpre.lenY_le] at ha2
          exact Option.noConfusion ha2
        · rw [hX1ne i hne] at ha1
          refine ⟨⟨i, j, d2, dv2, ha1, ha2⟩, ?_⟩
          intro hcc
          subst hcc
          exact hne (hpre.swf.distinct i index k j d2 new_value new_ideal
            ha1 hsd0)
      · rintro ⟨⟨i, j, d2, dv2, ha1, ha2⟩, hkk⟩
        have hne : i ≠ index := by
          intro hc
          rw [hc, hsd0] at ha1
          simp only [Option.some.injEq, Prod.mk.injEq] at ha1
          exact hkk ha1.1.symm
        refine ⟨i, j, d2, dv2, ?_, ha2⟩
        rw [hX1ne i hne]
        exact ha1
    have hstepD : AssocP X Y new_key w ↔ w = vk := by
      constructor
      · rintro ⟨i, j, d2, dv2, ha1, ha2⟩
        have hie : i = index := hpre.swf.distinct i index new_key j d2
          new_value new_ideal ha1 hsd0
        subst hie
        have h := ha1.symm.trans hsd0
        simp only [Option.some.injEq, Prod.mk.injEq] at h
        obtain ⟨_, hj, _⟩ := h
        rw [hj, hYnvO] at ha2
        simp only [Option.some.injEq, Prod.mk.injEq] at ha2
        exact ha2.1.symm
      · rintro rfl
        exact ⟨index, new_value, new_ideal, vi, hsd0, hYnvO⟩
    have hstepC : AssocP (mark_as_full W ideal index
        (mark_as_empty W new_ideal index X₃)) Y₃ k w ↔
        (AssocP X₂ Y₂ k w ∨ (k = new_key ∧ w = vk)) := by
      constructor
      · rintro ⟨i, j, d2, dv2, ha1, ha2⟩
        rw [hslots₄ i] at ha1
        rcases eq_or_ne i nki with rfl | hne
        · rw [hX3nki] at ha1
          simp only [Option.some.injEq, Prod.mk.injEq] at ha1
          obtain ⟨hk2, hj, _⟩ := ha1
          rw [← hj, hY3nv] at ha2
          simp only [Option.some.injEq, Prod.mk.injEq] at ha2
          exact Or.inr ⟨hk2.symm, ha2.1.symm⟩
        · rw [hX3ne i hne] at ha1
          have hjne : j ≠ new_value := by
            intro hc
            rw [hc, hY3nv] at ha2
            simp only [Option.some.injEq, Prod.mk.injEq] at ha2
            exact hne ha2.2.1.symm
          rw [hY3ne j hjne] at ha2
          exact Or.inl ⟨i, j, d2, dv2, ha1, ha2⟩
      · rintro (⟨i, j, d2, dv2, ha1, ha2⟩ | ⟨rfl, rfl⟩)
        · have hne : i ≠ nki := by
            intro hc
            rw [hc, hplaced2] at ha1
            simp only [Option.some.injEq, Prod.mk.injEq] at ha1
            obtain ⟨_, hj, _⟩ := ha1
            have := lt_length_of_slot_data_eq_some ha2
            rw [← hj] at this
            have := hpre.lenY_le
            omega
          have hjne : j ≠ new_value := by
            intro hc
            rw [hc, hYnv2] at ha2
            simp only [Option.some.injEq, Prod.mk.injEq] at ha2
            have hvp : vp = index := by
              have h := (hY2nv_unchanged.trans hYnvO).symm.trans hYnv2
              simp only [Option.some.injEq, Prod.mk.injEq] at h
              exact h.2.1.symm
            rw [hvp] at ha2
            rw [← ha2.2.1, hX2idx] at ha1
            simp only [Option.some.injEq, Prod.mk.injEq] at ha1
            have hjlen := lt_length_of_slot_data_eq_some hYnv2
            rw [lenY2] at hjlen
            have := hpre.lenY_le
            omega
          refine ⟨i, j, d2, dv2, ?_, ?_⟩
          · rw [hslots₄ i, hX3ne i hne]
            exact ha1
          · rw [hY3ne j hjne]
            exact ha2
        · refine ⟨nki, new_value, new_ideal, vi, ?_, hY3nv⟩
          rw [hslots₄ nki, hX3nki]
    rw [hstepC, post₁.assoc k w, hstepA]
    constructor
    · rintro (⟨hk, _⟩ | ⟨rfl, rfl⟩)
      · exact hk
      · exact hstepD.mpr rfl
    · intro h
      by_cases hcc : k = new_key
      · subst hcc
        exact Or.inr ⟨rfl, hstepD.mp h⟩
      · exact Or.inl ⟨h, hcc⟩
  · intro i hne hph4
    unfold pair_at at hph4
    rw [hslots₄ i] at hph4
    rcases eq_or_ne i nki with rfl | hink
    · rw [hX3nki] at hph4
      simp only [Option.map_some', Option.some.injEq] at hph4
      exact absurd hph4 hnvMax
    · rw [hX3ne i hink] at hph4
      have h := post₁.ph_new i hink hph4
      unfold pair_at at h ⊢
      rw [hX1ne i hne] at h
      exact h
  · intro i hsome
    rw [hslots₄ i]
    rcases eq_or_ne i nki with rfl | hne
    · rw [hX3nki]
      rfl
    · rw [hX3ne i hne]
      apply post₁.occ_mono
      rcases eq_or_ne i index with rfl | hne2
      · rw [hX1idx]
        rfl
      · rw [hX1ne i hne2]
        exact hsome
  · refine ⟨fupd f₂ index (some ideal), hsw₄, ?_, ?_, ?_⟩
    · rw [fupd_self, hid]
    · intro i hph
      have hiidx : i ≠ index := by
        intro hc
        subst hc
        unfold pair_at at hph
        rw [hsd0] at hph
        simp only [Option.map_some', Option.some.injEq] at hph
        exact hnvMax hph
      rw [fupd_ne f₂ hiidx]
      have hph1' : pair_at (set_data X index (some (key, usize_max, ideal)))
          i = some usize_max := by
        unfold pair_at at hph ⊢
        rw [hX1ne i hiidx]
        exact hph
      exact hf₂ph i hph1'
    · intro i hne
      have hid4 : ideal_at (mark_as_full W ideal index
          (mark_as_empty W new_ideal index X₃)) i = ideal_at X₃ i := by
        unfold ideal_at
        rw [hslots₄ i]
      rcases eq_or_ne i index with rfl | hnei
      · exfalso
        apply hne
        rw [fupd_self, hid4]
        unfold ideal_at
        rw [hX3idx]
        rfl
      · rw [fupd_ne f₂ hnei, hid4] at hne
        rcases eq_or_ne i nki with rfl | hink
        · exfalso
          apply hne
          rw [hf₂nki]
          unfold ideal_at
          rw [hX3nki]
          rfl
        · have hne2 : f₂ i ≠ ideal_at X₂ i := by
            rwa [(by unfold ideal_at; rw [hX3ne i hink] :
              ideal_at X₃ i = ideal_at X₂ i)] at hne
          have h := hD₂ i hne2
          refine ⟨?_, hnei⟩
          have hidX : ideal_at (set_data X index
              (some (key, usize_max, ideal))) i = ideal_at X i := by
            unfold ideal_at
            rw [hX1ne i hnei]
          rw [hidX] at h
          exact h.1

/-- Main success specification of `insert_one_sided`, by induction on the
relocation fuel. -/
theorem insert_one_sided_ok_spec {K V : Type} [DecidableEq K] (W : Nat)
    (hX : K → Nat) :
    ∀ (fuel : Nat) (key : K) (X : List (Bucket K)) (Y : List (Bucket V))
      (f : Nat → Option Nat) (idx : Nat) (X' : List (Bucket K))
      (Y' : List (Bucket V)),
      OkPre W hX key X Y f →
      insert_one_sided W fuel key X Y hX = some (.ok idx, X', Y') →
      OkPost W hX key X Y f idx X' Y' := by
  intro fuel
  induction fuel with
  | zero =>
    intro key X Y f idx X' Y' hpre hres
    exact Option.noConfusion hres
  | succ fuel IH =>
    intro key X Y f idx X' Y' hpre hres
    rw [insert_one_sided] at hres
    cases hfi : find_ideal_index hX X.length key with
    | none =>
      simp only [hfi] at hres
      exact Option.noConfusion hres
    | some ideal =>
      simp only [hfi] at hres
      obtain ⟨hn0, hid⟩ := find_ideal_index_some hfi
      have hideal : ideal < X.length := by
        rw [hid]
        exact Nat.mod_lt _ hn0
      by_cases hfull : bitfield_full W (nb_at X ideal) = true
      · rw [if_pos hfull] at hres
        simp only [Option.some.injEq, Prod.mk.injEq] at hres
        exact absurd hres.1 (by intro hc; exact Except.noConfusion hc)
      · rw [if_neg hfull] at hres
        cases hfind : (List.range X.length).find? (fun offset =>
            !(occupied X ((ideal + offset) % X.length))) with
        | none =>
          simp only [hfind, Option.some.injEq, Prod.mk.injEq] at hres
          exact absurd hres.1 (by intro hc; exact Except.noConfusion hc)
        | some offset =>
          simp only [hfind] at hres
          have hoffn : offset < X.length :=
            List.mem_range.mp (List.mem_of_find?_eq_some hfind)
          by_cases hoff : offset < W
          · rw [if_pos hoff] at hres
            simp only [Option.some.injEq, Prod.mk.injEq] at hres
            obtain ⟨h1, h2, h3⟩ := hres
            have hie : (offset + ideal) % X.length = idx := Except.ok.inj h1
            have hfree : slot_data X ((ideal + offset) % X.length) = none := by
              have hp := List.find?_some hfind
              rw [Bool.not_eq_true'] at hp
              unfold occupied at hp
              cases hslot2 : slot_data X ((ideal + offset) % X.length) with
              | none => rfl
              | some t => rw [hslot2] at hp; exact Bool.noConfusion hp
            have hfree2 : slot_data X idx = none := by
              rw [← hie, Nat.add_comm offset ideal]
              exact hfree
            subst h2
            subst h3
            rw [hie]
            exact direct_post W hX hpre hid hideal hoff hoffn hie.symm hfree2
          · rw [if_neg hoff] at hres
            cases hcand : candidate_scan X ideal ((ideal + W) % X.length)
                X.length ((List.range W).drop 1) with
            | none =>
              simp only [hcand] at hres
              exact Option.noConfusion hres
            | some o =>
              simp only [hcand] at hres
              cases o with
              | none =>
                simp only [Option.some.injEq, Prod.mk.injEq] at hres
                exact absurd hres.1 (by intro hc; exact Except.noConfusion hc)
              | some index =>
                cases hslot : slot_data X index with
                | none =>
                  simp only [hslot] at hres
                  exact Option.noConfusion hres
                | some t =>
                  obtain ⟨new_key, new_value, new_ideal⟩ := t
                  simp only [hslot] at hres
                  have hkne : key ≠ new_key := fun hc =>
                    hpre.fresh (hc ▸ keyed_of_slot hslot)
                  have hidxn : index < X.length :=
                    candidate_scan_lt hn0 _ index hcand
                  have hX1idx : slot_data
                      (set_data X index (some (key, usize_max, ideal)))
                      index = some (key, usize_max, ideal) :=
                    slot_data_set_data_self hidxn _
                  have hX1ne : ∀ x, x ≠ index →
                      slot_data (set_data X index
                        (some (key, usize_max, ideal))) x = slot_data X x :=
                    fun x hx =>
                      slot_data_set_data_ne X (fun hc => hx hc.symm) _
                  have hfresh1 : ¬ keyed
                      (set_data X index (some (key, usize_max, ideal)))
                      new_key := by
                    rintro ⟨i, hi⟩
                    rcases eq_or_ne i index with rfl | hne
                    · unfold key_at at hi
                      rw [hX1idx] at hi
                      simp only [Option.map_some', Option.some.injEq] at hi
                      exact hkne hi
                    · unfold key_at at hi
                      rw [hX1ne i hne] at hi
                      cases hs2 : slot_data X i with
                      | none => rw [hs2] at hi; exact Option.noConfusion hi
                      | some t2 =>
                        obtain ⟨k2, p2, d2⟩ := t2
                        rw [hs2] at hi
                        simp only [Option.map_some', Option.some.injEq] at hi
                        subst hi
                        exact hne (hpre.swf.distinct i index k2 p2 d2
                          new_value new_ideal hs2 hslot)
                  have hpre1 : OkPre W hX new_key
                      (set_data X index (some (key, usize_max, ideal))) Y
                      f := by
                    refine ⟨stale_overwrite_start hpre.swf hslot hpre.fresh
                      hid, hfresh1, ?_, ?_, hpre.binj, ?_, ?_, hpre.lenY_le⟩
                    · intro i k p d hsd hp
                      rcases eq_or_ne i index with rfl | hne
                      · rw [hX1idx] at hsd
                        simp only [Option.some.injEq, Prod.mk.injEq] at hsd
                        exact absurd hsd.2.1.symm hp
                      · rw [hX1ne i hne] at hsd
                        exact hpre.fwd i k p d hsd hp
                    · intro j v q dv hsd hq
                      have hb := hpre.bwd j v q dv hsd hq
                      rcases eq_or_ne q index with rfl | hne
                      · rw [hX1idx]
                        rfl
                      · rw [hX1ne q hne]
                        exact hb
                    · intro i hne
                      rcases eq_or_ne i index with rfl | hnei
                      · unfold pair_at
                        rw [hX1idx]
                        rfl
                      · have h2 : ideal_at (set_data X index
                            (some (key, usize_max, ideal))) i =
                            ideal_at X i := by
                          unfold ideal_at
                          rw [hX1ne i hnei]
                        rw [h2] at hne
                        have h3 := hpre.stale_ph i hne
                        unfold pair_at at h3 ⊢
                        rw [hX1ne i hnei]
                        exact h3
                    · rw [length_set_data]
                      exact hpre.lenX_le
                  cases hrec : insert_one_sided W fuel new_key
                      (set_data X index (some (key, usize_max, ideal))) Y
                      hX with
                  | none =>
                    simp only [hrec] at hres
                    exact Option.noConfusion hres
                  | some r =>
                    obtain ⟨res, X2, Y2⟩ := r
                    simp only [hrec] at hres
                    cases res with
                    | error e =>
                      cases hs2 : slot_data X2 index with
                      | none =>
                        simp only [hs2] at hres
                        exact Option.noConfusion hres
                      | some w =>
                        obtain ⟨k2, p2, d2⟩ := w
                        simp only [hs2, Option.some.injEq,
                          Prod.mk.injEq] at hres
                        exact absurd hres.1
                          (by intro hc; exact Except.noConfusion hc)
                    | ok nki =>
                      have post₁ := IH new_key
                        (set_data X index (some (key, usize_max, ideal))) Y
                        f nki X2 Y2 hpre1 hrec
                      cases hv : Y2[new_value]? with
                      | none =>
                        simp only [hv] at hres
                        exact Option.noConfusion hres
                      | some vb =>
                        simp only [hv] at hres
                        cases hvd : vb.data with
                        | none =>
                          simp only [hvd] at hres
                          exact Option.noConfusion hres
                        | some u =>
                          obtain ⟨vk, vq, vi⟩ := u
                          simp only [hvd] at hres
                          cases hs2 : slot_data X2 nki with
                          | none =>
                            simp only [hs2] at hres
                            exact Option.noConfusion hres
                          | some w =>
                            obtain ⟨kk, kq, ki⟩ := w
                            simp only [hs2, Option.some.injEq,
                              Prod.mk.injEq] at hres
                            obtain ⟨h1, h2, h3⟩ := hres
                            have hie : index = idx := Except.ok.inj h1
                            have hYnv2 : slot_data Y2 new_value =
                                some (vk, vq, vi) := by
                              unfold slot_data
                              rw [hv]
                              exact hvd
                            have hdisp : (X.length + index - ideal) %
                                X.length < W := by
                              obtain ⟨i0, hmem, hposeq, _⟩ :=
                                candidate_scan_mem _ index hcand
                              obtain ⟨hi01, hi0W⟩ := mem_range_drop_one hmem
                              have hWn : W < X.length := by omega
                              rw [hposeq,
                                reloc_disp hWn hideal hi01 hi0W]
                              omega
                            subst h2
                            subst h3
                            rw [← hie]
                            exact reloc_post_combine W hX hpre hslot hid
                              hideal hdisp post₁ hYnv2 hs2

/-! ## Removal of a single slot -/

/-- Clearing a slot's neighbourhood bit and then its data preserves
one-sided well-formedness, and the effect on slots, neighbourhoods,
occupancy and keys is as expected. -/
theorem remove_slot_side {W : Nat} {K : Type} {h : K → Nat}
    {A : List (Bucket K)} (hw : WfSide W h A) {s : Nat} {k : K} {p d : Nat}
    (hs : slot_data A s = some (k, p, d)) {A' : List (Bucket K)}
    (hA' : A' = set_data (set_nb A d
      (nb_at A d &&& zero_at W ((A.length + s - d) % A.length))) s none) :
    WfSide W h A' ∧
    A'.length = A.length ∧
    (∀ i, slot_data A' i = if i = s then none else slot_data A i) ∧
    (∀ x, x ≠ d → nb_at A' x = nb_at A x) ∧
    nb_at A' d = (nb_at A d &&&
      zero_at W ((A.length + s - d) % A.length)) ∧
    occ_count A' = occ_count A - 1 ∧
    (∀ k', keyed A' k' ↔ (keyed A k' ∧ k' ≠ k)) := by
  have hsn : s < A.length := lt_length_of_slot_data_eq_some hs
  have hn0 : 0 < A.length := by omega
  have hd : d < A.length := hw.ideal_lt hs
  have ho₀W : (A.length + s - d) % A.length < W := hw.disp_lt hs
  have ho₀n : (A.length + s - d) % A.length < A.length := offset_lt hn0
  have hc0 : (d + (A.length + s - d) % A.length) % A.length = s :=
    offset_cancel hd hsn
  have hlen' : A'.length = A.length := by
    rw [hA', length_set_data, length_set_nb]
  have hslots : ∀ i, slot_data A' i =
      if i = s then none else slot_data A i := by
    intro i
    rcases eq_or_ne i s with rfl | hne
    · rw [if_pos rfl, hA']
      exact slot_data_set_data_self (by rw [length_set_nb]; exact hsn) _
    · rw [if_neg hne, hA',
        slot_data_set_data_ne _ (fun hc => hne hc.symm), slot_data_set_nb]
  have hnb_ne : ∀ x, x ≠ d → nb_at A' x = nb_at A x := by
    intro x hx
    rw [hA', nb_at_set_data, nb_at_set_nb_ne A (fun hc => hx hc.symm)]
  have hnb_d : nb_at A' d = (nb_at A d &&&
      zero_at W ((A.length + s - d) % A.length)) := by
    rw [hA', nb_at_set_data, nb_at_set_nb_self hd]
  have hocc : occ_count A' = occ_count A - 1 := by
    have h1 := occ_count_set_data (set_nb A d (nb_at A d &&&
      zero_at W ((A.length + s - d) % A.length))) (i := s)
      (by rw [length_set_nb]; exact hsn) none
    rw [slot_data_set_nb, hs, occ_count_set_nb] at h1
    have h2 : occ_count (set_data (set_nb A d (nb_at A d &&&
        zero_at W ((A.length + s - d) % A.length))) s none) + 1 =
        occ_count A := by simpa using h1
    rw [hA']
    omega
  have htb : ∀ dd j, j < W → (nb_at A' dd).testBit j =
      (if dd = d ∧ j = (A.length + s - d) % A.length then false
       else (nb_at A dd).testBit j) := by
    intro dd j hj
    rcases eq_or_ne dd d with rfl | hne
    · rw [hnb_d, testBit_land_zero_at]
      rcases eq_or_ne j ((A.length + s - dd) % A.length) with rfl | hjo
      · rw [if_pos ⟨rfl, rfl⟩]
        simp
      · rw [if_neg (fun hc => hjo hc.2)]
        have h1 : (!decide ((A.length + s - dd) % A.length = j)) = true := by
          simp only [Bool.not_eq_true', decide_eq_false_iff_not]
          exact fun hc => hjo hc.symm
        rw [h1]
        simp [hj]
    · rw [hnb_ne dd hne, if_neg (fun hc => hne hc.1)]
  refine ⟨⟨?_, ?_, ?_, ?_, ?_⟩, hlen', hslots, hnb_ne, hnb_d, hocc, ?_⟩
  · intro i hi
    rw [hlen'] at hi
    unfold ideal_at hkey_at
    rw [hslots i, hlen']
    rcases eq_or_ne i s with rfl | hne
    · rw [if_pos rfl]
      rfl
    · rw [if_neg hne]
      have h1 := hw.1 i hi
      unfold ideal_at hkey_at at h1
      exact h1
  · intro i hi dd hdd hid
    rw [hlen'] at hi hdd ⊢
    unfold ideal_at at hid
    rw [hslots i] at hid
    rcases eq_or_ne i s with rfl | hne
    · rw [if_pos rfl] at hid
      exact Option.noConfusion hid
    · rw [if_neg hne] at hid
      exact hw.2.1 i hi dd hdd hid
  · intro i hi
    rw [hlen'] at hi
    rcases eq_or_ne i d with rfl | hne
    · rw [hnb_d]
      exact Nat.lt_of_le_of_lt Nat.and_le_left (hw.nb_lt hd)
    · rw [hnb_ne i hne]
      exact hw.nb_lt hi
  · intro dd hdd j hj
    rw [hlen'] at hdd ⊢
    rw [htb dd j hj]
    have hid' : ∀ x, ideal_at A' x =
        if x = s then none else ideal_at A x := by
      intro x
      unfold ideal_at
      rw [hslots x]
      rcases eq_or_ne x s with rfl | hne
      · rw [if_pos rfl, if_pos rfl]
        rfl
      · rw [if_neg hne, if_neg hne]
    rcases eq_or_ne dd d with rfl | hne
    · rcases eq_or_ne j ((A.length + s - dd) % A.length) with rfl | hjo
      · rw [if_pos ⟨rfl, rfl⟩, hid']
        rw [hc0, if_pos rfl]
        constructor
        · intro hc
          exact Bool.noConfusion hc
        · rintro ⟨_, hc⟩
          exact Option.noConfusion hc
      · rw [if_neg (fun hc => hjo hc.2), hid']
        rcases lt_or_ge j A.length with hjn | hjn
        · rcases eq_or_ne ((dd + j) % A.length) s with he | hne2
          · exact absurd (add_mod_inj hdd hjn ho₀n (by rw [he, hc0])) hjo
          · rw [if_neg hne2]
            exact hw.bit_iff hdd hj
        · constructor
          · intro hset
            have := (hw.bit_iff hdd hj).mp hset
            omega
          · rintro ⟨hj2, _⟩
            omega
    · rw [if_neg (fun hc => hne hc.1), hid']
      rcases eq_or_ne ((dd + j) % A.length) s with he | hne2
      · rw [if_pos he]
        have hbits := hw.bit_iff hdd hj
        rw [he] at hbits
        constructor
        · intro hset
          obtain ⟨_, hc⟩ := hbits.mp hset
          unfold ideal_at at hc
          rw [hs] at hc
          simp only [Option.map_some', Option.some.injEq] at hc
          exact absurd hc.symm hne
        · rintro ⟨_, hc⟩
          exact Option.noConfusion hc
      · rw [if_neg hne2]
        exact hw.bit_iff hdd hj
  · intro i hi i' hi' hk hsome
    rw [hlen'] at hi hi'
    unfold key_at at hk hsome
    rw [hslots i] at hk hsome
    rw [hslots i'] at hk
    rcases eq_or_ne i s with rfl | hne
    · rw [if_pos rfl] at hsome
      exact absurd hsome (by simp)
    · rw [if_neg hne] at hk hsome
      rcases eq_or_ne i' s with rfl | hne'
      · rw [if_pos rfl] at hk
        cases hsd : slot_data A i with
        | none => rw [hsd] at hsome; exact absurd hsome (by simp)
        | some t =>
          rw [hsd] at hk
          exact absurd hk (by simp)
      · rw [if_neg hne'] at hk
        exact hw.2.2.2.2 i hi i' hi' hk hsome
  · intro k'
    constructor
    · rintro ⟨i, hi⟩
      unfold key_at at hi
      rw [hslots i] at hi
      rcases eq_or_ne i s with rfl | hne
      · rw [if_pos rfl] at hi
        exact Option.noConfusion hi
      · rw [if_neg hne] at hi
        refine ⟨⟨i, hi⟩, ?_⟩
        rintro rfl
        cases hsd : slot_data A i with
        | none => rw [hsd] at hi; exact Option.noConfusion hi
        | some t =>
          obtain ⟨k2, p2, d2⟩ := t
          rw [hsd] at hi
          simp only [Option.map_some', Option.some.injEq] at hi
          subst hi
          exact hne (hw.key_unique hsd hs)
    · rintro ⟨⟨i, hi⟩, hkk⟩
      have hne : i ≠ s := by
        rintro rfl
        unfold key_at at hi
        rw [hs] at hi
        simp only [Option.map_some', Option.some.injEq] at hi
        exact hkk hi.symm
      refine ⟨i, ?_⟩
      unfold key_at
      rw [hslots i, if_neg hne]
      exact hi

/-- Removing an absent key is a no-op (find over the neighbourhood bit
offsets misses every slot). -/
theorem bimap_remove_miss {K V : Type} [DecidableEq K] [DecidableEq V]
    (W : Nat) (hK : K → Nat) (hV : V → Nat) {key : K}
    {X : List (Bucket K)} (Y : List (Bucket V)) (len : Nat)
    (hn0 : 0 < X.length) (hfresh : ¬ keyed X key) :
    bimap_remove W hK hV key X Y len = some (none, X, Y, len) := by
  unfold bimap_remove
  have hfi : find_ideal_index hK X.length key =
      some (hK key % X.length) := by
    unfold find_ideal_index
    rw [if_neg (by omega)]
  simp only [hfi]
  have hfnone : (bit_indices W (nb_at X (hK key % X.length))).find?
      (fun offset =>
        match slot_data X ((hK key % X.length + offset) % X.length) with
        | some (candidate_key, _, _) => decide (candidate_key = key)
        | none => false) = none := by
    rw [List.find?_eq_none]
    intro o _
    cases hsd : slot_data X ((hK key % X.length + o) % X.length) with
    | none => simp
    | some t =>
      obtain ⟨ck, cp, cd⟩ := t
      simp only [decide_eq_true_eq]
      rintro rfl
      exact hfresh (keyed_of_slot hsd)
  simp only [hfnone]

/-- Removing a present key: the key's slot and its partner's slot are
cleared (with their neighbourhood bits), the removed pair is returned, and
all invariants survive with the pair count decremented. -/
theorem bimap_remove_hit {K V : Type} [DecidableEq K] [DecidableEq V]
    (W : Nat) (hK : K → Nat) (hV : V → Nat) {key : K}
    {X : List (Bucket K)} {Y : List (Bucket V)} (len : Nat)
    (hlen : X.length = Y.length)
    (hwX : WfSide W hK X) (hwY : WfSide W hV Y)
    (hcX : ∀ i, i < X.length → cross_ok X Y i = true)
    (hcY : ∀ j, j < Y.length → cross_ok Y X j = true)
    (hoccX : occ_count X = len) (hoccY : occ_count Y = len)
    {s : Nat} {p d : Nat}
    (hs : slot_data X s = some (key, p, d)) :
    ∃ v dv X' Y',
      slot_data Y p = some (v, s, dv) ∧
      bimap_remove W hK hV key X Y len =
        some (some (key, v), X', Y', len - 1) ∧
      X'.length = X.length ∧ Y'.length = Y.length ∧
      (∀ i, slot_data X' i = if i = s then none else slot_data X i) ∧
      (∀ j, slot_data Y' j = if j = p then none else slot_data Y j) ∧
      WfSide W hK X' ∧ WfSide W hV Y' ∧
      (∀ i, cross_ok X' Y' i = true) ∧
      (∀ j, cross_ok Y' X' j = true) ∧
      occ_count X' = len - 1 ∧ occ_count Y' = len - 1 ∧
      (∀ k', keyed X' k' ↔ (keyed X k' ∧ k' ≠ key)) ∧
      (∀ w', keyed Y' w' ↔ (keyed Y w' ∧ w' ≠ v)) ∧
      (∀ k' w', AssocP X' Y' k' w' ↔
        (AssocP X Y k' w' ∧ k' ≠ key ∧ w' ≠ v)) := by
  have hsn : s < X.length := lt_length_of_slot_data_eq_some hs
  have hn0 : 0 < X.length := by omega
  have hd : d < X.length := hwX.ideal_lt hs
  have hdix : d = hK key % X.length := hwX.hash_eq hs
  have ho₀W : (X.length + s - d) % X.length < W := hwX.disp_lt hs
  have ho₀n : (X.length + s - d) % X.length < X.length := offset_lt hn0
  have hc0 : (d + (X.length + s - d) % X.length) % X.length = s :=
    offset_cancel hd hsn
  obtain ⟨v, dv, hYp⟩ := cross_ok_iff.mp (hcX s hsn) key p d hs
  have hpn : p < Y.length := lt_length_of_slot_data_eq_some hYp
  have hdv : dv = hV v % X.length := by
    rw [hwY.hash_eq hYp, hlen]
  have hdvn : dv < Y.length := hwY.ideal_lt hYp
  have hlen0 : len ≠ 0 := by
    have hget : (X.get ⟨s, hsn⟩).data = slot_data X s := by
      unfold slot_data
      rw [List.getElem?_eq_getElem hsn]
      rfl
    have hdec := occ_count_decompose X hsn
    rw [hget, hs] at hdec
    simp only [Option.isSome_some, if_true] at hdec
    omega
  -- the find over the bit offsets returns the canonical offset of `s`
  have hbit : (nb_at X d).testBit ((X.length + s - d) % X.length) = true :=
    hwX.bit_of_slot hs
  have hmem : (X.length + s - d) % X.length ∈ bit_indices W (nb_at X d) :=
    (mem_bit_indices (hwX.nb_lt hd) _).mpr hbit
  have hpred : ∀ o, (match slot_data X ((d + o) % X.length) with
        | some (candidate_key, _, _) => decide (candidate_key = key)
        | none => false) = true → o ∈ bit_indices W (nb_at X d) →
        o = (X.length + s - d) % X.length := by
    intro o hp hom
    have hoW : o < W := by
      by_contra hc
      have := testBit_ge_false (hwX.nb_lt hd) (by omega : W ≤ o)
      rw [(mem_bit_indices (hwX.nb_lt hd) o).mp hom] at this
      exact Bool.noConfusion this
    have hon : o < X.length := by
      have hb := (hwX.bit_iff hd hoW).mp
        ((mem_bit_indices (hwX.nb_lt hd) o).mp hom)
      exact hb.1
    cases hsdo : slot_data X ((d + o) % X.length) with
    | none => rw [hsdo] at hp; exact Bool.noConfusion hp
    | some t =>
      obtain ⟨ck, cp, cd⟩ := t
      rw [hsdo] at hp
      simp only [decide_eq_true_eq] at hp
      subst hp
      have hes : (d + o) % X.length = s := hwX.key_unique hsdo hs
      exact add_mod_inj hd hon ho₀n (by rw [hes, hc0])
  have hfind : (bit_indices W (nb_at X d)).find? (fun offset =>
      match slot_data X ((d + offset) % X.length) with
      | some (candidate_key, _, _) => decide (candidate_key = key)
      | none => false) = some ((X.length + s - d) % X.length) := by
    cases hf : (bit_indices W (nb_at X d)).find? (fun offset =>
        match slot_data X ((d + offset) % X.length) with
        | some (candidate_key, _, _) => decide (candidate_key = key)
        | none => false) with
    | none =>
      exfalso
      have := List.find?_eq_none.mp hf _ hmem
      apply this
      rw [hc0, hs]
      simp
    | some o =>
      have hp := List.find?_some hf
      have hom := List.mem_of_find?_eq_some hf
      rw [hpred o hp hom]
  obtain ⟨hwX', hlenX', hslotsX', hnbneX', hnbdX', hoccX', hkeyedX'⟩ :=
    remove_slot_side hwX hs rfl
  obtain ⟨hwY', hlenY', hslotsY', hnbneY', hnbdY', hoccY', hkeyedY'⟩ :=
    remove_slot_side hwY hYp rfl
  refine ⟨v, dv,
    set_data (set_nb X d (nb_at X d &&&
      zero_at W ((X.length + s - d) % X.length))) s none,
    set_data (set_nb Y dv (nb_at Y dv &&&
      zero_at W ((Y.length + p - dv) % Y.length))) p none,
    hYp, ?_, hlenX', hlenY', hslotsX', hslotsY', hwX', hwY', ?_, ?_,
    (by rw [hoccX', hoccX]), (by rw [hoccY', hoccY]), hkeyedX', hkeyedY',
    ?_⟩
  · -- the computation of `bimap_remove` itself
    unfold bimap_remove
    have hfi2 : find_ideal_index hK X.length key = some d := by
      unfold find_ideal_index
      rw [if_neg (by omega), ← hdix]
    simp only [hfi2, hfind, hc0]
    have hslot2 : slot_data (set_nb X d (nb_at X d &&&
        zero_at W ((X.length + s - d) % X.length))) s = some (key, p, d) := by
      rw [slot_data_set_nb]
      exact hs
    simp only [hslot2]
    have hYb : ∃ vb, Y[p]? = some vb ∧ vb.data = some (v, s, dv) := by
      unfold slot_data at hYp
      cases hyy : Y[p]? with
      | none => rw [hyy] at hYp; exact Option.noConfusion hYp
      | some vb => rw [hyy] at hYp; exact ⟨vb, rfl, hYp⟩
    obtain ⟨vb, hYb1, hYb2⟩ := hYb
    simp only [hYb1, hYb2]
    have hfiv2 : find_ideal_index hV X.length v = some dv := by
      unfold find_ideal_index
      rw [if_neg (by omega), ← hdv]
    simp only [hfiv2]
    rw [if_neg hlen0]
    have hYeq : set_nb (set_data Y p none) dv
        (nb_at (set_data Y p none) dv &&& zero_at W
          ((p + X.length - dv) % X.length)) =
        set_data (set_nb Y dv (nb_at Y dv &&&
          zero_at W ((Y.length + p - dv) % Y.length))) p none := by
      rw [nb_at_set_data, set_nb_set_data_comm, hlen, Nat.add_comm p Y.length]
    rw [hYeq]
  · intro i
    rw [cross_ok_iff]
    intro k1 p1 d1 h1
    rw [hslotsX' i] at h1
    rcases eq_or_ne i s with rfl | hne
    · rw [if_pos rfl] at h1
      exact Option.noConfusion h1
    · rw [if_neg hne] at h1
      obtain ⟨v1, dv1, h2⟩ := cross_ok_iff.mp
        (hcX i (lt_length_of_slot_data_eq_some h1)) k1 p1 d1 h1
      have hp1 : p1 ≠ p := by
        rintro rfl
        rw [hYp] at h2
        simp only [Option.some.injEq, Prod.mk.injEq] at h2
        exact hne h2.2.1.symm
      refine ⟨v1, dv1, ?_⟩
      rw [hslotsY' p1, if_neg hp1]
      exact h2
  · intro j
    rw [cross_ok_iff]
    intro v1 q1 dv1 h1
    rw [hslotsY' j] at h1
    rcases eq_or_ne j p with rfl | hnej
    · rw [if_pos rfl] at h1
      exact Option.noConfusion h1
    · rw [if_neg hnej] at h1
      obtain ⟨k1, d1, h2⟩ := cross_ok_iff.mp
        (hcY j (lt_length_of_slot_data_eq_some h1)) v1 q1 dv1 h1
      have hq1 : q1 ≠ s := by
        rintro rfl
        rw [hs] at h2
        simp only [Option.some.injEq, Prod.mk.injEq] at h2
        exact hnej h2.2.1.symm
      refine ⟨k1, d1, ?_⟩
      rw [hslotsX' q1, if_neg hq1]
      exact h2
  · intro k' w'
    constructor
    · rintro ⟨i, j, d1, dv1, h1, h2⟩
      rw [hslotsX' i] at h1
      rw [hslotsY' j] at h2
      rcases eq_or_ne i s with rfl | hne
      · rw [if_pos rfl] at h1
        exact Option.noConfusion h1
      · rw [if_neg hne] at h1
        rcases eq_or_ne j p with rfl | hnej
        · rw [if_pos rfl] at h2
          exact Option.noConfusion h2
        · rw [if_neg hnej] at h2
          refine ⟨⟨i, j, d1, dv1, h1, h2⟩, ?_, ?_⟩
          · rintro rfl
            exact hne (hwX.key_unique h1 hs)
          · rintro rfl
            exact hnej (hwY.key_unique h2 hYp)
    · rintro ⟨⟨i, j, d1, dv1, h1, h2⟩, hk, hw2⟩
      have hne : i ≠ s := by
        rintro rfl
        rw [hs] at h1
        simp only [Option.some.injEq, Prod.mk.injEq] at h1
        exact hk h1.1.symm
      have hnej : j ≠ p := by
        rintro rfl
        rw [hYp] at h2
        simp only [Option.some.injEq, Prod.mk.injEq] at h2
        exact hw2 h2.1.symm
      refine ⟨i, j, d1, dv1, ?_, ?_⟩
      · rw [hslotsX' i, if_neg hne]
        exact h1
      · rw [hslotsY' j, if_neg hnej]
        exact h2

/-! ## `get` hit and miss -/

theorem get_scan_miss {K V : Type} [DecidableEq K] {key : K}
    {X : List (Bucket K)} (Y : List (Bucket V)) (ideal len : Nat)
    (hfresh : ¬ keyed X key) :
    ∀ l : List Nat, get_scan key X Y ideal len l = some none := by
  intro l
  induction l with
  | nil => rfl
  | cons o rest ih =>
    rw [get_scan]
    cases hsd : slot_data X ((ideal + o) % len) with
    | none => exact ih
    | some t =>
      obtain ⟨k2, p2, d2⟩ := t
      have hkne : ¬ (k2 = key) := fun hc => hfresh (hc ▸ keyed_of_slot hsd)
      simp only [if_neg hkne]
      exact ih

/-- `get` on an absent key reports `none` (no panic) whenever the table is
non-empty. -/
theorem bimap_get_miss {K V : Type} [DecidableEq K] (W : Nat) (h : K → Nat)
    {key : K} {X : List (Bucket K)} (Y : List (Bucket V))
    (hn0 : 0 < X.length) (hfresh : ¬ keyed X key) :
    bimap_get W h key X Y = some none := by
  unfold bimap_get
  have hfi : find_ideal_index h X.length key = some (h key % X.length) := by
    unfold find_ideal_index
    rw [if_neg (by omega)]
  simp only [hfi]
  exact get_scan_miss Y _ _ hfresh _

theorem get_scan_hit {K V : Type} [DecidableEq K] {W : Nat} {hK : K → Nat}
    {key : K} {X : List (Bucket K)} {Y : List (Bucket V)}
    (hwX : WfSide W hK X) {i j d dv : Nat} {q : Nat} {v : V}
    (h1 : slot_data X i = some (key, j, d))
    (h2 : slot_data Y j = some (v, q, dv)) :
    ∀ l : List Nat, (X.length + i - d) % X.length ∈ l →
      (∀ o ∈ l, (nb_at X d).testBit o = true) →
      get_scan key X Y d X.length l = some (some v) := by
  have hin : i < X.length := lt_length_of_slot_data_eq_some h1
  have hn0 : 0 < X.length := by omega
  have hd : d < X.length := hwX.ideal_lt h1
  have hc0 : (d + (X.length + i - d) % X.length) % X.length = i :=
    offset_cancel hd hin
  intro l
  induction l with
  | nil =>
    intro hmem _
    exact absurd hmem (List.not_mem_nil _)
  | cons o rest ih =>
    intro hmem hbits
    rw [get_scan]
    rcases eq_or_ne o ((X.length + i - d) % X.length) with rfl | hne
    · rw [hc0]
      have hYb : ∃ vb, Y[j]? = some vb ∧ vb.data = some (v, q, dv) := by
        unfold slot_data at h2
        cases hyy : Y[j]? with
        | none => rw [hyy] at h2; exact Option.noConfusion h2
        | some vb => rw [hyy] at h2; exact ⟨vb, rfl, h2⟩
      obtain ⟨vb, hYb1, hYb2⟩ := hYb
      simp only [h1, if_pos rfl, if_true, hYb1, hYb2]
    · have hrec : get_scan key X Y d X.length rest = some (some v) := by
        apply ih
        · rcases List.mem_cons.mp hmem with he | hm
          · exact absurd he.symm hne
          · exact hm
        · intro o2 ho2
          exact hbits o2 (List.mem_cons_of_mem o ho2)
      have hbo := hbits o (List.mem_cons_self o rest)
      have hoW : o < W := by
        by_contra hc
        have := testBit_ge_false (hwX.nb_lt hd) (by omega : W ≤ o)
        rw [hbo] at this
        exact Bool.noConfusion this
      have hon : o < X.length := ((hwX.bit_iff hd hoW).mp hbo).1
      cases hsd : slot_data X ((d + o) % X.length) with
      | none => exact hrec
      | some t =>
        obtain ⟨k2, p2, d2⟩ := t
        have hk2 : ¬ (k2 = key) := by
          intro hc
          subst hc
          have hes : (d + o) % X.length = i := hwX.key_unique hsd h1
          exact hne (add_mod_inj hd hon (offset_lt hn0) (by rw [hes, hc0]))
        simp only [if_neg hk2]
        exact hrec
  
/-- `get` on a stored key returns the partner slot's value. -/
theorem bimap_get_hit {K V : Type} [DecidableEq K] (W : Nat) (hK : K → Nat)
    {key : K} {X : List (Bucket K)} {Y : List (Bucket V)}
    (hwX : WfSide W hK X) {i j d dv q : Nat} {v : V}
    (h1 : slot_data X i = some (key, j, d))
    (h2 : slot_data Y j = some (v, q, dv)) :
    bimap_get W hK key X Y = some (some v) := by
  have hin : i < X.length := lt_length_of_slot_data_eq_some h1
  have hn0 : 0 < X.length := by omega
  have hd : d < X.length := hwX.ideal_lt h1
  unfold bimap_get
  have hfi : find_ideal_index hK X.length key = some d := by
    unfold find_ideal_index
    rw [if_neg (by omega), ← hwX.hash_eq h1]
  simp only [hfi]
  apply get_scan_hit hwX h1 h2
  · exact (mem_bit_indices (hwX.nb_lt hd) _).mpr (hwX.bit_of_slot h1)
  · intro o ho
    exact (mem_bit_indices (hwX.nb_lt hd) o).mp ho

/-! ## Pairs, keys, and the empty map -/

theorem assocP_keyed_left {K V : Type} {X : List (Bucket K)}
    {Y : List (Bucket V)} {k : K} {w : V} (h : AssocP X Y k w) :
    keyed X k := by
  obtain ⟨i, j, d, dv, h1, _⟩ := h
  exact keyed_of_slot h1

theorem assocP_keyed_right {K V : Type} {X : List (Bucket K)}
    {Y : List (Bucket V)} {k : K} {w : V} (h : AssocP X Y k w) :
    keyed Y w := by
  obtain ⟨i, j, d, dv, _, h2⟩ := h
  exact keyed_of_slot h2

theorem wf_keyed_assoc_left {L R : Type} [DecidableEq L] [DecidableEq R]
    {W : Nat} {hL : L → Nat} {hR : R → Nat} {m : BiMap L R}
    (hw : WfMap W hL hR m) (k : L) :
    keyed m.left_data k ↔ ∃ w, AssocP m.left_data m.right_data k w := by
  constructor
  · rintro ⟨i, hi⟩
    obtain ⟨i2, p2, d2, hs⟩ := (keyed_iff_slot _ _).mp ⟨i, hi⟩
    obtain ⟨v, dv, h2⟩ := hw.cross_lr hs
    exact ⟨v, i2, p2, d2, dv, hs, h2⟩
  · rintro ⟨w, hw2⟩
    exact assocP_keyed_left hw2

theorem wf_keyed_assoc_right {L R : Type} [DecidableEq L] [DecidableEq R]
    {W : Nat} {hL : L → Nat} {hR : R → Nat} {m : BiMap L R}
    (hw : WfMap W hL hR m) (w : R) :
    keyed m.right_data w ↔ ∃ k, AssocP m.left_data m.right_data k w := by
  constructor
  · rintro ⟨j, hj⟩
    obtain ⟨j2, q2, dv2, hs⟩ := (keyed_iff_slot _ _).mp ⟨j, hj⟩
    obtain ⟨k, d, h2⟩ := hw.cross_rl hs
    exact ⟨k, q2, j2, d, dv2, h2, hs⟩
  · rintro ⟨k, hk⟩
    exact assocP_keyed_right hk

theorem occ_count_empty_vec (W : Nat) (K : Type) (n : Nat) :
    occ_count (empty_vec W K n) = 0 := by
  unfold occ_count
  rw [List.countP_eq_zero]
  intro b hb
  unfold empty_vec at hb
  have := List.eq_of_mem_replicate hb
  rw [this]
  simp

theorem wfside_empty_vec (W : Nat) {K : Type} (h : K → Nat) (n : Nat) :
    WfSide W h (empty_vec W K n) := by
  refine ⟨?_, ?_, ?_, ?_, ?_⟩
  · intro i _
    unfold ideal_at hkey_at
    rw [slot_data_empty_vec]
    rfl
  · intro i _ d _ hid
    unfold ideal_at at hid
    rw [slot_data_empty_vec] at hid
    exact absurd hid (by simp)
  · intro i _
    rw [nb_at_empty_vec]
    · exact Nat.two_pow_pos W
  · intro d _ j _
    rw [nb_at_empty_vec]
    constructor
    · intro hc
      rw [Nat.zero_testBit] at hc
      exact Bool.noConfusion hc
    · rintro ⟨_, hc⟩
      unfold ideal_at at hc
      rw [slot_data_empty_vec] at hc
      exact absurd hc (by simp)
  · intro i _ i' _ hk hsome
    unfold key_at at hsome
    rw [slot_data_empty_vec] at hsome
    exact absurd hsome (by simp)

theorem wfmap_empty {L R : Type} [DecidableEq L] [DecidableEq R] (W : Nat)
    (hL : L → Nat) (hR : R → Nat) (n : Nat) (hle : n ≤ usize_max) :
    WfMap W hL hR ⟨0, empty_vec W L n, empty_vec W R n⟩ := by
  refine ⟨?_, wfside_empty_vec W hL n, wfside_empty_vec W hR n, ?_, ?_,
    ?_, ?_, ?_⟩
  · rw [length_empty_vec, length_empty_vec]
  · intro i _
    unfold cross_ok
    rw [slot_data_empty_vec]
  · intro i _
    unfold cross_ok
    rw [slot_data_empty_vec]
  · exact occ_count_empty_vec W L n
  · exact occ_count_empty_vec W R n
  · rw [length_empty_vec]
    exact hle

theorem keyed_empty_vec {W : Nat} {K : Type} {n : Nat} (k : K) :
    ¬ keyed (empty_vec W K n) k := by
  rintro ⟨i, hi⟩
  unfold key_at at hi
  rw [slot_data_empty_vec] at hi
  exact Option.noConfusion hi

theorem assocP_empty_vec {W : Nat} {L R : Type} {n m : Nat} (k : L) (w : R) :
    ¬ AssocP (empty_vec W L n) (empty_vec W R m) k w := by
  rintro ⟨i, j, d, dv, h1, _⟩
  rw [slot_data_empty_vec] at h1
  exact Option.noConfusion h1

theorem occ_count_drop_succ {K : Type} {X : List (Bucket K)} {i : Nat}
    (h : i < X.length) :
    occ_count (X.drop i) = occ_count (X.drop (i + 1)) +
      (if (slot_data X i).isSome then 1 else 0) := by
  have hd : X.drop i = X.get ⟨i, h⟩ :: X.drop (i + 1) := by
    rw [← List.getElem_cons_drop X i h]
    rfl
  have hget : (X.get ⟨i, h⟩).data = slot_data X i := by
    unfold slot_data
    rw [List.getElem?_eq_getElem h]
    rfl
  rw [hd, occ_count_cons, hget]

/-- Characterization of the draining iterator: when it completes, it
produces exactly the stored pairs from slot `idx0` on, each once, with
pairwise-distinct left keys and pairwise-distinct right keys. -/
theorem drain_pairs_go_spec {L R : Type} {X : List (Bucket L)}
    {Y : List (Bucket R)}
    (hfwd : ∀ i k p d, slot_data X i = some (k, p, d) →
      ∃ w dv, slot_data Y p = some (w, i, dv))
    (hdistX : ∀ i i' k p d p' d', slot_data X i = some (k, p, d) →
      slot_data X i' = some (k, p', d') → i = i')
    (hdistY : ∀ j j' w q dv q' dv', slot_data Y j = some (w, q, dv) →
      slot_data Y j' = some (w, q', dv') → j = j') :
    ∀ (remaining idx0 : Nat) (Y' : List (Bucket R)) (out : List (L × R)),
      remaining + idx0 = X.length →
      (∀ j, (∀ i k dd, i < idx0 → slot_data X i = some (k, j, dd) → False) →
        slot_data Y' j = slot_data Y j) →
      drain_pairs_go X remaining Y' idx0 = some out →
      ((∀ k w, (k, w) ∈ out ↔ ∃ i jj dd dv, idx0 ≤ i ∧
        slot_data X i = some (k, jj, dd) ∧
        slot_data Y jj = some (w, i, dv)) ∧
      (out.map Prod.fst).Nodup ∧ (out.map Prod.snd).Nodup ∧
      out.length = occ_count (X.drop idx0)) := by
  intro remaining
  induction remaining with
  | zero =>
    intro idx0 Y' out hrem hY' hres
    have hout : out = [] := by
      rw [drain_pairs_go] at hres
      exact (Option.some_inj.mp hres).symm
    subst hout
    refine ⟨?_, List.nodup_nil, List.nodup_nil, ?_⟩
    · intro k w
      simp only [List.not_mem_nil, false_iff]
      rintro ⟨i, jj, dd, dv, hge, h1, _⟩
      have := lt_length_of_slot_data_eq_some h1
      omega
    · rw [(by omega : idx0 = X.length), List.drop_length]
      rfl
  | succ rem ih =>
    intro idx0 Y' out hrem hY' hres
    have hidx0 : idx0 < X.length := by omega
    rw [drain_pairs_go] at hres
    cases hsd : slot_data X idx0 with
    | none =>
      simp only [hsd] at hres
      obtain ⟨hmem, hnf, hns, hlenr⟩ := ih (idx0 + 1) Y' out (by omega)
        (fun j hcond => hY' j (fun i k dd hi hp =>
          hcond i k dd (by omega) hp)) hres
      refine ⟨?_, hnf, hns, ?_⟩
      · intro k w
        rw [hmem k w]
        constructor
        · rintro ⟨i, jj, dd, dv, hge, h1, h2⟩
          exact ⟨i, jj, dd, dv, by omega, h1, h2⟩
        · rintro ⟨i, jj, dd, dv, hge, h1, h2⟩
          refine ⟨i, jj, dd, dv, ?_, h1, h2⟩
          rcases Nat.eq_or_lt_of_le hge with rfl | hlt
          · rw [hsd] at h1
            exact Option.noConfusion h1
          · omega
      · rw [hlenr, occ_count_drop_succ hidx0, hsd]
        rfl
    | some t =>
      obtain ⟨lk, ri, dd0⟩ := t
      simp only [hsd] at hres
      obtain ⟨w0, dv0, hYri⟩ := hfwd idx0 lk ri dd0 hsd
      have hY'ri : slot_data Y' ri = some (w0, idx0, dv0) := by
        rw [hY' ri ?_]
        · exact hYri
        · intro i k dd hi hp
          obtain ⟨w1, dv1, hY1⟩ := hfwd i k ri dd hp
          rw [hYri] at hY1
          simp only [Option.some.injEq, Prod.mk.injEq] at hY1
          omega
      simp only [hY'ri] at hres
      cases hrec : drain_pairs_go X rem (set_data Y' ri none) (idx0 + 1) with
      | none =>
        rw [hrec] at hres
        exact Option.noConfusion hres
      | some rest =>
        rw [hrec] at hres
        simp only [Option.map_some', Option.some.injEq] at hres
        subst hres
        have hY2 : ∀ j, (∀ i k dd, i < idx0 + 1 →
            slot_data X i = some (k, j, dd) → False) →
            slot_data (set_data Y' ri none) j = slot_data Y j := by
          intro j hcond
          rcases eq_or_ne j ri with rfl | hne
          · exact (hcond idx0 lk dd0 (by omega) hsd).elim
          · rw [slot_data_set_data_ne _ (fun hc => hne hc.symm)]
            exact hY' j (fun i k dd hi hp => hcond i k dd (by omega) hp)
        obtain ⟨hmem, hnf, hns, hlenr⟩ := ih (idx0 + 1) _ rest (by omega)
          hY2 hrec
        refine ⟨?_, ?_, ?_, ?_⟩
        · intro k w
          constructor
          · intro hin
            rcases List.mem_cons.mp hin with he | hm
            · simp only [Prod.mk.injEq] at he
              obtain ⟨rfl, rfl⟩ := he
              exact ⟨idx0, ri, dd0, dv0, le_refl _, hsd, hYri⟩
            · obtain ⟨i, jj, dd, dv, hge, h1, h2⟩ := (hmem k w).mp hm
              exact ⟨i, jj, dd, dv, by omega, h1, h2⟩
          · rintro ⟨i, jj, dd, dv, hge, h1, h2⟩
            rcases Nat.eq_or_lt_of_le hge with rfl | hlt
            · rw [hsd] at h1
              simp only [Option.some.injEq, Prod.mk.injEq] at h1
              obtain ⟨rfl, rfl, _⟩ := h1
              rw [hYri] at h2
              simp only [Option.some.injEq, Prod.mk.injEq] at h2
              rw [List.mem_cons]
              left
              rw [h2.1]
            · rw [List.mem_cons]
              right
              exact (hmem k w).mpr ⟨i, jj, dd, dv, by omega, h1, h2⟩
        · rw [List.map_cons, List.nodup_cons]
          refine ⟨?_, hnf⟩
          intro hin
          obtain ⟨pr, hpr, hpr1⟩ := List.mem_map.mp hin
          obtain ⟨i, jj, dd, dv, hge, h1, _⟩ :=
            (hmem pr.1 pr.2).mp (by
              have : pr = (pr.1, pr.2) := rfl
              rw [← this]
              exact hpr)
          rw [hpr1] at h1
          have := hdistX i idx0 lk jj dd ri dd0 h1 hsd
          omega
        · rw [List.map_cons, List.nodup_cons]
          refine ⟨?_, hns⟩
          intro hin
          obtain ⟨pr, hpr, hpr2⟩ := List.mem_map.mp hin
          obtain ⟨i, jj, dd, dv, hge, h1, h2⟩ :=
            (hmem pr.1 pr.2).mp (by
              have : pr = (pr.1, pr.2) := rfl
              rw [← this]
              exact hpr)
          rw [hpr2] at h2
          have hjj : jj = ri := hdistY jj ri w0 i dv idx0 dv0 h2 hYri
          rw [hjj, hYri] at h2
          simp only [Option.some.injEq, Prod.mk.injEq] at h2
          omega
        · rw [List.length_cons, hlenr, occ_count_drop_succ hidx0, hsd]
          simp

/-- Postcondition of a completed `BiMap::insert`: the new pair is stored,
conflicting pairs are gone, the returned options are exactly the former
partners of the two keys, and the pair count is adjusted accordingly. -/
structure InsPost {L R : Type} [DecidableEq L] [DecidableEq R] (W : Nat)
    (hL : L → Nat) (hR : R → Nat) (m : BiMap L R) (l : L) (r : R)
    (out : Option R × Option L) (m' : BiMap L R) : Prop where
  wf : WfMap W hL hR m'
  pairs : ∀ k w, AssocP m'.left_data m'.right_data k w ↔
    ((k = l ∧ w = r) ∨
      (AssocP m.left_data m.right_data k w ∧ k ≠ l ∧ w ≠ r))
  out1_none : out.1 = none ↔ ¬ ∃ w, AssocP m.left_data m.right_data l w
  out1_some : ∀ w, AssocP m.left_data m.right_data l w → out.1 = some w
  out2_none : out.2 = none ↔ ¬ ∃ k, AssocP m.left_data m.right_data k r
  out2_some : ∀ k, AssocP m.left_data m.right_data k r → out.2 = some k
  len_eq : AssocP m.left_data m.right_data l r → m'.len = m.len
  len_acc : ¬ AssocP m.left_data m.right_data l r →
    m'.len + (if out.1.isSome then 1 else 0) +
      (if out.2.isSome then 1 else 0) = m.len + 1

/-- Folding a list of fresh, pairwise-distinct pairs through an insert
operation that satisfies `InsPost` adds exactly those pairs. -/
theorem run_inserts_spec {L R : Type} [DecidableEq L] [DecidableEq R]
    (W : Nat) (hL : L → Nat) (hR : R → Nat)
    (ins : BiMap L R → L → R → Option ((Option R × Option L) × BiMap L R))
    (hins : ∀ m l2 r2 out2 m2, WfMap W hL hR m →
      ins m l2 r2 = some (out2, m2) → InsPost W hL hR m l2 r2 out2 m2) :
    ∀ (ps : List (L × R)) (m m' : BiMap L R), WfMap W hL hR m →
      (∀ pr ∈ ps, ¬ keyed m.left_data pr.1 ∧ ¬ keyed m.right_data pr.2) →
      (ps.map Prod.fst).Nodup → (ps.map Prod.snd).Nodup →
      run_inserts ins m ps = some m' →
      WfMap W hL hR m' ∧ m'.len = m.len + ps.length ∧
      (∀ k w, AssocP m'.left_data m'.right_data k w ↔
        (AssocP m.left_data m.right_data k w ∨ (k, w) ∈ ps)) := by
  intro ps
  induction ps with
  | nil =>
    intro m m' hw _ _ _ hres
    rw [run_inserts] at hres
    have : m = m' := Option.some_inj.mp hres
    subst this
    refine ⟨hw, by simp, ?_⟩
    intro k w
    simp
  | cons pr rest ih =>
    obtain ⟨l2, r2⟩ := pr
    intro m m' hw hfresh hnf hns hres
    rw [run_inserts] at hres
    cases hstep : ins m l2 r2 with
    | none =>
      rw [hstep] at hres
      exact Option.noConfusion hres
    | some o =>
      obtain ⟨out2, m2⟩ := o
      rw [hstep] at hres
      have post := hins m l2 r2 out2 m2 hw hstep
      obtain ⟨hkl, hkr⟩ := hfresh (l2, r2) (List.mem_cons_self _ _)
      have hnp : ¬ AssocP m.left_data m.right_data l2 r2 :=
        fun hc => hkl (assocP_keyed_left hc)
      have ho1 : out2.1 = none := post.out1_none.mpr (by
        rintro ⟨w, hc⟩
        exact hkl (assocP_keyed_left hc))
      have ho2 : out2.2 = none := post.out2_none.mpr (by
        rintro ⟨k, hc⟩
        exact hkr (assocP_keyed_right hc))
      have hlen2 : m2.len = m.len + 1 := by
        have h := post.len_acc hnp
        rw [ho1, ho2] at h
        simpa using h
      have hpairs2 : ∀ k w, AssocP m2.left_data m2.right_data k w ↔
          (AssocP m.left_data m.right_data k w ∨ (k = l2 ∧ w = r2)) := by
        intro k w
        rw [post.pairs k w]
        constructor
        · rintro (⟨rfl, rfl⟩ | ⟨ha, _, _⟩)
          · exact Or.inr ⟨rfl, rfl⟩
          · exact Or.inl ha
        · rintro (ha | ⟨rfl, rfl⟩)
          · refine Or.inr ⟨ha, ?_, ?_⟩
            · rintro rfl
              exact hkl (assocP_keyed_left ha)
            · rintro rfl
              exact hkr (assocP_keyed_right ha)
          · exact Or.inl ⟨rfl, rfl⟩
      have hfresh2 : ∀ pr ∈ rest, ¬ keyed m2.left_data pr.1 ∧
          ¬ keyed m2.right_data pr.2 := by
        intro pr2 hpr2
        constructor
        · intro hc
          obtain ⟨w, hcw⟩ := (wf_keyed_assoc_left post.wf pr2.1).mp hc
          rcases (hpairs2 pr2.1 w).mp hcw with ha | ⟨he, _⟩
          · exact (hfresh pr2 (List.mem_cons_of_mem _ hpr2)).1
              (assocP_keyed_left ha)
          · rw [List.map_cons, List.nodup_cons] at hnf
            exact hnf.1 (he ▸ List.mem_map.mpr ⟨pr2, hpr2, rfl⟩)
        · intro hc
          obtain ⟨k, hck⟩ := (wf_keyed_assoc_right post.wf pr2.2).mp hc
          rcases (hpairs2 k pr2.2).mp hck with ha | ⟨_, he⟩
          · exact (hfresh pr2 (List.mem_cons_of_mem _ hpr2)).2
              (assocP_keyed_right ha)
          · rw [List.map_cons, List.nodup_cons] at hns
            exact hns.1 (he ▸ List.mem_map.mpr ⟨pr2, hpr2, rfl⟩)
      obtain ⟨hw', hlen', hpairs'⟩ := ih m2 m' post.wf hfresh2
        (by rw [List.map_cons, List.nodup_cons] at hnf; exact hnf.2)
        (by rw [List.map_cons, List.nodup_cons] at hns; exact hns.2) hres
      refine ⟨hw', by rw [hlen', hlen2, List.length_cons]; omega, ?_⟩
      intro k w
      rw [hpairs' k w]
      constructor
      · rintro (ha | hm2)
        · rcases (hpairs2 k w).mp ha with hb | ⟨rfl, rfl⟩
          · exact Or.inl hb
          · exact Or.inr (List.mem_cons_self _ _)
        · exact Or.inr (List.mem_cons_of_mem _ hm2)
      · rintro (hb | hm2)
        · exact Or.inl ((hpairs2 k w).mpr (Or.inl hb))
        · rcases List.mem_cons.mp hm2 with he | hm3
          · simp only [Prod.mk.injEq] at he
            exact Or.inl ((hpairs2 k w).mpr (Or.inr he))
          · exact Or.inr hm3

/-- The resize branch: drain the current arrays and re-insert every pair
(preceded by the pending one) into a doubled fresh table. -/
theorem resize_spec {L R : Type} [DecidableEq L] [DecidableEq R]
    (W : Nat) (hL : L → Nat) (hR : R → Nat) (fuel : Nat)
    (hins : ∀ m l2 r2 out2 m2, WfMap W hL hR m →
      bimap_insert W hL hR fuel m l2 r2 = some (out2, m2) →
      InsPost W hL hR m l2 r2 out2 m2)
    (l : L) (r : R) {L3 : List (Bucket L)} {R3 : List (Bucket R)}
    (out0 : Option R × Option L) {res : (Option R × Option L) × BiMap L R}
    (hwL3 : WfSide W hL L3) (hwR3 : WfSide W hR R3)
    (hcL3 : ∀ i, i < L3.length → cross_ok L3 R3 i = true)
    (hfl : ¬ keyed L3 l) (hfr : ¬ keyed R3 r)
    (hres : (if usize_max < L3.length * RESIZE_GROWTH_FACTOR then none
      else
        match drain_pairs L3 R3 with
        | none => none
        | some pairs =>
          match run_inserts
              (fun m l2 r2 => bimap_insert W hL hR fuel m l2 r2)
              ⟨0, empty_vec W L (L3.length * RESIZE_GROWTH_FACTOR),
                empty_vec W R (L3.length * RESIZE_GROWTH_FACTOR)⟩
              ((l, r) :: pairs) with
          | none => none
          | some m3 =>
            if !(invariants_check W hL hR m3) then none
            else some (out0, m3)) = some res) :
    res.1 = out0 ∧ WfMap W hL hR res.2 ∧
    res.2.len = occ_count L3 + 1 ∧
    (∀ k w, AssocP res.2.left_data res.2.right_data k w ↔
      ((k = l ∧ w = r) ∨ AssocP L3 R3 k w)) := by
  have hfwd : ∀ i k p d, slot_data L3 i = some (k, p, d) →
      ∃ w dv, slot_data R3 p = some (w, i, dv) := by
    intro i k p d h1
    exact cross_ok_iff.mp (hcL3 i (lt_length_of_slot_data_eq_some h1))
      k p d h1
  by_cases hcap : usize_max < L3.length * RESIZE_GROWTH_FACTOR
  · rw [if_pos hcap] at hres
    exact Option.noConfusion hres
  · rw [if_neg hcap] at hres
    cases hdr : drain_pairs L3 R3 with
    | none =>
      rw [hdr] at hres
      exact Option.noConfusion hres
    | some pairs =>
      simp only [hdr] at hres
      unfold drain_pairs at hdr
      obtain ⟨hmem, hnf, hns, hlenp⟩ := drain_pairs_go_spec hfwd
        (fun i i' k p d p' d' h1 h2 => hwL3.key_unique h1 h2)
        (fun j j' w q dv q' dv' h1 h2 => hwR3.key_unique h1 h2)
        L3.length 0 R3 pairs (by omega) (fun j _ => rfl) hdr
      rw [List.drop_zero] at hlenp
      cases hrun : run_inserts
          (fun m l2 r2 => bimap_insert W hL hR fuel m l2 r2)
          ⟨0, empty_vec W L (L3.length * RESIZE_GROWTH_FACTOR),
            empty_vec W R (L3.length * RESIZE_GROWTH_FACTOR)⟩
          ((l, r) :: pairs) with
      | none =>
        rw [hrun] at hres
        exact Option.noConfusion hres
      | some m3 =>
        simp only [hrun] at hres
        have hmem' : ∀ k w, (k, w) ∈ pairs ↔ AssocP L3 R3 k w := by
          intro k w
          rw [hmem k w]
          constructor
          · rintro ⟨i, jj, dd, dv, _, h1, h2⟩
            exact ⟨i, jj, dd, dv, h1, h2⟩
          · rintro ⟨i, jj, dd, dv, h1, h2⟩
            exact ⟨i, jj, dd, dv, by omega, h1, h2⟩
        obtain ⟨hwm3, hlen3', hpairs3⟩ := run_inserts_spec W hL hR _ hins
          ((l, r) :: pairs) _ m3
          (wfmap_empty W hL hR _ (by omega))
          (fun pr _ => ⟨keyed_empty_vec _, keyed_empty_vec _⟩)
          (by
            rw [List.map_cons, List.nodup_cons]
            refine ⟨?_, hnf⟩
            intro hin
            obtain ⟨pr, hpr, hpr1⟩ := List.mem_map.mp hin
            obtain ⟨i, jj, dd, dv, h1, _⟩ := (hmem' pr.1 pr.2).mp (by
              have : pr = (pr.1, pr.2) := rfl
              rw [← this]
              exact hpr)
            rw [hpr1] at h1
            exact hfl (keyed_of_slot h1))
          (by
            rw [List.map_cons, List.nodup_cons]
            refine ⟨?_, hns⟩
            intro hin
            obtain ⟨pr, hpr, hpr2⟩ := List.mem_map.mp hin
            obtain ⟨i, jj, dd, dv, _, h2⟩ := (hmem' pr.1 pr.2).mp (by
              have : pr = (pr.1, pr.2) := rfl
              rw [← this]
              exact hpr)
            rw [hpr2] at h2
            exact hfr (keyed_of_slot h2))
          hrun
        cases hg : invariants_check W hL hR m3 with
        | false =>
          simp only [hg] at hres
          exact Option.noConfusion hres
        | true =>
          simp only [hg, Bool.not_true, if_neg (by decide :
            ¬ (false = true))] at hres
          have hr : (out0, m3) = res := Option.some_inj.mp hres
          subst hr
          refine ⟨rfl, hwm3, ?_, ?_⟩
          · rw [hlen3', List.length_cons, hlenp]
            show 0 + (occ_count L3 + 1) = occ_count L3 + 1
            omega
          · intro k w
            rw [hpairs3 k w]
            constructor
            · rintro (ha | hm)
              · exact absurd ha (assocP_empty_vec k w)
              · rcases List.mem_cons.mp hm with he | hm2
                · simp only [Prod.mk.injEq] at he
                  exact Or.inl he
                · exact Or.inr ((hmem' k w).mp hm2)
            · rintro (⟨rfl, rfl⟩ | ha)
              · exact Or.inr (List.mem_cons_self _ _)
              · exact Or.inr (List.mem_cons_of_mem _ ((hmem' k w).mpr ha))

/-! ## Consequences of the insertion postcondition -/

theorem stale_congr {W : Nat} {K : Type} {hX : K → Nat}
    {A : List (Bucket K)} {f g : Nat → Option Nat}
    (hs : StaleWf W hX A f) (hfg : ∀ i, f i = g i) : StaleWf W hX A g := by
  refine ⟨hs.hash_ok, hs.nb_lt, ?_, hs.distinct, ?_, ?_⟩
  · intro d hd j hj
    rw [← hfg ((d + j) % A.length)]
    exact hs.bits d hd j hj
  · intro i
    rw [← hfg i]
    exact hs.occ_agree i
  · intro i d hf
    rw [← hfg i] at hf
    exact hs.stale_disp i d hf

/-- When the insertion starts from an honest (non-stale) assignment, the
resulting key array is well-formed again. -/
theorem okpost_wfside {W : Nat} {K V : Type} {hX : K → Nat} {key : K}
    {X X' : List (Bucket K)} {Y Y' : List (Bucket V)} {idx : Nat}
    (post : OkPost W hX key X Y (ideal_at X) idx X' Y') :
    WfSide W hX X' := by
  obtain ⟨f', hsw, _, _, hD⟩ := post.stale
  have hpt : ∀ i, f' i = ideal_at X' i := by
    intro i
    by_contra hc
    exact (hD i hc).1 rfl
  exact stale_wfside (stale_congr hsw hpt)

theorem wfside_set_pair {W : Nat} {K : Type} {h : K → Nat}
    {A : List (Bucket K)} (hw : WfSide W h A) {i : Nat} {k : K} {p d : Nat}
    (hs : slot_data A i = some (k, p, d)) (p' : Nat) :
    WfSide W h (set_data A i (some (k, p', d))) := by
  have hstale := stale_set_pair (wfside_stale hw) hs p'
  have hin : i < A.length := lt_length_of_slot_data_eq_some hs
  apply stale_wfside
  apply stale_congr hstale
  intro x
  unfold ideal_at
  rcases eq_or_ne x i with rfl | hne
  · rw [hs, slot_data_set_data_self hin]
    rfl
  · rw [slot_data_set_data_ne A (fun hc => hne hc.symm)]

theorem assocP_symm {K V : Type} {X : List (Bucket K)} {Y : List (Bucket V)}
    {k : K} {w : V} : AssocP X Y k w ↔ AssocP Y X w k := by
  constructor
  · rintro ⟨i, j, d, dv, h1, h2⟩
    exact ⟨j, i, dv, d, h2, h1⟩
  · rintro ⟨j, i, dv, d, h2, h1⟩
    exact ⟨i, j, d, dv, h1, h2⟩

theorem keyed_congr_proj {K : Type} {A B : List (Bucket K)}
    (hslots : ∀ j, (slot_data A j).map (fun t => (t.1, t.2.2)) =
      (slot_data B j).map (fun t => (t.1, t.2.2))) (k : K) :
    keyed A k ↔ keyed B k := by
  have hkey : ∀ j, key_at A j = key_at B j := by
    intro j
    unfold key_at
    have h2 := congrArg (Option.map (fun t : K × Nat => t.1)) (hslots j)
    rw [Option.map_map, Option.map_map] at h2
    exact h2
  unfold keyed
  constructor
  · rintro ⟨i, hi⟩
    exact ⟨i, (hkey i) ▸ hi⟩
  · rintro ⟨i, hi⟩
    exact ⟨i, (hkey i).symm ▸ hi⟩

/-- A key array without placeholders (guaranteed by the cross links of a
well-formed map). -/
theorem noph_of_cross {K V : Type} {X : List (Bucket K)}
    {Y : List (Bucket V)}
    (hc : ∀ i, i < X.length → cross_ok X Y i = true)
    (hYle : Y.length ≤ usize_max) :
    ∀ i k d, slot_data X i = some (k, usize_max, d) → False := by
  intro i k d hsd
  obtain ⟨v, dv, h2⟩ := cross_ok_iff.mp
    (hc i (lt_length_of_slot_data_eq_some hsd)) k usize_max d hsd
  have := lt_length_of_slot_data_eq_some h2
  omega

/-- Every placeholder of the output key array other than the fresh one was
already a placeholder of the input. -/
theorem okpost_x_ph {W : Nat} {K V : Type} {hX : K → Nat} {key : K}
    {X X' : List (Bucket K)} {Y Y' : List (Bucket V)}
    {f : Nat → Option Nat} {idx : Nat}
    (post : OkPost W hX key X Y f idx X' Y')
    (hXnoph : ∀ i k d, slot_data X i = some (k, usize_max, d) → False) :
    ∀ i k d, slot_data X' i = some (k, usize_max, d) → i = idx := by
  intro i k d hsd
  by_contra hne
  have hph := post.ph_new i hne (by
    unfold pair_at
    rw [hsd]
    rfl)
  unfold pair_at at hph
  cases hs0 : slot_data X i with
  | none => rw [hs0] at hph; exact Option.noConfusion hph
  | some t =>
    obtain ⟨k0, p0, d0⟩ := t
    rw [hs0] at hph
    simp only [Option.map_some', Option.some.injEq] at hph
    exact hXnoph i k0 d0 (hph ▸ hs0)

/-- The value array acquires no new placeholders. -/
theorem okpost_y_ph {W : Nat} {K V : Type} {hX : K → Nat} {key : K}
    {X X' : List (Bucket K)} {Y Y' : List (Bucket V)}
    {f : Nat → Option Nat} {idx : Nat}
    (post : OkPost W hX key X Y f idx X' Y')
    (hXle : X.length ≤ usize_max) :
    ∀ j v d, slot_data Y' j = some (v, usize_max, d) →
      slot_data Y j = some (v, usize_max, d) := by
  intro j v d hsd
  by_cases hch : slot_data Y' j = slot_data Y j
  · exact hch.symm.trans hsd
  · obtain ⟨v1, q1, dv1, q1', k2, d2, k0, p0, d0, _, hy', hx', _, _⟩ :=
      post.ychg j hch
    rw [hsd] at hy'
    simp only [Option.some.injEq, Prod.mk.injEq] at hy'
    rw [← hy'.2.1] at hx'
    have := lt_length_of_slot_data_eq_some hx'
    rw [post.lenX] at this
    omega

/-- An occupied value slot with a real pair index points at a key slot
that links straight back (derived from `bwd`, `fwd` and injectivity). -/
theorem okpost_ylink {W : Nat} {K V : Type} {hX : K → Nat} {key : K}
    {X X' : List (Bucket K)} {Y Y' : List (Bucket V)}
    {f : Nat → Option Nat} {idx : Nat}
    (post : OkPost W hX key X Y f idx X' Y')
    (hXnoph : ∀ i k d, slot_data X i = some (k, usize_max, d) → False) :
    ∀ j v q dv, slot_data Y' j = some (v, q, dv) → q ≠ usize_max →
      ∃ k d, slot_data X' q = some (k, j, d) := by
  intro j v q dv hsd hq
  have hocc := post.bwd j v q dv hsd hq
  cases hXq : slot_data X' q with
  | none => rw [hXq] at hocc; exact Bool.noConfusion hocc
  | some t =>
    obtain ⟨k, p, d⟩ := t
    by_cases hp : p = usize_max
    · subst hp
      have hqidx : q = idx := okpost_x_ph post hXnoph q k d hXq
      exact absurd hqidx (post.nopoint j v q dv hsd)
    · obtain ⟨v2, dv2, h2⟩ := post.fwd q k p d hXq hp
      have hjp : j = p := post.binj j p v v2 q dv dv2 hsd h2 hq
      refine ⟨k, d, ?_⟩
      rw [hjp]

theorem isSome_eq_of_map_eq {α β γ δ : Type} {a : Option α} {b : Option β}
    {f : α → γ} {g : β → δ} (h : (a.map f).isSome = (b.map g).isSome) :
    a.isSome = b.isSome := by
  cases a with
  | none =>
    cases b with
    | none => rfl
    | some y => exact Bool.noConfusion h
  | some x =>
    cases b with
    | none => exact Bool.noConfusion h
    | some y => rfl

theorem occ_count_congr_proj {K : Type} (A B : List (Bucket K))
    (hlen : A.length = B.length)
    (hp : ∀ j, (slot_data A j).map (fun t => (t.1, t.2.2)) =
      (slot_data B j).map (fun t => (t.1, t.2.2))) :
    occ_count A = occ_count B :=
  occ_count_eq_of_slots A B hlen
    (fun j => isSome_eq_of_map_eq (congrArg Option.isSome (hp j)))

/-- The placement phase of `BiMap::insert`, entered with fresh keys on both
sides: either both one-sided placements succeed and the new pair is linked
in (pair count up by one), or the map is rebuilt by the resize branch with
the identical outcome. -/
theorem insert_tail_spec {L R : Type} [DecidableEq L] [DecidableEq R]
    (W : Nat) (hL : L → Nat) (hR : R → Nat) (fuel : Nat)
    (hins : ∀ m l2 r2 out2 m2, WfMap W hL hR m →
      bimap_insert W hL hR fuel m l2 r2 = some (out2, m2) →
      InsPost W hL hR m l2 r2 out2 m2)
    (l : L) (r : R) {L2 : List (Bucket L)} {R2 : List (Bucket R)}
    {len2 : Nat} (output : Option R × Option L)
    {res : (Option R × Option L) × BiMap L R}
    (hwm2 : WfMap W hL hR ⟨len2, L2, R2⟩)
    (hfl : ¬ keyed L2 l) (hfr : ¬ keyed R2 r)
    (hres : (if !(invariants_check W hL hR ⟨len2, L2, R2⟩) then none
      else
        match
          (if load_exceeded len2 L2.length then
            some (some (l, r), L2, R2)
          else
            match insert_one_sided W fuel l L2 R2 hL with
            | none => none
            | some (.error left, left_data, right_data) =>
              some (some (left, r), left_data, right_data)
            | some (.ok left_index, left_data, right_data) =>
              match insert_one_sided W fuel r right_data left_data hR with
              | none => none
              | some (.ok right_index, right_data, left_data) =>
                match slot_data left_data left_index with
                | none => none
                | some (lk, _, li) =>
                  match slot_data right_data right_index with
                  | none => none
                  | some (rk, _, ri) =>
                    some (none,
                      set_data left_data left_index
                        (some (lk, right_index, li)),
                      set_data right_data right_index
                        (some (rk, left_index, ri)))
              | some (.error right, right_data, left_data) =>
                match slot_data left_data left_index with
                | none => none
                | some (left, _, left_ideal) =>
                  some (some (left, right),
                    mark_as_empty W left_ideal left_index
                      (set_data left_data left_index none),
                    right_data)) with
        | none => none
        | some (failure, left_data, right_data) =>
          if !(invariants_check W hL hR
              ⟨if failure.isNone then len2 + 1 else len2,
                left_data, right_data⟩) then none
          else
            match failure with
            | none => some (output,
                ⟨if failure.isNone then len2 + 1 else len2,
                  left_data, right_data⟩)
            | some (l, r) =>
              if usize_max <
                  left_data.length * RESIZE_GROWTH_FACTOR then none
              else
                match drain_pairs left_data right_data with
                | none => none
                | some pairs =>
                  match run_inserts
                      (fun m l r => bimap_insert W hL hR fuel m l r)
                      ⟨0, empty_vec W L
                          (left_data.length * RESIZE_GROWTH_FACTOR),
                        empty_vec W R
                          (left_data.length * RESIZE_GROWTH_FACTOR)⟩
                      ((l, r) :: pairs) with
                  | none => none
                  | some m3 =>
                    if !(invariants_check W hL hR m3) then none
                    else some (output, m3)) = some res) :
    res.1 = output ∧ WfMap W hL hR res.2 ∧ res.2.len = len2 + 1 ∧
    (∀ k w, AssocP res.2.left_data res.2.right_data k w ↔
      ((k = l ∧ w = r) ∨ AssocP L2 R2 k w)) := by
  have hw := hwm2
  unfold WfMap at hw
  obtain ⟨h1, h2, h3, h4, h5, h6, h7, h8⟩ := hw
  have hlen12 : L2.length = R2.length := h1
  have hwL2 : WfSide W hL L2 := h2
  have hwR2 : WfSide W hR R2 := h3
  have hcL2 : ∀ i, i < L2.length → cross_ok L2 R2 i = true := h4
  have hcR2 : ∀ j, j < R2.length → cross_ok R2 L2 j = true := h5
  have hoccL2 : occ_count L2 = len2 := h6
  have hoccR2 : occ_count R2 = len2 := h7
  have hle2 : L2.length ≤ usize_max := h8
  have hle2R : R2.length ≤ usize_max := by rw [← hlen12]; exact hle2
  have hL2noph : ∀ i k d, slot_data L2 i = some (k, usize_max, d) → False :=
    noph_of_cross hcL2 hle2R
  have hR2noph : ∀ j v d, slot_data R2 j = some (v, usize_max, d) → False :=
    noph_of_cross hcR2 hle2
  cases hg1 : invariants_check W hL hR ⟨len2, L2, R2⟩ with
  | false =>
    simp only [hg1] at hres
    exact Option.noConfusion hres
  | true =>
    simp only [hg1, Bool.not_true,
      if_neg (by decide : ¬ (false = true))] at hres
    by_cases hload : load_exceeded len2 L2.length = true
    · rw [if_pos hload] at hres
      simp only [Option.isNone_some, Bool.false_eq_true, if_false, hg1,
        Bool.not_true, if_neg (by decide : ¬ (false = true))] at hres
      obtain ⟨ho, hwf, hlenr, hpairs⟩ := resize_spec W hL hR fuel hins
        l r output hwL2 hwR2 hcL2 hfl hfr hres
      refine ⟨ho, hwf, ?_, hpairs⟩
      rw [hlenr, hoccL2]
    · rw [if_neg hload] at hres
      cases hL1 : insert_one_sided W fuel l L2 R2 hL with
      | none =>
        simp only [hL1] at hres
        exact Option.noConfusion hres
      | some t1 =>
        obtain ⟨er1, ld, rd⟩ := t1
        simp only [hL1] at hres
        cases er1 with
        | error e =>
          obtain ⟨he1, he2, he3⟩ :=
            insert_one_sided_error_unchanged W fuel l L2 R2 hL e ld rd hL1
          rw [he1, he2, he3] at hres
          simp only [Option.isNone_some, Bool.false_eq_true, if_false, hg1,
            Bool.not_true, if_neg (by decide : ¬ (false = true))] at hres
          obtain ⟨ho, hwf, hlenr, hpairs⟩ := resize_spec W hL hR fuel hins
            l r output hwL2 hwR2 hcL2 hfl hfr hres
          refine ⟨ho, hwf, ?_, hpairs⟩
          rw [hlenr, hoccL2]
        | ok li =>
          have hpreL : OkPre W hL l L2 R2 (ideal_at L2) := by
            refine ⟨wfside_stale hwL2, hfl, ?_, ?_, ?_, ?_, hle2, hle2R⟩
            · intro i k p d hsd hp
              exact cross_ok_iff.mp
                (hcL2 i (lt_length_of_slot_data_eq_some hsd)) k p d hsd
            · intro j v q dv hsd hq
              obtain ⟨k2, d2, hb⟩ := cross_ok_iff.mp
                (hcR2 j (lt_length_of_slot_data_eq_some hsd)) v q dv hsd
              rw [hb]
              rfl
            · intro j j' v v' q dv dv' ha hb hq
              obtain ⟨k1, d1, hc1⟩ := cross_ok_iff.mp
                (hcR2 j (lt_length_of_slot_data_eq_some ha)) v q dv ha
              obtain ⟨k2, d2, hc2⟩ := cross_ok_iff.mp
                (hcR2 j' (lt_length_of_slot_data_eq_some hb)) v' q dv' hb
              rw [hc1] at hc2
              simp only [Option.some.injEq, Prod.mk.injEq] at hc2
              exact hc2.2.1
            · intro i hi
              exact absurd rfl hi
          have postL := insert_one_sided_ok_spec W hL fuel l L2 R2
            (ideal_at L2) li ld rd hpreL hL1
          have hwld : WfSide W hL ld := okpost_wfside postL
          have hwrd : WfSide W hR rd :=
            wfside_of_same hwR2 postL.lenY postL.yproj postL.ynb
          have hldlen : ld.length = L2.length := postL.lenX
          have hrdlen : rd.length = R2.length := postL.lenY
          have hrdle : rd.length ≤ usize_max := by
            rw [hrdlen]
            exact hle2R
          have hldle : ld.length ≤ usize_max := by
            rw [hldlen]
            exact hle2
          have hrdnoph : ∀ j v d,
              slot_data rd j = some (v, usize_max, d) → False :=
            fun j v d hsd => hR2noph j v d (okpost_y_ph postL hle2 j v d hsd)
          have hldph : ∀ i k d, slot_data ld i = some (k, usize_max, d) →
              i = li := okpost_x_ph postL hL2noph
          have hfr' : ¬ keyed rd r :=
            fun hc => hfr ((keyed_congr_proj postL.yproj r).mp hc)
          have hli : li < L2.length := postL.idx_lt
          have hassoc_ld : ∀ k w, AssocP ld rd k w ↔ AssocP L2 R2 k w :=
            postL.assoc
          have hpreR : OkPre W hR r rd ld (ideal_at rd) := by
            refine ⟨wfside_stale hwrd, hfr', ?_, ?_, ?_, ?_, hrdle, hldle⟩
            · intro i k p d hsd hp
              obtain ⟨k2, d2, hb⟩ := okpost_ylink postL hL2noph i k p d hsd hp
              exact ⟨k2, d2, hb⟩
            · intro j v q dv hsd hq
              obtain ⟨v2, dv2, hb⟩ := postL.fwd j v q dv hsd hq
              rw [hb]
              rfl
            · intro j j' v v' q dv dv' ha hb hq
              obtain ⟨w1, e1, hb1⟩ := postL.fwd j v q dv ha hq
              obtain ⟨w2, e2, hb2⟩ := postL.fwd j' v' q dv' hb hq
              rw [hb1] at hb2
              simp only [Option.some.injEq, Prod.mk.injEq] at hb2
              exact hb2.2.1
            · intro i hi
              exact absurd rfl hi
          cases hR1 : insert_one_sided W fuel r rd ld hR with
          | none =>
            simp only [hR1] at hres
            exact Option.noConfusion hres
          | some t2 =>
            obtain ⟨er2, rd2, ld2⟩ := t2
            simp only [hR1] at hres
            cases er2 with
            | error e2 =>
              obtain ⟨he1, he2, he3⟩ :=
                insert_one_sided_error_unchanged W fuel r rd ld hR
                  e2 rd2 ld2 hR1
              rw [he1, he2, he3] at hres
              simp only [postL.placed] at hres
              have hL4eq : mark_as_empty W (hL l % L2.length) li
                  (set_data ld li none) =
                  set_data (set_nb ld (hL l % L2.length)
                    (nb_at ld (hL l % L2.length) &&&
                      zero_at W ((ld.length + li - hL l % L2.length) %
                        ld.length))) li none := by
                unfold mark_as_empty
                rw [length_set_data, nb_at_set_data, set_nb_set_data_comm]
              rw [hL4eq] at hres
              obtain ⟨hwL4, hlen4, hslots4, _, _, hocc4, hkeyed4⟩ :=
                remove_slot_side hwld postL.placed rfl
              simp only [Option.isNone_some, Bool.false_eq_true, if_false]
                at hres
              cases hg2 : invariants_check W hL hR
                  ⟨len2, set_data (set_nb ld (hL l % L2.length)
                    (nb_at ld (hL l % L2.length) &&&
                      zero_at W ((ld.length + li - hL l % L2.length) %
                        ld.length))) li none, rd⟩ with
              | false =>
                simp only [hg2] at hres
                exact Option.noConfusion hres
              | true =>
                simp only [hg2, Bool.not_true,
                  if_neg (by decide : ¬ (false = true))] at hres
                have hcL4 : ∀ i, i < (set_data (set_nb ld (hL l % L2.length)
                    (nb_at ld (hL l % L2.length) &&&
                      zero_at W ((ld.length + li - hL l % L2.length) %
                        ld.length))) li none).length →
                    cross_ok (set_data (set_nb ld (hL l % L2.length)
                      (nb_at ld (hL l % L2.length) &&&
                        zero_at W ((ld.length + li - hL l % L2.length) %
                          ld.length))) li none) rd i = true := by
                  intro i _
                  rw [cross_ok_iff]
                  intro k p d hsd
                  rw [hslots4 i] at hsd
                  by_cases hil : i = li
                  · rw [if_pos hil] at hsd
                    exact Option.noConfusion hsd
                  · rw [if_neg hil] at hsd
                    have hp : p ≠ usize_max := by
                      intro hc
                      exact hil (hldph i k d (hc ▸ hsd))
                    exact postL.fwd i k p d hsd hp
                have hfl4 : ¬ keyed (set_data (set_nb ld (hL l % L2.length)
                    (nb_at ld (hL l % L2.length) &&&
                      zero_at W ((ld.length + li - hL l % L2.length) %
                        ld.length))) li none) l :=
                  fun hc => ((hkeyed4 l).mp hc).2 rfl
                obtain ⟨ho, hwf, hlenr, hpairs⟩ := resize_spec W hL hR fuel
                  hins l r output hwL4 hwrd hcL4 hfl4 hfr' hres
                have hassoc4 : ∀ k w, AssocP (set_data (set_nb ld
                    (hL l % L2.length) (nb_at ld (hL l % L2.length) &&&
                      zero_at W ((ld.length + li - hL l % L2.length) %
                        ld.length))) li none) rd k w ↔
                    AssocP L2 R2 k w := by
                  intro k w
                  rw [← hassoc_ld k w]
                  constructor
                  · rintro ⟨i, j, d, dv, ha, hb⟩
                    rw [hslots4 i] at ha
                    by_cases hil : i = li
                    · rw [if_pos hil] at ha
                      exact Option.noConfusion ha
                    · rw [if_neg hil] at ha
                      exact ⟨i, j, d, dv, ha, hb⟩
                  · rintro ⟨i, j, d, dv, ha, hb⟩
                    have hil : i ≠ li := by
                      intro hc
                      rw [hc, postL.placed] at ha
                      simp only [Option.some.injEq, Prod.mk.injEq] at ha
                      obtain ⟨-, hj, -⟩ := ha
                      rw [← hj] at hb
                      have := lt_length_of_slot_data_eq_some hb
                      omega
                    refine ⟨i, j, d, dv, ?_, hb⟩
                    rw [hslots4 i, if_neg hil]
                    exact ha
                refine ⟨ho, hwf, ?_, ?_⟩
                · rw [hlenr, hocc4, postL.occX, hoccL2]
                  omega
                · intro k w
                  rw [hpairs k w, hassoc4 k w]
            | ok ri =>
              have postR := insert_one_sided_ok_spec W hR fuel r rd ld
                (ideal_at rd) ri rd2 ld2 hpreR hR1
              have hld2len : ld2.length = L2.length := by
                rw [postR.lenY, hldlen]
              have hrd2len : rd2.length = R2.length := by
                rw [postR.lenX, hrdlen]
              have hli2 : li < ld2.length := by
                rw [hld2len]
                exact hli
              have hri : ri < rd.length := postR.idx_lt
              have hri2 : ri < rd2.length := by
                rw [hrd2len, ← hrdlen]
                exact hri
              have hld2le : ld2.length ≤ usize_max := by
                rw [hld2len]
                exact hle2
              have hrd2le : rd2.length ≤ usize_max := by
                rw [hrd2len]
                exact hle2R
              have hld2li : slot_data ld2 li =
                  some (l, usize_max, hL l % L2.length) := by
                by_cases hch : slot_data ld2 li = slot_data ld li
                · rw [hch]
                  exact postL.placed
                · obtain ⟨v1, q1, dv1, q1', k2, d2, k0, p0, d0, hy, hy',
                    hx', hx0, hp0⟩ := postR.ychg li hch
                  rw [postL.placed] at hy
                  simp only [Option.some.injEq, Prod.mk.injEq] at hy
                  obtain ⟨-, hq1, -⟩ := hy
                  rw [← hq1] at hx0
                  have := lt_length_of_slot_data_eq_some hx0
                  omega
              simp only [hld2li, postR.placed] at hres
              simp only [Option.isNone_none, if_true] at hres
              cases hg2 : invariants_check W hL hR
                  ⟨len2 + 1,
                    set_data ld2 li (some (l, ri, hL l % L2.length)),
                    set_data rd2 ri (some (r, li, hR r % rd.length))⟩ with
              | false =>
                simp only [hg2] at hres
                exact Option.noConfusion hres
              | true =>
                simp only [hg2, Bool.not_true,
                  if_neg (by decide : ¬ (false = true))] at hres
                have hr : (output,
                    (⟨len2 + 1,
                      set_data ld2 li (some (l, ri, hL l % L2.length)),
                      set_data rd2 ri (some (r, li, hR r % rd.length))⟩ :
                      BiMap L R)) = res := Option.some_inj.mp hres
                subst hr
                have hL5li : slot_data
                    (set_data ld2 li (some (l, ri, hL l % L2.length))) li =
                    some (l, ri, hL l % L2.length) :=
                  slot_data_set_data_self hli2 _
                have hR5ri : slot_data
                    (set_data rd2 ri (some (r, li, hR r % rd.length))) ri =
                    some (r, li, hR r % rd.length) :=
                  slot_data_set_data_self hri2 _
                have hL5ne : ∀ i, i ≠ li → slot_data
                    (set_data ld2 li (some (l, ri, hL l % L2.length))) i =
                    slot_data ld2 i :=
                  fun i hi =>
                    slot_data_set_data_ne ld2 (fun hc => hi hc.symm) _
                have hR5ne : ∀ j, j ≠ ri → slot_data
                    (set_data rd2 ri (some (r, li, hR r % rd.length))) j =
                    slot_data rd2 j :=
                  fun j hj =>
                    slot_data_set_data_ne rd2 (fun hc => hj hc.symm) _
                have hld2ph : ∀ i k d,
                    slot_data ld2 i = some (k, usize_max, d) → i = li :=
                  fun i k d hsd =>
                    hldph i k d (okpost_y_ph postR hrdle i k d hsd)
                have hrd2ph : ∀ j v d,
                    slot_data rd2 j = some (v, usize_max, d) → j = ri :=
                  okpost_x_ph postR hrdnoph
                have hwld2 : WfSide W hL ld2 :=
                  wfside_of_same hwld postR.lenY postR.yproj postR.ynb
                have hwrd2 : WfSide W hR rd2 := okpost_wfside postR
                have hwL5 : WfSide W hL
                    (set_data ld2 li (some (l, ri, hL l % L2.length))) := by
                  have := wfside_set_pair hwld2 hld2li ri
                  exact this
                have hwR5 : WfSide W hR
                    (set_data rd2 ri (some (r, li, hR r % rd.length))) := by
                  have := wfside_set_pair hwrd2 postR.placed li
                  exact this
                have hlen5 :
                    (set_data ld2 li
                      (some (l, ri, hL l % L2.length))).length =
                    (set_data rd2 ri
                      (some (r, li, hR r % rd.length))).length := by
                  rw [length_set_data, length_set_data, hld2len, hrd2len,
                    hlen12]
                have hcross5L : ∀ i, i < (set_data ld2 li
                    (some (l, ri, hL l % L2.length))).length →
                    cross_ok (set_data ld2 li
                      (some (l, ri, hL l % L2.length)))
                      (set_data rd2 ri (some (r, li, hR r % rd.length)))
                      i = true := by
                  intro i _
                  rw [cross_ok_iff]
                  intro k p d hsd
                  by_cases hil : i = li
                  · rw [hil, hL5li] at hsd
                    simp only [Option.some.injEq, Prod.mk.injEq] at hsd
                    obtain ⟨-, hp, -⟩ := hsd
                    refine ⟨r, hR r % rd.length, ?_⟩
                    rw [← hp, hil]
                    exact hR5ri
                  · rw [hL5ne i hil] at hsd
                    have hp : p ≠ usize_max := by
                      intro hc
                      exact hil (hld2ph i k d (hc ▸ hsd))
                    obtain ⟨k2, d2, hb⟩ :=
                      okpost_ylink postR hrdnoph i k p d hsd hp
                    have hpri : p ≠ ri := by
                      intro hc
                      rw [hc, postR.placed] at hb
                      simp only [Option.some.injEq, Prod.mk.injEq] at hb
                      obtain ⟨-, hi, -⟩ := hb
                      have hlt := lt_length_of_slot_data_eq_some hsd
                      omega
                    refine ⟨k2, d2, ?_⟩
                    rw [hR5ne p hpri]
                    exact hb
                have hcross5R : ∀ j, j < (set_data rd2 ri
                    (some (r, li, hR r % rd.length))).length →
                    cross_ok (set_data rd2 ri
                      (some (r, li, hR r % rd.length)))
                      (set_data ld2 li (some (l, ri, hL l % L2.length)))
                      j = true := by
                  intro j _
                  rw [cross_ok_iff]
                  intro w q dq hsd
                  by_cases hjr : j = ri
                  · rw [hjr, hR5ri] at hsd
                    simp only [Option.some.injEq, Prod.mk.injEq] at hsd
                    obtain ⟨-, hq, -⟩ := hsd
                    refine ⟨l, hL l % L2.length, ?_⟩
                    rw [← hq, hjr]
                    exact hL5li
                  · rw [hR5ne j hjr] at hsd
                    have hq : q ≠ usize_max := by
                      intro hc
                      exact hjr (hrd2ph j w dq (hc ▸ hsd))
                    obtain ⟨v2, dv2, hb⟩ := postR.fwd j w q dq hsd hq
                    have hqli : q ≠ li := by
                      intro hc
                      rw [hc, hld2li] at hb
                      simp only [Option.some.injEq, Prod.mk.injEq] at hb
                      obtain ⟨-, hj, -⟩ := hb
                      have hlt := lt_length_of_slot_data_eq_some hsd
                      omega
                    refine ⟨v2, dv2, ?_⟩
                    rw [hL5ne q hqli]
                    exact hb
                have hoccL5 : occ_count (set_data ld2 li
                    (some (l, ri, hL l % L2.length))) = len2 + 1 := by
                  rw [occ_count_set_data_some_of_some hld2li]
                  rw [occ_count_congr_proj ld2 ld
                    (by rw [postR.lenY]) postR.yproj]
                  rw [postL.occX, hoccL2]
                have hoccR5 : occ_count (set_data rd2 ri
                    (some (r, li, hR r % rd.length))) = len2 + 1 := by
                  rw [occ_count_set_data_some_of_some postR.placed]
                  rw [postR.occX]
                  rw [occ_count_congr_proj rd R2
                    (by rw [hrdlen]) postL.yproj]
                  rw [hoccR2]
                have hle5 : (set_data ld2 li
                    (some (l, ri, hL l % L2.length))).length ≤
                    usize_max := by
                  rw [length_set_data, hld2len]
                  exact hle2
                have hassoc2 : ∀ k w, AssocP ld2 rd2 k w ↔
                    AssocP L2 R2 k w := by
                  intro k w
                  rw [← hassoc_ld k w]
                  constructor
                  · intro ha
                    exact assocP_symm.mp
                      ((postR.assoc w k).mp (assocP_symm.mp ha))
                  · intro ha
                    exact assocP_symm.mpr
                      ((postR.assoc w k).mpr (assocP_symm.mp ha))
                refine ⟨rfl, ⟨hlen5, hwL5, hwR5, hcross5L,
                  (fun j hj => hcross5R j hj), hoccL5, hoccR5, hle5⟩,
                  rfl, ?_⟩
                intro k w
                constructor
                · rintro ⟨i, j, d, dv, ha, hb⟩
                  by_cases hil : i = li
                  · rw [hil, hL5li] at ha
                    simp only [Option.some.injEq, Prod.mk.injEq] at ha
                    obtain ⟨hk, hj, -⟩ := ha
                    rw [← hj, hR5ri] at hb
                    simp only [Option.some.injEq, Prod.mk.injEq] at hb
                    obtain ⟨hw, -, -⟩ := hb
                    exact Or.inl ⟨hk.symm, hw.symm⟩
                  · have hjri : j ≠ ri := by
                      intro hc
                      rw [hc, hR5ri] at hb
                      simp only [Option.some.injEq, Prod.mk.injEq] at hb
                      exact hil hb.2.1.symm
                    rw [hL5ne i hil] at ha
                    rw [hR5ne j hjri] at hb
                    exact Or.inr ((hassoc2 k w).mp ⟨i, j, d, dv, ha, hb⟩)
                · rintro (⟨hk, hw⟩ | ha)
                  · refine ⟨li, ri, hL l % L2.length, hR r % rd.length,
                      ?_, ?_⟩
                    · rw [hk]
                      exact hL5li
                    · rw [hw]
                      exact hR5ri
                  · obtain ⟨i, j, d, dv, ha2, hb2⟩ :=
                      (hassoc2 k w).mpr ha
                    have hil : i ≠ li := by
                      intro hc
                      rw [hc, hld2li] at ha2
                      simp only [Option.some.injEq, Prod.mk.injEq] at ha2
                      obtain ⟨-, hj, -⟩ := ha2
                      rw [← hj] at hb2
                      have := lt_length_of_slot_data_eq_some hb2
                      omega
                    have hjri : j ≠ ri := by
                      intro hc
                      rw [hc, postR.placed] at hb2
                      simp only [Option.some.injEq, Prod.mk.injEq] at hb2
                      obtain ⟨-, hi, -⟩ := hb2
                      rw [← hi] at ha2
                      have := lt_length_of_slot_data_eq_some ha2
                      omega
                    refine ⟨i, j, d, dv, ?_, ?_⟩
                    · rw [hL5ne i hil]
                      exact ha2
                    · rw [hR5ne j hjri]
                      exact hb2

theorem occ_count_pos_of_slot {K : Type} {A : List (Bucket K)} {i : Nat}
    {t : K × Nat × Nat} (h : slot_data A i = some t) : 0 < occ_count A := by
  have hi := lt_length_of_slot_data_eq_some h
  have hd := occ_count_decompose A hi
  have hget : (A.get ⟨i, hi⟩).data = slot_data A i := by
    unfold slot_data
    rw [List.getElem?_eq_getElem hi]
    rfl
  rw [hget, h] at hd
  simp only [Option.isSome_some, if_true] at hd
  omega

/-- A stored left key determines its right partner (slot uniqueness). -/
theorem assocP_func {W : Nat} {K V : Type} {hX : K → Nat}
    {X : List (Bucket K)} {Y : List (Bucket V)} (hw : WfSide W hX X)
    {k : K} {w w' : V} (ha1 : AssocP X Y k w) (ha2 : AssocP X Y k w') :
    w = w' := by
  obtain ⟨i, j, d, dv, ha, hb⟩ := ha1
  obtain ⟨i', j', d', dv', ha', hb'⟩ := ha2
  have hii : i = i' := hw.key_unique ha ha'
  rw [← hii, ha] at ha'
  simp only [Option.some.injEq, Prod.mk.injEq] at ha'
  obtain ⟨-, hj, -⟩ := ha'
  rw [← hj, hb] at hb'
  simp only [Option.some.injEq, Prod.mk.injEq] at hb'
  exact hb'.1

/-- `BiMap::insert` (with the caller's fuel available for the resize
recursion): full functional postcondition on a well-formed map. -/
theorem bimap_insert_ok_spec {L R : Type} [DecidableEq L] [DecidableEq R]
    (W : Nat) (hL : L → Nat) (hR : R → Nat) :
    ∀ (fuel : Nat) (m : BiMap L R) (l : L) (r : R)
      (out : Option R × Option L) (m' : BiMap L R),
      WfMap W hL hR m →
      bimap_insert W hL hR fuel m l r = some (out, m') →
      InsPost W hL hR m l r out m' := by
  intro fuel
  induction fuel with
  | zero =>
    intro m l r out m' hw hres
    exact Option.noConfusion hres
  | succ fuel IH =>
    intro m l r out m' hw hres
    have hwc := hw
    unfold WfMap at hwc
    obtain ⟨hlenm, hwLm, hwRm, hcLRm, hcRLm, hoccLm, hoccRm, hlem⟩ := hwc
    rw [bimap_insert] at hres
    cases hg1 : invariants_check W hL hR m with
    | false =>
      simp only [hg1] at hres
      exact Option.noConfusion hres
    | true =>
      simp only [hg1, Bool.not_true,
        if_neg (by decide : ¬ (false = true))] at hres
      cases hlc : m.left_data.length with
      | zero =>
        have hrm0 : bimap_remove W hL hR l m.left_data m.right_data
            m.len = none := by
          simp [bimap_remove, find_ideal_index, hlc]
        rw [hrm0] at hres
        exact Option.noConfusion hres
      | succ n =>
        have hn0 : 0 < m.left_data.length := by omega
        have hn0R : 0 < m.right_data.length := by
          rw [← hlenm]
          exact hn0
        by_cases hkl : keyed m.left_data l
        · -- the left key is present: the first removal hits
          obtain ⟨s0, p0, d0, hsl⟩ := (keyed_iff_slot m.left_data l).mp hkl
          obtain ⟨v0, dv0, X', Y', hYp, hremeq, hlenX', hlenY', hslotsX',
            hslotsY', hwX', hwY', hcXY', hcYX', hoccX', hoccY', hkeyedX',
            hkeyedY', hassoc'⟩ :=
            bimap_remove_hit W hL hR m.len hlenm hwLm hwRm hcLRm hcRLm
              hoccLm hoccRm hsl
          have hAlv0 : AssocP m.left_data m.right_data l v0 :=
            ⟨s0, p0, d0, dv0, hsl, hYp⟩
          have hm1 : 0 < m.len := by
            have h1 := occ_count_pos_of_slot hsl
            omega
          simp only [hremeq] at hres
          by_cases hvr : v0 = r
          · -- short-circuit: the evicted right value is the new one
            simp only [if_pos hvr] at hres
            have hAlr : AssocP m.left_data m.right_data l r := hvr ▸ hAlv0
            have hwm2 : WfMap W hL hR ⟨m.len - 1, X', Y'⟩ := by
              refine ⟨?_, hwX', hwY', ?_, ?_, hoccX', hoccY', ?_⟩
              · rw [hlenX', hlenY']
                exact hlenm
              · intro i _
                exact hcXY' i
              · intro j _
                exact hcYX' j
              · rw [hlenX']
                exact hlem
            have hfl2 : ¬ keyed X' l := fun hc => ((hkeyedX' l).mp hc).2 rfl
            have hfr2 : ¬ keyed Y' r :=
              fun hc => ((hkeyedY' r).mp hc).2 hvr.symm
            obtain ⟨ho, hwf, hlen', hpairs⟩ := insert_tail_spec W hL hR fuel
              IH l r (some v0, some l) hwm2 hfl2 hfr2 hres
            have hout : out = (some v0, some l) := ho
            have hlen'' : m'.len = m.len - 1 + 1 := hlen'
            refine ⟨hwf, ?_, ?_, ?_, ?_, ?_, ?_, ?_⟩
            · intro k w
              rw [hpairs k w]
              constructor
              · rintro (⟨hk, hw2⟩ | ha)
                · exact Or.inl ⟨hk, hw2⟩
                · obtain ⟨hb, hknel, hwnev0⟩ := (hassoc' k w).mp ha
                  exact Or.inr ⟨hb, hknel,
                    fun hc => hwnev0 (by rw [hc, hvr])⟩
              · rintro (⟨hk, hw2⟩ | ⟨ha, hknel, hwner⟩)
                · exact Or.inl ⟨hk, hw2⟩
                · exact Or.inr ((hassoc' k w).mpr ⟨ha, hknel,
                    fun hc => hwner (by rw [hc]; exact hvr)⟩)
            · constructor
              · intro h
                rw [hout] at h
                exact Option.noConfusion h
              · intro hnex
                exact absurd ⟨r, hAlr⟩ hnex
            · intro w hc
              rw [hout, assocP_func hwLm hc hAlv0]
            · constructor
              · intro h
                rw [hout] at h
                exact Option.noConfusion h
              · intro hnex
                exact absurd ⟨l, hAlr⟩ hnex
            · intro k hc
              rw [hout,
                assocP_func hwRm (assocP_symm.mp hc) (assocP_symm.mp hAlr)]
            · intro _
              have h := hlen''
              omega
            · intro hnc
              exact absurd hAlr hnc
          · simp only [if_neg hvr] at hres
            by_cases hkr2 : keyed Y' r
            · -- both keys present with different partners: two removals
              obtain ⟨j1, q1, dq1, hsr1⟩ := (keyed_iff_slot Y' r).mp hkr2
              obtain ⟨v1, dv1, X2, Y2, hYp1, hremeq1, hlenX2, hlenY2,
                hslotsX2, hslotsY2, hwX2, hwY2, hcXY2, hcYX2, hoccX2,
                hoccY2, hkeyedX2, hkeyedY2, hassoc1⟩ :=
                bimap_remove_hit W hR hL (m.len - 1)
                  (by rw [hlenY', hlenX']; exact hlenm.symm)
                  hwY' hwX' (fun j _ => hcYX' j) (fun i _ => hcXY' i)
                  hoccY' hoccX' hsr1
              have hAv1r : AssocP m.left_data m.right_data v1 r := by
                have h0 : AssocP X' Y' v1 r := ⟨q1, j1, dv1, dq1, hYp1, hsr1⟩
                exact ((hassoc' v1 r).mp h0).1
              have hm2 : 0 < m.len - 1 := by
                have h1 := occ_count_pos_of_slot hsr1
                omega
              simp only [hremeq1, Option.map_some'] at hres
              have hwm2 : WfMap W hL hR ⟨m.len - 1 - 1, Y2, X2⟩ := by
                refine ⟨?_, hwY2, hwX2, ?_, ?_, hoccY2, hoccX2, ?_⟩
                · rw [hlenY2, hlenX2, hlenX', hlenY']
                  exact hlenm
                · intro i _
                  exact hcYX2 i
                · intro j _
                  exact hcXY2 j
                · rw [hlenY2, hlenX']
                  exact hlem
              have hfl2 : ¬ keyed Y2 l :=
                fun hc => ((hkeyedX' l).mp ((hkeyedY2 l).mp hc).1).2 rfl
              have hfr2 : ¬ keyed X2 r :=
                fun hc => ((hkeyedX2 r).mp hc).2 rfl
              obtain ⟨ho, hwf, hlen', hpairs⟩ := insert_tail_spec W hL hR
                fuel IH l r (some v0, some v1) hwm2 hfl2 hfr2 hres
              have hout : out = (some v0, some v1) := ho
              have hlen'' : m'.len = m.len - 1 - 1 + 1 := hlen'
              refine ⟨hwf, ?_, ?_, ?_, ?_, ?_, ?_, ?_⟩
              · intro k w
                rw [hpairs k w]
                constructor
                · rintro (⟨hk, hw2⟩ | ha)
                  · exact Or.inl ⟨hk, hw2⟩
                  · obtain ⟨hb, hwr, hkv1⟩ :=
                      (hassoc1 w k).mp (assocP_symm.mp ha)
                    obtain ⟨hc2, hknel, hwnev0⟩ :=
                      (hassoc' k w).mp (assocP_symm.mp hb)
                    exact Or.inr ⟨hc2, hknel, hwr⟩
                · rintro (⟨hk, hw2⟩ | ⟨ha, hknel, hwner⟩)
                  · exact Or.inl ⟨hk, hw2⟩
                  · refine Or.inr (assocP_symm.mpr ((hassoc1 w k).mpr
                      ⟨assocP_symm.mpr ((hassoc' k w).mpr
                        ⟨ha, hknel, ?_⟩), hwner, ?_⟩))
                    · intro hc
                      exact hknel (assocP_func hwRm
                        (assocP_symm.mp (hc ▸ ha)) (assocP_symm.mp hAlv0))
                    · intro hc
                      exact hwner (assocP_func hwLm (hc ▸ ha) hAv1r)
              · constructor
                · intro h
                  rw [hout] at h
                  exact Option.noConfusion h
                · intro hnex
                  exact absurd ⟨v0, hAlv0⟩ hnex
              · intro w hc
                rw [hout, assocP_func hwLm hc hAlv0]
              · constructor
                · intro h
                  rw [hout] at h
                  exact Option.noConfusion h
                · intro hnex
                  exact absurd ⟨v1, hAv1r⟩ hnex
              · intro k hc
                rw [hout, assocP_func hwRm (assocP_symm.mp hc)
                  (assocP_symm.mp hAv1r)]
              · intro hc
                exact absurd (assocP_func hwLm hc hAlv0).symm hvr
              · intro _
                have h := hlen''
                rw [hout]
                show m'.len + 1 + 1 = m.len + 1
                omega
            · -- left hit, right key absent after the first removal
              have hkr3 : ¬ keyed m.right_data r :=
                fun hc => hkr2 ((hkeyedY' r).mpr
                  ⟨hc, fun hc2 => hvr hc2.symm⟩)
              have hn0Y' : 0 < Y'.length := by
                rw [hlenY']
                exact hn0R
              have hrm2 := bimap_remove_miss W hR hL X' (m.len - 1)
                hn0Y' hkr2
              simp only [hrm2, Option.map_none'] at hres
              have hwm2 : WfMap W hL hR ⟨m.len - 1, X', Y'⟩ := by
                refine ⟨?_, hwX', hwY', ?_, ?_, hoccX', hoccY', ?_⟩
                · rw [hlenX', hlenY']
                  exact hlenm
                · intro i _
                  exact hcXY' i
                · intro j _
                  exact hcYX' j
                · rw [hlenX']
                  exact hlem
              have hfl2 : ¬ keyed X' l :=
                fun hc => ((hkeyedX' l).mp hc).2 rfl
              obtain ⟨ho, hwf, hlen', hpairs⟩ := insert_tail_spec W hL hR
                fuel IH l r (some v0, none) hwm2 hfl2 hkr2 hres
              have hout : out = (some v0, none) := ho
              have hlen'' : m'.len = m.len - 1 + 1 := hlen'
              refine ⟨hwf, ?_, ?_, ?_, ?_, ?_, ?_, ?_⟩
              · intro k w
                rw [hpairs k w]
                constructor
                · rintro (⟨hk, hw2⟩ | ha)
                  · exact Or.inl ⟨hk, hw2⟩
                  · obtain ⟨hb, hknel, hwnev0⟩ := (hassoc' k w).mp ha
                    exact Or.inr ⟨hb, hknel,
                      fun hc => hkr3 (hc ▸ assocP_keyed_right hb)⟩
                · rintro (⟨hk, hw2⟩ | ⟨ha, hknel, hwner⟩)
                  · exact Or.inl ⟨hk, hw2⟩
                  · exact Or.inr ((hassoc' k w).mpr ⟨ha, hknel,
                      fun hc => hknel (assocP_func hwRm
                        (assocP_symm.mp (hc ▸ ha))
                        (assocP_symm.mp hAlv0))⟩)
              · constructor
                · intro h
                  rw [hout] at h
                  exact Option.noConfusion h
                · intro hnex
                  exact absurd ⟨v0, hAlv0⟩ hnex
              · intro w hc
                rw [hout, assocP_func hwLm hc hAlv0]
              · constructor
                · intro _
                  rintro ⟨k, hc⟩
                  exact hkr3 (assocP_keyed_right hc)
                · intro _
                  rw [hout]
              · intro k hc
                exact absurd (assocP_keyed_right hc) hkr3
              · intro hc
                exact absurd (assocP_func hwLm hc hAlv0).symm hvr
              · intro _
                have h := hlen''
                rw [hout]
                show m'.len + 1 + 0 = m.len + 1
                omega
        · -- the left key is absent: the first removal misses
          have hrm1 := bimap_remove_miss W hL hR m.right_data m.len hn0 hkl
          simp only [hrm1] at hres
          by_cases hkr : keyed m.right_data r
          · -- the right key is present: the second removal hits
            obtain ⟨j0, q0, dq0, hsr⟩ :=
              (keyed_iff_slot m.right_data r).mp hkr
            obtain ⟨v0, dv0, X', Y', hYp, hremeq, hlenX', hlenY', hslotsX',
              hslotsY', hwX', hwY', hcXY', hcYX', hoccX', hoccY', hkeyedX',
              hkeyedY', hassoc'⟩ :=
              bimap_remove_hit W hR hL m.len hlenm.symm hwRm hwLm hcRLm
                hcLRm hoccRm hoccLm hsr
            have hAv0r : AssocP m.left_data m.right_data v0 r :=
              ⟨q0, j0, dv0, dq0, hYp, hsr⟩
            have hm1 : 0 < m.len := by
              have h1 := occ_count_pos_of_slot hsr
              omega
            simp only [hremeq, Option.map_some'] at hres
            have hwm2 : WfMap W hL hR ⟨m.len - 1, Y', X'⟩ := by
              refine ⟨?_, hwY', hwX', ?_, ?_, hoccY', hoccX', ?_⟩
              · rw [hlenY', hlenX']
                exact hlenm
              · intro i _
                exact hcYX' i
              · intro j _
                exact hcXY' j
              · rw [hlenY']
                exact hlem
            have hfl2 : ¬ keyed Y' l :=
              fun hc => hkl ((hkeyedY' l).mp hc).1
            have hfr2 : ¬ keyed X' r :=
              fun hc => ((hkeyedX' r).mp hc).2 rfl
            obtain ⟨ho, hwf, hlen', hpairs⟩ := insert_tail_spec W hL hR fuel
              IH l r (none, some v0) hwm2 hfl2 hfr2 hres
            have hout : out = (none, some v0) := ho
            have hlen'' : m'.len = m.len - 1 + 1 := hlen'
            refine ⟨hwf, ?_, ?_, ?_, ?_, ?_, ?_, ?_⟩
            · intro k w
              rw [hpairs k w]
              constructor
              · rintro (⟨hk, hw2⟩ | ha)
                · exact Or.inl ⟨hk, hw2⟩
                · obtain ⟨hb, hwr, hkv⟩ := (hassoc' w k).mp (assocP_symm.mp ha)
                  refine Or.inr ⟨assocP_symm.mpr hb, ?_, hwr⟩
                  intro hc
                  exact hkl (hc ▸ assocP_keyed_left (assocP_symm.mpr hb))
              · rintro (⟨hk, hw2⟩ | ⟨ha, hknel, hwner⟩)
                · exact Or.inl ⟨hk, hw2⟩
                · refine Or.inr (assocP_symm.mpr ((hassoc' w k).mpr
                    ⟨assocP_symm.mp ha, hwner, ?_⟩))
                  intro hc
                  exact hwner (assocP_func hwLm (hc ▸ ha) hAv0r)
            · constructor
              · intro _
                rintro ⟨w, hc⟩
                exact hkl (assocP_keyed_left hc)
              · intro _
                rw [hout]
            · intro w hc
              exact absurd (assocP_keyed_left hc) hkl
            · constructor
              · intro h
                rw [hout] at h
                exact Option.noConfusion h
              · intro hnex
                exact absurd ⟨v0, hAv0r⟩ hnex
            · intro k hc
              rw [hout, assocP_func hwRm (assocP_symm.mp hc)
                (assocP_symm.mp hAv0r)]
            · intro hc
              exact absurd (assocP_keyed_left hc) hkl
            · intro _
              have h := hlen''
              rw [hout]
              show m'.len + 0 + 1 = m.len + 1
              omega
          · -- both keys absent: both removals miss
            have hrm2 := bimap_remove_miss W hR hL m.left_data m.len
              hn0R hkr
            simp only [hrm2, Option.map_none'] at hres
            have hwm2 : WfMap W hL hR
                ⟨m.len, m.left_data, m.right_data⟩ := hw
            obtain ⟨ho, hwf, hlen', hpairs⟩ := insert_tail_spec W hL hR fuel
              IH l r (none, none) hwm2 hkl hkr hres
            have hout : out = (none, none) := ho
            have hlen'' : m'.len = m.len + 1 := hlen'
            refine ⟨hwf, ?_, ?_, ?_, ?_, ?_, ?_, ?_⟩
            · intro k w
              rw [hpairs k w]
              constructor
              · rintro (⟨hk, hw2⟩ | ha)
                · exact Or.inl ⟨hk, hw2⟩
                · exact Or.inr ⟨ha,
                    fun hc => hkl (hc ▸ assocP_keyed_left ha),
                    fun hc => hkr (hc ▸ assocP_keyed_right ha)⟩
              · rintro (⟨hk, hw2⟩ | ⟨ha, -, -⟩)
                · exact Or.inl ⟨hk, hw2⟩
                · exact Or.inr ha
            · constructor
              · intro _
                rintro ⟨w, hc⟩
                exact hkl (assocP_keyed_left hc)
              · intro _
                rw [hout]
            · intro w hc
              exact absurd (assocP_keyed_left hc) hkl
            · constructor
              · intro _
                rintro ⟨k, hc⟩
                exact hkr (assocP_keyed_right hc)
              · intro _
                rw [hout]
            · intro k hc
              exact absurd (assocP_keyed_right hc) hkr
            · intro hc
              exact absurd (assocP_keyed_left hc) hkl
            · intro _
              have h := hlen''
              rw [hout]
              show m'.len + 0 + 0 = m.len + 1
              omega

/-! ## The boolean self-check passes on well-formed maps -/

theorem lor_zero_at_full {W b off : Nat} (hb : b < 2 ^ W) (hoff : off < W)
    (htb : b.testBit off = true) : (b ||| zero_at W off) = 2 ^ W - 1 := by
  apply Nat.eq_of_testBit_eq
  intro j
  rw [Nat.testBit_lor, testBit_zero_at, Nat.testBit_two_pow_sub_one]
  rcases Nat.lt_or_ge j W with hjW | hjW
  · rcases eq_or_ne off j with rfl | hne
    · rw [htb]
      simp [hjW]
    · simp [hne, hjW]
  · rw [testBit_ge_false hb hjW]
    simp [show ¬ j < W by omega]

theorem wf_invariants_check {L R : Type} [DecidableEq L] [DecidableEq R]
    {W : Nat} {hL : L → Nat} {hR : R → Nat} {m : BiMap L R}
    (hw : WfMap W hL hR m) : invariants_check W hL hR m = true := by
  unfold invariants_check
  simp only [Bool.and_eq_true, List.all_eq_true, beq_iff_eq]
  refine ⟨⟨⟨⟨⟨⟨hw.len_eq, ?_⟩, ?_⟩, ?_⟩, ?_⟩, ?_⟩, ?_⟩
  · intro i hi
    have hin : i < m.left_data.length := List.mem_range.mp hi
    cases hs : slot_data m.left_data i with
    | none => rfl
    | some t =>
      obtain ⟨key, p, ideal⟩ := t
      have hid := hw.left.hash_eq hs
      have hidlt := hw.left.ideal_lt hs
      simp only [Bool.and_eq_true, beq_iff_eq, decide_eq_true_eq]
      refine ⟨⟨?_, hidlt⟩, ?_⟩
      · unfold find_ideal_index
        rw [if_neg (by omega), hid]
      · rw [bitfield_full_iff]
        exact lor_zero_at_full (hw.left.nb_lt hidlt) (hw.left.disp_lt hs)
          (hw.left.bit_of_slot hs)
  · intro i hi
    have hin : i < m.right_data.length := List.mem_range.mp hi
    have hlen := hw.len_eq
    cases hs : slot_data m.right_data i with
    | none => rfl
    | some t =>
      obtain ⟨key, p, ideal⟩ := t
      have hid := hw.right.hash_eq hs
      have hidlt := hw.right.ideal_lt hs
      simp only [Bool.and_eq_true, beq_iff_eq, decide_eq_true_eq]
      refine ⟨⟨?_, ?_⟩, ?_⟩
      · unfold find_ideal_index
        rw [if_neg (by omega), hlen, hid]
      · rw [hlen]
        exact hidlt
      · rw [bitfield_full_iff, hlen]
        exact lor_zero_at_full (hw.right.nb_lt hidlt) (hw.right.disp_lt hs)
          (hw.right.bit_of_slot hs)
  · intro i hi
    show cross_ok m.left_data m.right_data i = true
    rw [cross_ok_iff]
    intro k p d hs
    exact hw.cross_lr hs
  · intro i hi
    show cross_ok m.right_data m.left_data i = true
    rw [cross_ok_iff]
    intro k p d hs
    exact hw.cross_rl hs
  · exact hw.count_left
  · exact hw.count_right

theorem not_keyed_of_occ_zero {K : Type} {A : List (Bucket K)}
    (h0 : occ_count A = 0) (k : K) : ¬ keyed A k := by
  intro hc
  obtain ⟨i, p, d, hs⟩ := (keyed_iff_slot A k).mp hc
  have := occ_count_pos_of_slot hs
  omega

/-! ## The public removal wrappers -/

theorem remove_left_miss {L R : Type} [DecidableEq L] [DecidableEq R]
    {W : Nat} {hL : L → Nat} {hR : R → Nat} {m : BiMap L R}
    (hw : WfMap W hL hR m) {key : L} (hn0 : 0 < m.left_data.length)
    (hfresh : ¬ keyed m.left_data key) :
    remove_left W hL hR m key = some (none, m) := by
  unfold remove_left
  rw [if_pos (wf_invariants_check hw),
    bimap_remove_miss W hL hR m.right_data m.len hn0 hfresh]
  rfl

theorem remove_right_miss {L R : Type} [DecidableEq L] [DecidableEq R]
    {W : Nat} {hL : L → Nat} {hR : R → Nat} {m : BiMap L R}
    (hw : WfMap W hL hR m) {key : R} (hn0 : 0 < m.right_data.length)
    (hfresh : ¬ keyed m.right_data key) :
    remove_right W hL hR m key = some (none, m) := by
  unfold remove_right
  rw [if_pos (wf_invariants_check hw),
    bimap_remove_miss W hR hL m.left_data m.len hn0 hfresh]
  rfl

theorem remove_left_wf {L R : Type} [DecidableEq L] [DecidableEq R]
    {W : Nat} {hL : L → Nat} {hR : R → Nat} {m : BiMap L R}
    (hw : WfMap W hL hR m) {key : L} {o : Option R} {m' : BiMap L R}
    (hres : remove_left W hL hR m key = some (o, m')) :
    WfMap W hL hR m' := by
  have hwc := hw
  unfold WfMap at hwc
  obtain ⟨hlenm, hwLm, hwRm, hcLRm, hcRLm, hoccLm, hoccRm, hlem⟩ := hwc
  unfold remove_left at hres
  rw [if_pos (wf_invariants_check hw)] at hres
  cases hlc : m.left_data.length with
  | zero =>
    have h0 : bimap_remove W hL hR key m.left_data m.right_data
        m.len = none := by
      simp [bimap_remove, find_ideal_index, hlc]
    rw [h0] at hres
    exact Option.noConfusion hres
  | succ n =>
    have hn0 : 0 < m.left_data.length := by omega
    by_cases hkl : keyed m.left_data key
    · obtain ⟨s0, p0, d0, hsl⟩ := (keyed_iff_slot _ _).mp hkl
      obtain ⟨v0, dv0, X', Y', hYp, hremeq, hlenX', hlenY', _, _, hwX',
        hwY', hcXY', hcYX', hoccX', hoccY', -, -, -⟩ :=
        bimap_remove_hit W hL hR m.len hlenm hwLm hwRm hcLRm hcRLm
          hoccLm hoccRm hsl
      rw [hremeq] at hres
      simp only [Option.map_some', Option.some.injEq, Prod.mk.injEq] at hres
      obtain ⟨-, h2⟩ := hres
      subst h2
      refine ⟨?_, hwX', hwY', ?_, ?_, hoccX', hoccY', ?_⟩
      · rw [hlenX', hlenY']
        exact hlenm
      · intro i _
        exact hcXY' i
      · intro j _
        exact hcYX' j
      · rw [hlenX']
        exact hlem
    · rw [bimap_remove_miss W hL hR m.right_data m.len hn0 hkl] at hres
      simp only [Option.map_none', Option.some.injEq, Prod.mk.injEq] at hres
      obtain ⟨-, h2⟩ := hres
      subst h2
      exact hw

theorem remove_right_wf {L R : Type} [DecidableEq L] [DecidableEq R]
    {W : Nat} {hL : L → Nat} {hR : R → Nat} {m : BiMap L R}
    (hw : WfMap W hL hR m) {key : R} {o : Option L} {m' : BiMap L R}
    (hres : remove_right W hL hR m key = some (o, m')) :
    WfMap W hL hR m' := by
  have hwc := hw
  unfold WfMap at hwc
  obtain ⟨hlenm, hwLm, hwRm, hcLRm, hcRLm, hoccLm, hoccRm, hlem⟩ := hwc
  unfold remove_right at hres
  rw [if_pos (wf_invariants_check hw)] at hres
  cases hlc : m.right_data.length with
  | zero =>
    have h0 : bimap_remove W hR hL key m.right_data m.left_data
        m.len = none := by
      simp [bimap_remove, find_ideal_index, hlc]
    rw [h0] at hres
    exact Option.noConfusion hres
  | succ n =>
    have hn0 : 0 < m.right_data.length := by omega
    by_cases hkr : keyed m.right_data key
    · obtain ⟨s0, p0, d0, hsr⟩ := (keyed_iff_slot _ _).mp hkr
      obtain ⟨v0, dv0, X', Y', hYp, hremeq, hlenX', hlenY', _, _, hwX',
        hwY', hcXY', hcYX', hoccX', hoccY', -, -, -⟩ :=
        bimap_remove_hit W hR hL m.len hlenm.symm hwRm hwLm hcRLm hcLRm
          hoccRm hoccLm hsr
      rw [hremeq] at hres
      simp only [Option.map_some', Option.some.injEq, Prod.mk.injEq] at hres
      obtain ⟨-, h2⟩ := hres
      subst h2
      refine ⟨?_, hwY', hwX', ?_, ?_, hoccY', hoccX', ?_⟩
      · rw [hlenY', hlenX']
        exact hlenm
      · intro i _
        exact hcYX' i
      · intro j _
        exact hcXY' j
      · rw [hlenY']
        exact hlem
    · rw [bimap_remove_miss W hR hL m.left_data m.len hn0 hkr] at hres
      simp only [Option.map_none', Option.some.injEq, Prod.mk.injEq] at hres
      obtain ⟨-, h2⟩ := hres
      subst h2
      exact hw

/-! ## Folding a list of insertions (the workload of claim C2) -/

/-- Insert a list of pairs in order, collecting each call's output pair. -/
def bimap_insert_all {L R : Type} [DecidableEq L] [DecidableEq R] (W : Nat)
    (hL : L → Nat) (hR : R → Nat) (fuel : Nat) :
    BiMap L R → List (L × R) →
      Option (List (Option R × Option L) × BiMap L R)
  | m, [] => some ([], m)
  | m, (l, r) :: rest =>
    match bimap_insert W hL hR fuel m l r with
    | none => none
    | some (out, m') =>
      (bimap_insert_all W hL hR fuel m' rest).map
        (fun p => (out :: p.1, p.2))

theorem bimap_insert_all_spec {L R : Type} [DecidableEq L] [DecidableEq R]
    (W : Nat) (hL : L → Nat) (hR : R → Nat) (fuel : Nat) :
    ∀ (ps : List (L × R)) (m : BiMap L R)
      (outs : List (Option R × Option L)) (mf : BiMap L R),
      WfMap W hL hR m →
      (∀ pr ∈ ps, ¬ keyed m.left_data pr.1 ∧ ¬ keyed m.right_data pr.2) →
      (ps.map Prod.fst).Nodup → (ps.map Prod.snd).Nodup →
      bimap_insert_all W hL hR fuel m ps = some (outs, mf) →
      (∀ o ∈ outs, o = (none, none)) ∧ mf.len = m.len + ps.length ∧
      WfMap W hL hR mf ∧
      (∀ k w, AssocP mf.left_data mf.right_data k w ↔
        (AssocP m.left_data m.right_data k w ∨ (k, w) ∈ ps)) := by
  intro ps
  induction ps with
  | nil =>
    intro m outs mf hw _ _ _ hres
    rw [bimap_insert_all] at hres
    simp only [Option.some.injEq, Prod.mk.injEq] at hres
    obtain ⟨h1, h2⟩ := hres
    subst h1
    subst h2
    refine ⟨fun o ho => absurd ho (List.not_mem_nil o), by simp, hw, ?_⟩
    intro k w
    simp
  | cons pr rest ih =>
    obtain ⟨l2, r2⟩ := pr
    intro m outs mf hw hfresh hnf hns hres
    rw [bimap_insert_all] at hres
    cases hstep : bimap_insert W hL hR fuel m l2 r2 with
    | none =>
      rw [hstep] at hres
      exact Option.noConfusion hres
    | some oo =>
      obtain ⟨out, m2⟩ := oo
      simp only [hstep] at hres
      cases hrest : bimap_insert_all W hL hR fuel m2 rest with
      | none =>
        rw [hrest] at hres
        exact Option.noConfusion hres
      | some pp =>
        obtain ⟨outs2, mf2⟩ := pp
        rw [hrest] at hres
        simp only [Option.map_some', Option.some.injEq,
          Prod.mk.injEq] at hres
        obtain ⟨h1, h2⟩ := hres
        subst h1
        subst h2
        have post := bimap_insert_ok_spec W hL hR fuel m l2 r2 out m2
          hw hstep
        obtain ⟨hkl, hkr⟩ := hfresh (l2, r2) (List.mem_cons_self _ _)
        have hnp : ¬ AssocP m.left_data m.right_data l2 r2 :=
          fun hc => hkl (assocP_keyed_left hc)
        have ho1 : out.1 = none := post.out1_none.mpr (by
          rintro ⟨w, hc⟩
          exact hkl (assocP_keyed_left hc))
        have ho2 : out.2 = none := post.out2_none.mpr (by
          rintro ⟨k, hc⟩
          exact hkr (assocP_keyed_right hc))
        have hout : out = (none, none) := by
          obtain ⟨o1, o2⟩ := out
          rw [show (o1, o2).1 = o1 from rfl] at ho1
          rw [show (o1, o2).2 = o2 from rfl] at ho2
          rw [ho1, ho2]
        have hlen2 : m2.len = m.len + 1 := by
          have h := post.len_acc hnp
          rw [ho1, ho2] at h
          simpa using h
        have hpairs2 : ∀ k w, AssocP m2.left_data m2.right_data k w ↔
            (AssocP m.left_data m.right_data k w ∨ (k = l2 ∧ w = r2)) := by
          intro k w
          rw [post.pairs k w]
          constructor
          · rintro (⟨hk, hw2⟩ | ⟨ha, _, _⟩)
            · exact Or.inr ⟨hk, hw2⟩
            · exact Or.inl ha
          · rintro (ha | ⟨hk, hw2⟩)
            · refine Or.inr ⟨ha, ?_, ?_⟩
              · rintro rfl
                exact hkl (assocP_keyed_left ha)
              · rintro rfl
                exact hkr (assocP_keyed_right ha)
            · exact Or.inl ⟨hk, hw2⟩
        have hfresh2 : ∀ pr ∈ rest, ¬ keyed m2.left_data pr.1 ∧
            ¬ keyed m2.right_data pr.2 := by
          intro pr2 hpr2
          constructor
          · intro hc
            obtain ⟨w, hcw⟩ := (wf_keyed_assoc_left post.wf pr2.1).mp hc
            rcases (hpairs2 pr2.1 w).mp hcw with ha | ⟨he, _⟩
            · exact (hfresh pr2 (List.mem_cons_of_mem _ hpr2)).1
                (assocP_keyed_left ha)
            · rw [List.map_cons, List.nodup_cons] at hnf
              exact hnf.1 (he ▸ List.mem_map.mpr ⟨pr2, hpr2, rfl⟩)
          · intro hc
            obtain ⟨k, hck⟩ := (wf_keyed_assoc_right post.wf pr2.2).mp hc
            rcases (hpairs2 k pr2.2).mp hck with ha | ⟨_, he⟩
            · exact (hfresh pr2 (List.mem_cons_of_mem _ hpr2)).2
                (assocP_keyed_right ha)
            · rw [List.map_cons, List.nodup_cons] at hns
              exact hns.1 (he ▸ List.mem_map.mpr ⟨pr2, hpr2, rfl⟩)
        obtain ⟨hall, hlen', hw', hpairs'⟩ := ih m2 outs2 mf2 post.wf
          hfresh2
          (by rw [List.map_cons, List.nodup_cons] at hnf; exact hnf.2)
          (by rw [List.map_cons, List.nodup_cons] at hns; exact hns.2)
          hrest
        refine ⟨?_, by rw [hlen', hlen2, List.length_cons]; omega, hw', ?_⟩
        · intro o ho
          rcases List.mem_cons.mp ho with rfl | ho2
          · exact hout
          · exact hall o ho2
        · intro k w
          rw [hpairs' k w]
          constructor
          · rintro (ha | hm2)
            · rcases (hpairs2 k w).mp ha with hb | ⟨hk, hw2⟩
              · exact Or.inl hb
              · exact Or.inr (by rw [hk, hw2]; exact List.mem_cons_self _ _)
            · exact Or.inr (List.mem_cons_of_mem _ hm2)
          · rintro (hb | hm2)
            · exact Or.inl ((hpairs2 k w).mpr (Or.inl hb))
            · rcases List.mem_cons.mp hm2 with he | hm3
              · simp only [Prod.mk.injEq] at he
                exact Or.inl ((hpairs2 k w).mpr (Or.inr he))
              · exact Or.inr hm3

/-! ## Claims C1, C2, C3, C4, C8 -/

/-- C1: immediately after a (terminating) `insert(a, b)` on a well-formed
map, `get_left(a)` returns `Some(b)` and `get_right(b)` returns `Some(a)`,
whatever unrelated pairs the map already held (resizes included: the
hypothesis covers every successful run of `insert`). -/
theorem claim_C1 {L R : Type} [DecidableEq L] [DecidableEq R] (W : Nat)
    (hL : L → Nat) (hR : R → Nat) (fuel : Nat) (m : BiMap L R) (a : L)
    (b : R) (out : Option R × Option L) (m' : BiMap L R)
    (hw : WfMap W hL hR m)
    (hres : bimap_insert W hL hR fuel m a b = some (out, m')) :
    get_left W hL hR m' a = some (some b) ∧
    get_right W hL hR m' b = some (some a) := by
  have post := bimap_insert_ok_spec W hL hR fuel m a b out m' hw hres
  obtain ⟨i, j, d, dv, h1, h2⟩ := (post.pairs a b).mpr (Or.inl ⟨rfl, rfl⟩)
  constructor
  · unfold get_left
    rw [if_pos (wf_invariants_check post.wf)]
    exact bimap_get_hit W hL post.wf.left h1 h2
  · unfold get_right
    rw [if_pos (wf_invariants_check post.wf)]
    exact bimap_get_hit W hR post.wf.right h2 h1

/-- Witness for C1: inserting `(1, 2)` into a fresh 5-slot map. -/
theorem claim_C1_witness :
    ∃ out m', bimap_insert 4 (fun n : Nat => n) (fun n : Nat => n) 3
        ⟨0, empty_vec 4 Nat 5, empty_vec 4 Nat 5⟩ 1 2 = some (out, m') ∧
      get_left 4 (fun n : Nat => n) (fun n : Nat => n) m' 1 =
        some (some 2) ∧
      get_right 4 (fun n : Nat => n) (fun n : Nat => n) m' 2 =
        some (some 1) := by
  have hsome : (bimap_insert 4 (fun n : Nat => n) (fun n : Nat => n) 3
      ⟨0, empty_vec 4 Nat 5, empty_vec 4 Nat 5⟩ 1 2).isSome = true := by
    decide
  obtain ⟨p, hp⟩ := Option.isSome_iff_exists.mp hsome
  obtain ⟨out, m'⟩ := p
  obtain ⟨h1, h2⟩ := claim_C1 4 (fun n : Nat => n) (fun n : Nat => n) 3
    ⟨0, empty_vec 4 Nat 5, empty_vec 4 Nat 5⟩ 1 2 out m' (by decide) hp
  exact ⟨out, m', hp, h1, h2⟩

/-- C2: inserting a list of pairs with pairwise-distinct left keys and
pairwise-distinct right keys into a freshly built map reports no eviction
(every insert returns `(None, None)`) and leaves `len()` equal to the
number of pairs, whenever the run completes. -/
theorem claim_C2 {L R : Type} [DecidableEq L] [DecidableEq R] (W : Nat)
    (hL : L → Nat) (hR : R → Nat) (fuel cap : Nat) (ps : List (L × R))
    (outs : List (Option R × Option L)) (mf : BiMap L R)
    (hcap : (builder_finish W L R cap).left_data.length ≤ usize_max)
    (hnf : (ps.map Prod.fst).Nodup) (hns : (ps.map Prod.snd).Nodup)
    (hrun : bimap_insert_all W hL hR fuel (builder_finish W L R cap) ps =
      some (outs, mf)) :
    (∀ o ∈ outs, o = (none, none)) ∧ mf.len = ps.length := by
  have hc : (if cap = 0 then 0
      else (Nat.max DEFAULT_HASH_MAP_SIZE cap * MAX_LOAD_NUM +
        (MAX_LOAD_DEN - 1)) / MAX_LOAD_DEN) ≤ usize_max := by
    have h : (empty_vec W L (if cap = 0 then 0
        else (Nat.max DEFAULT_HASH_MAP_SIZE cap * MAX_LOAD_NUM +
          (MAX_LOAD_DEN - 1)) / MAX_LOAD_DEN)).length ≤ usize_max := hcap
    rw [length_empty_vec] at h
    exact h
  have hw0 : WfMap W hL hR (builder_finish W L R cap) :=
    wfmap_empty W hL hR _ hc
  have hfresh : ∀ pr ∈ ps,
      ¬ keyed (builder_finish W L R cap).left_data pr.1 ∧
      ¬ keyed (builder_finish W L R cap).right_data pr.2 :=
    fun pr _ => ⟨keyed_empty_vec pr.1, keyed_empty_vec pr.2⟩
  obtain ⟨hall, hlen, -, -⟩ := bimap_insert_all_spec W hL hR fuel ps
    (builder_finish W L R cap) outs mf hw0 hfresh hnf hns hrun
  refine ⟨hall, ?_⟩
  rw [hlen]
  show 0 + ps.length = ps.length
  omega

/-- Witness for C2: two distinct pairs into a capacity-1 builder map. -/
theorem claim_C2_witness :
    ∃ outs mf, bimap_insert_all 4 (fun n : Nat => n) (fun n : Nat => n) 3
        (builder_finish 4 Nat Nat 1) [(1, 2), (3, 4)] = some (outs, mf) ∧
      (∀ o ∈ outs, o = (none, none)) ∧ mf.len = 2 := by
  have hsome : (bimap_insert_all 4 (fun n : Nat => n) (fun n : Nat => n) 3
      (builder_finish 4 Nat Nat 1) [(1, 2), (3, 4)]).isSome = true := by
    decide
  obtain ⟨p, hp⟩ := Option.isSome_iff_exists.mp hsome
  obtain ⟨outs, mf⟩ := p
  obtain ⟨h1, h2⟩ := claim_C2 4 (fun n : Nat => n) (fun n : Nat => n) 3 1
    [(1, 2), (3, 4)] outs mf (by decide) (by decide) (by decide) hp
  exact ⟨outs, mf, hp, h1, h2⟩

/-- C3: re-inserting left key `a` with a new right value `b2 ≠ b` on a map
storing `(a, b)` reports the evicted `b` as the first output component,
and afterwards `get_right(b)` returns `None`. -/
theorem claim_C3 {L R : Type} [DecidableEq L] [DecidableEq R] (W : Nat)
    (hL : L → Nat) (hR : R → Nat) (fuel : Nat) (m : BiMap L R) (a : L)
    (b b2 : R) (out : Option R × Option L) (m' : BiMap L R)
    (hw : WfMap W hL hR m)
    (hab : AssocP m.left_data m.right_data a b) (hne : b2 ≠ b)
    (hres : bimap_insert W hL hR fuel m a b2 = some (out, m')) :
    out.1 = some b ∧ get_right W hL hR m' b = some none := by
  have post := bimap_insert_ok_spec W hL hR fuel m a b2 out m' hw hres
  refine ⟨post.out1_some b hab, ?_⟩
  have hfresh : ¬ keyed m'.right_data b := by
    intro hc
    obtain ⟨k, hck⟩ := (wf_keyed_assoc_right post.wf b).mp hc
    rcases (post.pairs k b).mp hck with ⟨hk, hw2⟩ | ⟨ha, hka, hwb⟩
    · exact hne hw2.symm
    · exact hka (assocP_func hw.right (assocP_symm.mp ha)
        (assocP_symm.mp hab))
  obtain ⟨i, j, d, dv, h1, h2⟩ := (post.pairs a b2).mpr (Or.inl ⟨rfl, rfl⟩)
  have hn0 : 0 < m'.right_data.length := by
    have := lt_length_of_slot_data_eq_some h2
    omega
  unfold get_right
  rw [if_pos (wf_invariants_check post.wf)]
  exact bimap_get_miss W hR m'.left_data hn0 hfresh

/-- Witness for C3: a 5-slot map storing `(1, 2)`; re-insert `(1, 3)`. -/
theorem claim_C3_witness :
    ∃ out m', bimap_insert 4 (fun n : Nat => n) (fun n : Nat => n) 3
        ⟨1, [⟨none, 0⟩, ⟨some (1, 2, 1), 1⟩, ⟨none, 0⟩, ⟨none, 0⟩,
            ⟨none, 0⟩],
          [⟨none, 0⟩, ⟨none, 0⟩, ⟨some (2, 1, 2), 1⟩, ⟨none, 0⟩,
            ⟨none, 0⟩]⟩ 1 3 = some (out, m') ∧
      out.1 = some 2 ∧
      get_right 4 (fun n : Nat => n) (fun n : Nat => n) m' 2 =
        some none := by
  have hsome : (bimap_insert 4 (fun n : Nat => n) (fun n : Nat => n) 3
      ⟨1, [⟨none, 0⟩, ⟨some (1, 2, 1), 1⟩, ⟨none, 0⟩, ⟨none, 0⟩,
          ⟨none, 0⟩],
        [⟨none, 0⟩, ⟨none, 0⟩, ⟨some (2, 1, 2), 1⟩, ⟨none, 0⟩,
          ⟨none, 0⟩]⟩ 1 3).isSome = true := by decide
  obtain ⟨p, hp⟩ := Option.isSome_iff_exists.mp hsome
  obtain ⟨out, m'⟩ := p
  obtain ⟨h1, h2⟩ := claim_C3 4 (fun n : Nat => n) (fun n : Nat => n) 3
    ⟨1, [⟨none, 0⟩, ⟨some (1, 2, 1), 1⟩, ⟨none, 0⟩, ⟨none, 0⟩, ⟨none, 0⟩],
      [⟨none, 0⟩, ⟨none, 0⟩, ⟨some (2, 1, 2), 1⟩, ⟨none, 0⟩, ⟨none, 0⟩]⟩
    1 2 3 out m' (by decide) ⟨1, 2, 1, 2, by decide, by decide⟩
    (by decide) hp
  exact ⟨out, m', hp, h1, h2⟩

/-- C4: after each public operation that completes on a well-formed map
(insert, remove_left, remove_right), every occupied slot of either array
sits at displacement strictly below `W` from its stored ideal index — in
particular every occupant relocated by the placement engine still meets
its own `W`-bound ("feasibility criterion" verified via the preserved
invariant). -/
theorem claim_C4 {L R : Type} [DecidableEq L] [DecidableEq R] (W : Nat)
    (hL : L → Nat) (hR : R → Nat) (m : BiMap L R) (hw : WfMap W hL hR m) :
    (∀ fuel l r out m', bimap_insert W hL hR fuel m l r = some (out, m') →
      (∀ i k p d, slot_data m'.left_data i = some (k, p, d) →
        (m'.left_data.length + i - d) % m'.left_data.length < W) ∧
      (∀ j v q dv, slot_data m'.right_data j = some (v, q, dv) →
        (m'.right_data.length + j - dv) % m'.right_data.length < W)) ∧
    (∀ key o m', remove_left W hL hR m key = some (o, m') →
      (∀ i k p d, slot_data m'.left_data i = some (k, p, d) →
        (m'.left_data.length + i - d) % m'.left_data.length < W) ∧
      (∀ j v q dv, slot_data m'.right_data j = some (v, q, dv) →
        (m'.right_data.length + j - dv) % m'.right_data.length < W)) ∧
    (∀ key o m', remove_right W hL hR m key = some (o, m') →
      (∀ i k p d, slot_data m'.left_data i = some (k, p, d) →
        (m'.left_data.length + i - d) % m'.left_data.length < W) ∧
      (∀ j v q dv, slot_data m'.right_data j = some (v, q, dv) →
        (m'.right_data.length + j - dv) % m'.right_data.length < W)) := by
  refine ⟨?_, ?_, ?_⟩
  · intro fuel l r out m' hres
    have post := bimap_insert_ok_spec W hL hR fuel m l r out m' hw hres
    exact ⟨fun i k p d hs => post.wf.left.disp_lt hs,
      fun j v q dv hs => post.wf.right.disp_lt hs⟩
  · intro key o m' hres
    have hw' := remove_left_wf hw hres
    exact ⟨fun i k p d hs => hw'.left.disp_lt hs,
      fun j v q dv hs => hw'.right.disp_lt hs⟩
  · intro key o m' hres
    have hw' := remove_right_wf hw hres
    exact ⟨fun i k p d hs => hw'.left.disp_lt hs,
      fun j v q dv hs => hw'.right.disp_lt hs⟩

/-- Witness for C4: the displacement bound after inserting into a fresh
5-slot map. -/
theorem claim_C4_witness :
    ∃ out m', bimap_insert 4 (fun n : Nat => n) (fun n : Nat => n) 3
        ⟨0, empty_vec 4 Nat 5, empty_vec 4 Nat 5⟩ 1 2 = some (out, m') ∧
      (∀ i k p d, slot_data m'.left_data i = some (k, p, d) →
        (m'.left_data.length + i - d) % m'.left_data.length < 4) := by
  have hsome : (bimap_insert 4 (fun n : Nat => n) (fun n : Nat => n) 3
      ⟨0, empty_vec 4 Nat 5, empty_vec 4 Nat 5⟩ 1 2).isSome = true := by
    decide
  obtain ⟨p, hp⟩ := Option.isSome_iff_exists.mp hsome
  obtain ⟨out, m'⟩ := p
  obtain ⟨hins, -, -⟩ := claim_C4 4 (fun n : Nat => n) (fun n : Nat => n)
    ⟨0, empty_vec 4 Nat 5, empty_vec 4 Nat 5⟩ (by decide)
  exact ⟨out, m', hp, (hins 3 1 2 out m' hp).1⟩

/-- C8: re-inserting an already stored pair `(l, r)` reports both evicted
counterparts `(Some r, Some l)`, stores the same pair set, keeps
`get_left(l) = Some(r)` and leaves `len()` unchanged. -/
theorem claim_C8 {L R : Type} [DecidableEq L] [DecidableEq R] (W : Nat)
    (hL : L → Nat) (hR : R → Nat) (fuel : Nat) (m : BiMap L R) (l : L)
    (r : R) (out : Option R × Option L) (m' : BiMap L R)
    (hw : WfMap W hL hR m)
    (hab : AssocP m.left_data m.right_data l r)
    (hres : bimap_insert W hL hR fuel m l r = some (out, m')) :
    out = (some r, some l) ∧
    (∀ k w, AssocP m'.left_data m'.right_data k w ↔
      AssocP m.left_data m.right_data k w) ∧
    get_left W hL hR m' l = some (some r) ∧
    m'.len = m.len := by
  have post := bimap_insert_ok_spec W hL hR fuel m l r out m' hw hres
  have ho1 := post.out1_some r hab
  have ho2 := post.out2_some l hab
  refine ⟨?_, ?_, ?_, post.len_eq hab⟩
  · obtain ⟨o1, o2⟩ := out
    rw [show (o1, o2).1 = o1 from rfl] at ho1
    rw [show (o1, o2).2 = o2 from rfl] at ho2
    rw [ho1, ho2]
  · intro k w
    rw [post.pairs k w]
    constructor
    · rintro (⟨hk, hw2⟩ | ⟨ha, -, -⟩)
      · rw [hk, hw2]
        exact hab
      · exact ha
    · intro ha
      by_cases hkl2 : k = l
      · exact Or.inl ⟨hkl2, assocP_func hw.left (hkl2 ▸ ha) hab⟩
      · refine Or.inr ⟨ha, hkl2, ?_⟩
        intro hc
        exact hkl2 (assocP_func hw.right (assocP_symm.mp (hc ▸ ha))
          (assocP_symm.mp hab))
  · obtain ⟨i, j, d, dv, h1, h2⟩ := (post.pairs l r).mpr (Or.inl ⟨rfl, rfl⟩)
    unfold get_left
    rw [if_pos (wf_invariants_check post.wf)]
    exact bimap_get_hit W hL post.wf.left h1 h2

/-- Witness for C8: re-inserting the stored pair `(1, 2)`. -/
theorem claim_C8_witness :
    ∃ out m', bimap_insert 4 (fun n : Nat => n) (fun n : Nat => n) 3
        ⟨1, [⟨none, 0⟩, ⟨some (1, 2, 1), 1⟩, ⟨none, 0⟩, ⟨none, 0⟩,
            ⟨none, 0⟩],
          [⟨none, 0⟩, ⟨none, 0⟩, ⟨some (2, 1, 2), 1⟩, ⟨none, 0⟩,
            ⟨none, 0⟩]⟩ 1 2 = some (out, m') ∧
      out = (some 2, some 1) ∧ m'.len = 1 ∧
      get_left 4 (fun n : Nat => n) (fun n : Nat => n) m' 1 =
        some (some 2) := by
  have hsome : (bimap_insert 4 (fun n : Nat => n) (fun n : Nat => n) 3
      ⟨1, [⟨none, 0⟩, ⟨some (1, 2, 1), 1⟩, ⟨none, 0⟩, ⟨none, 0⟩,
          ⟨none, 0⟩],
        [⟨none, 0⟩, ⟨none, 0⟩, ⟨some (2, 1, 2), 1⟩, ⟨none, 0⟩,
          ⟨none, 0⟩]⟩ 1 2).isSome = true := by decide
  obtain ⟨p, hp⟩ := Option.isSome_iff_exists.mp hsome
  obtain ⟨out, m'⟩ := p
  obtain ⟨h1, h2, h3, h4⟩ := claim_C8 4 (fun n : Nat => n)
    (fun n : Nat => n) 3
    ⟨1, [⟨none, 0⟩, ⟨some (1, 2, 1), 1⟩, ⟨none, 0⟩, ⟨none, 0⟩, ⟨none, 0⟩],
      [⟨none, 0⟩, ⟨none, 0⟩, ⟨some (2, 1, 2), 1⟩, ⟨none, 0⟩, ⟨none, 0⟩]⟩
    1 2 out m' (by decide) ⟨1, 2, 1, 2, by decide, by decide⟩ hp
  exact ⟨out, m', hp, h1, h4, h3⟩
